import Mathlib

/-!
# Conway's Game of Life on a torus (`src/conway.c`)

A shallow embedding of the simulation core of `conway.c`: the wrapped board
read `getArrValue`, the neighbour count `countNeighbors`, the generation step
`tick`, the input queries, `processInputs`, `updateInputs` and the body of the
`while (going)` loop of `main`.

Conventions of the embedding.

* A C `int` is an `Int`; an arithmetic result outside `[INT_MIN, INT_MAX]`
  is undefined behaviour and is modelled by `none` (`ckInt`).
* A C array is a `List Int`; a read or write outside it is `none`.
* `%` is the truncating remainder of C (`Int.tmod`).
* The global variables of the program are the fields of `State`.
* `speed` is a `float` that only ever holds integers (it starts at 500 and
  moves in steps of 10 between the clamps 10 and 1000).  It is modelled by an
  `Int`; every `int`/`float` conversion and every `float` operation rounds
  its exact integer result to binary32 (`roundF32`), that is, `float`
  expressions are evaluated in single precision (`FLT_EVAL_METHOD == 0`).
* `printf` and the SDL calls that only draw are not part of the state.
* `tickCalls` is a ghost counter: it is incremented on entry to `tick` and
  read by nothing.
-/

namespace Conway

/-! ## Machine arithmetic and arrays -/

def INT_MAX : Int := 2147483647

def INT_MIN : Int := -2147483648

/-- Value of an `int` expression: defined when it is representable. -/
def ckInt (v : Int) : Option Int :=
  if INT_MIN ≤ v ∧ v ≤ INT_MAX then some v else none

/-- C remainder `a % b` on `int`: truncating, undefined for `b = 0` and for
`INT_MIN % -1`. -/
def cMod (a b : Int) : Option Int :=
  if b = 0 ∨ (a = INT_MIN ∧ b = -1) then none else some (Int.tmod a b)

/-- C quotient `a / b` on `int`: truncating, undefined for `b = 0` and for
`INT_MIN / -1`. -/
def cDiv (a b : Int) : Option Int :=
  if b = 0 ∨ (a = INT_MIN ∧ b = -1) then none else some (Int.tdiv a b)

/-- Spacing of binary32 around a magnitude `a` (searched over `n` halvings):
1 below `2^24`, then doubling with every further binary digit. -/
def quantumAux : Nat → Nat → Nat
  | 0, _ => 1
  | n + 1, a => if a < 16777216 then 1 else 2 * quantumAux n (a / 2)

/-- Spacing of binary32 around the magnitude `a`, for `a` below `2^152`. -/
def quantum (a : Nat) : Nat := quantumAux 128 a

/-- An integer rounded to binary32, to nearest with ties to even: the value
of `(float)v` for an `int` `v`, and the result of a `float` operation whose
exact result is the integer `v`.  Integers of magnitude up to `2^24` are
unchanged. -/
def roundF32 (v : Int) : Int :=
  let a := v.natAbs
  let q := quantum a
  let k := a / q
  let r := a % q
  let m := if 2 * r < q then k * q
    else if q < 2 * r then (k + 1) * q
    else if k % 2 = 0 then k * q else (k + 1) * q
  if v < 0 then -(m : Int) else m

/-- Read `arr[i]`. -/
def readArr (arr : List Int) (i : Int) : Option Int :=
  if i < 0 then none else arr[i.toNat]?

/-- Write `arr[i] = v`. -/
def writeArr (arr : List Int) (i : Int) (v : Int) : Option (List Int) :=
  if 0 ≤ i ∧ i.toNat < arr.length then some (arr.set i.toNat v) else none

/-- Loop `for (i = lo; ...; ++i)` unrolled for `n` iterations of `body`. -/
def forLoopFrom {σ : Type} (body : Int → σ → Option σ) : Nat → Int → σ → Option σ
  | 0, _, s => some s
  | n + 1, i, s => (body i s).bind (forLoopFrom body n (i + 1))

/-- Loop `for (i = lo; i < hi; ++i) body`, where `body` changes neither `i`
nor the bound. -/
def forLt {σ : Type} (lo hi : Int) (body : Int → σ → Option σ) (s : σ) : Option σ :=
  forLoopFrom body (hi - lo).toNat lo s

/-- Loop `for (i = lo; i <= hi; ++i) body`. -/
def forLe {σ : Type} (lo hi : Int) (body : Int → σ → Option σ) (s : σ) : Option σ :=
  forLoopFrom body (hi + 1 - lo).toNat lo s

/-! ## Program state -/

structure Point where
  x : Int
  y : Int
deriving DecidableEq, Repr

/-- The `enum inputs` of the program. -/
def SPACE : Int := 0

def L_CLICK : Int := 1

def R_CLICK : Int := 2

def UP_ARROW : Int := 3

def DOWN_ARROW : Int := 4

def ENTER : Int := 5

def S : Int := 6

def NUM_INPUTS : Int := 7

/-- The global variables of `conway.c` that the simulation core uses, and the
ghost counter `tickCalls`. -/
structure State where
  ROWS : Int
  COLS : Int
  WINDOW_W : Int
  WINDOW_H : Int
  CELL_W : Int
  CELL_H : Int
  gameBoard : List Int
  tempBoard : List Int
  speed : Int
  Mouse : Point
  MouseRect : Point
  currInputs : List Int
  prevInputs : List Int
  paused : Int
  going : Int
  tickCalls : Nat
deriving DecidableEq, Repr

/-- The all-dead 80x80 board. -/
@[irreducible]
def zeroBoard : List Int := List.replicate 6400 0

/-- Function `allocateBoard(w, h)`: `calloc` of `w * h` zeroed cells. -/
def allocateBoard (w h : Int) : Option (List Int) :=
  (ckInt (w * h)).bind fun n => if 0 ≤ n then some (List.replicate n.toNat 0) else none

/-- The state after `init()` with the initial values of the globals
(`ROWS = COLS = 80`, an 800x800 window, `speed = 500`, `paused = 1`). -/
def initState : State where
  ROWS := 80
  COLS := 80
  WINDOW_W := 800
  WINDOW_H := 800
  CELL_W := 10
  CELL_H := 10
  gameBoard := zeroBoard
  tempBoard := zeroBoard
  speed := 500
  Mouse := ⟨0, 0⟩
  MouseRect := ⟨0, 0⟩
  currInputs := List.replicate 7 0
  prevInputs := List.replicate 7 0
  paused := 1
  going := 1
  tickCalls := 0

/-! ## Board access -/

/-- Function `getArrValue(arr, x, y, w, h)`:
`x = (x + w) % w; y = (y + w) % h; return arr[x + (h * y)];` -/
def getArrValue (arr : List Int) (x y w h : Int) : Option Int :=
  (ckInt (x + w)).bind fun xw =>
  (cMod xw w).bind fun x1 =>
  (ckInt (y + w)).bind fun yw =>
  (cMod yw h).bind fun y1 =>
  (ckInt (h * y1)).bind fun hy =>
  (ckInt (x1 + hy)).bind fun idx =>
  readArr arr idx

/-! ## Input queries -/

/-- Function `getInput(key)`. -/
def getInput (s : State) (key : Int) : Option Int :=
  if key < 0 ∨ key > NUM_INPUTS then some 0 else readArr s.currInputs key

/-- Function `getFirstInput(key)`: `currInputs[key] && !prevInputs[key]`; the right
operand is read only when the left one is non-zero. -/
def getFirstInput (s : State) (key : Int) : Option Int :=
  if key < 0 ∨ key > NUM_INPUTS then some 0
  else (readArr s.currInputs key).bind fun c =>
    if c ≠ 0 then (readArr s.prevInputs key).bind fun p => some (if p = 0 then 1 else 0)
    else some 0

/-- Function `getLastInput(key)`: `!currInputs[key] && prevInputs[key]`. -/
def getLastInput (s : State) (key : Int) : Option Int :=
  if key < 0 ∨ key > NUM_INPUTS then some 0
  else (readArr s.currInputs key).bind fun c =>
    if c = 0 then (readArr s.prevInputs key).bind fun p => some (if p ≠ 0 then 1 else 0)
    else some 0

/-! ## The rule engine -/

/-- Body of the inner loop of `countNeighbors` at `(i, j)`: the centre is
skipped, any other cell that reads as `1` increments `count`. -/
def countCell (s : State) (board : List Int) (x y i j count : Int) : Option Int :=
  if i = x ∧ y = j then some count
  else (getArrValue board i j s.COLS s.ROWS).bind fun v =>
    if v = 1 then ckInt (count + 1) else some count

/-- Function `countNeighbors(&board, x, y)`; `COLS` and `ROWS` are read from the state.
The loop bounds `x - 1`, `x + 1`, `y - 1`, `y + 1` are taken as they are:
the function is called with `x` and `y` inside the grid only. -/
def countNeighbors (s : State) (board : List Int) (x y : Int) : Option Int :=
  forLe (x - 1) (x + 1) (fun i count =>
    forLe (y - 1) (y + 1) (fun j count => countCell s board x y i j count) count) 0

/-- Write `gameBoard[i + (j * ROWS)] = v`. -/
def setGameCell (s : State) (i j v : Int) : Option State :=
  (ckInt (j * s.ROWS)).bind fun jr =>
  (ckInt (i + jr)).bind fun idx =>
  (writeArr s.gameBoard idx v).bind fun gb => some { s with gameBoard := gb }

/-- Body of the inner loop of `tick` at cell `(i, j)`. -/
def tickCell (i j : Int) (s : State) : Option State :=
  (countNeighbors s s.tempBoard i j).bind fun count =>
  (getArrValue s.tempBoard i j s.COLS s.ROWS).bind fun v =>
    if v = 1 then
      (if count < 2 then setGameCell s i j 0 else some s).bind fun s1 =>
      if count > 3 then setGameCell s1 i j 0 else some s1
    else if count = 3 then setGameCell s i j 1
    else some s

/-- First loop of `tick`: `tempBoard[i] = gameBoard[i]` for `i < ROWS * COLS`. -/
def tickCopy (s : State) : Option State :=
  (ckInt (s.ROWS * s.COLS)).bind fun n =>
  forLt 0 n (fun i s =>
    (readArr s.gameBoard i).bind fun v =>
    (writeArr s.tempBoard i v).bind fun tb => some { s with tempBoard := tb }) s

/-- Function `tick()`. -/
def tick (s : State) : Option State :=
  (tickCopy { s with tickCalls := s.tickCalls + 1 }).bind fun s1 =>
  forLt 0 s1.COLS (fun i s2 => forLt 0 s2.ROWS (fun j s3 => tickCell i j s3) s2) s1

/-- Function `draw()` restricted to the modelled state: it reads every cell through
`getArrValue(gameBoard, i, j, COLS, ROWS)` and changes no modelled variable
(the window is created without `SDL_WINDOW_RESIZABLE`, so `SDL_GetWindowSize`
stores the values `WINDOW_W` and `WINDOW_H` already hold). -/
def draw (s : State) : Option State :=
  forLt 0 s.COLS (fun i s1 => forLt 0 s1.ROWS (fun j s2 =>
    (getArrValue s2.gameBoard i j s2.COLS s2.ROWS).bind fun _ => some s2) s1) s

/-! ## The controller -/

/-- Painting: `if (getInput(L_CLICK) || getInput(R_CLICK))
gameBoard[MouseRect.x + (MouseRect.y * ROWS)] = getInput(L_CLICK);` -/
def paintStep (s : State) : Option State :=
  (getInput s L_CLICK).bind fun l =>
  (if l ≠ 0 then some (1 : Int)
    else (getInput s R_CLICK).bind fun r => some (if r ≠ 0 then 1 else 0)).bind fun held =>
  if held ≠ 0 then
    (getInput s L_CLICK).bind fun v =>
    (ckInt (s.MouseRect.y * s.ROWS)).bind fun yr =>
    (ckInt (s.MouseRect.x + yr)).bind fun idx =>
    (writeArr s.gameBoard idx v).bind fun gb => some { s with gameBoard := gb }
  else some s

/-- Pause toggle: `if (getFirstInput(SPACE)) paused = !paused;` -/
def pauseStep (s : State) : Option State :=
  (getFirstInput s SPACE).bind fun e =>
  if e ≠ 0 then some { s with paused := if s.paused = 0 then 1 else 0 } else some s

/-- Speed up: `if (getInput(UP_ARROW)) { speed -= 10; if (speed < 10) speed = 10; }` -/
def speedUpStep (s : State) : Option State :=
  (getInput s UP_ARROW).bind fun u =>
  let v := roundF32 (s.speed - 10)
  if u ≠ 0 then some { s with speed := if v < 10 then 10 else v } else some s

/-- Slow down: `if (getInput(DOWN_ARROW)) { speed += 10; if (speed > 1000) speed = 1000; }` -/
def speedDownStep (s : State) : Option State :=
  (getInput s DOWN_ARROW).bind fun d =>
  let v := roundF32 (s.speed + 10)
  if d ≠ 0 then some { s with speed := if v > 1000 then 1000 else v } else some s

/-- Clear-board: `if (getFirstInput(ENTER))` zero `gameBoard[i]` and
`tempBoard[i]` for `i < ROWS * COLS`, then `paused = 1`. -/
def clearStep (s : State) : Option State :=
  (getFirstInput s ENTER).bind fun e =>
  if e ≠ 0 then
    (ckInt (s.ROWS * s.COLS)).bind fun n =>
    (forLt 0 n (fun i s1 =>
      (writeArr s1.gameBoard i 0).bind fun gb =>
      (writeArr s1.tempBoard i 0).bind fun tb =>
        some { s1 with gameBoard := gb, tempBoard := tb }) s).bind fun s2 =>
    some { s2 with paused := 1 }
  else some s

/-- Single step: `if (getFirstInput(S) && paused) tick();` -/
def singleStep (s : State) : Option State :=
  (getFirstInput s S).bind fun e =>
  if e ≠ 0 ∧ s.paused ≠ 0 then tick s else some s

/-- Function `processInputs()`. -/
def processInputs (s : State) : Option State :=
  (paintStep s).bind fun s1 =>
  (pauseStep s1).bind fun s2 =>
  (speedUpStep s2).bind fun s3 =>
  (speedDownStep s3).bind fun s4 =>
  (clearStep s4).bind fun s5 =>
  (singleStep s5).bind fun s6 =>
  draw s6

/-! ## Input events -/

/-- Mouse buttons of an `SDL_MouseButtonEvent`, as far as the program tells
them apart (`SDL_BUTTON_LEFT`, `SDL_BUTTON_RIGHT`, any other). -/
inductive Button where
  | left
  | right
  | other
deriving DecidableEq, Repr

/-- Key symbols of an `SDL_KeyboardEvent`, as far as the program tells them
apart. -/
inductive Keysym where
  | up
  | down
  | space
  | ret
  | ret2
  | s
  | other
deriving DecidableEq, Repr

/-- The `SDL_Event`s the program looks at; `pressed` is
`state == SDL_PRESSED`. -/
inductive Event where
  | mouseButton (button : Button) (pressed : Bool)
  | mouseMotion (x y : Int)
  | key (sym : Keysym) (pressed : Bool)
  | quit
  | other
deriving DecidableEq, Repr

/-- Value of the C comparison `state == SDL_PRESSED`. -/
def pressedVal (pressed : Bool) : Int := if pressed then 1 else 0

/-- Function `updateMouseRect(x, y)`. -/
def updateMouseRect (s : State) (x y : Int) : Option State :=
  if s.CELL_W = 0 ∨ s.CELL_H = 0 then some s
  else
    (cDiv x s.CELL_W).bind fun mx =>
    (cDiv y s.CELL_H).bind fun my =>
    some { s with MouseRect := ⟨mx, my⟩ }

/-- Store `currInputs[key] = v`. -/
def setInput (s : State) (key v : Int) : Option State :=
  (writeArr s.currInputs key v).bind fun ci => some { s with currInputs := ci }

/-- Function `updateInputs(&e)`. -/
def updateInputs (e : Event) (s : State) : Option State :=
  match e with
  | Event.mouseButton b p =>
    (if b = Button.left then setInput s L_CLICK (pressedVal p) else some s).bind fun s1 =>
    if b = Button.right then setInput s1 R_CLICK (pressedVal p) else some s1
  | Event.mouseMotion x y =>
    updateMouseRect { s with Mouse := ⟨x, y⟩ } x y
  | Event.key sym p =>
    match sym with
    | Keysym.up => setInput s UP_ARROW (pressedVal p)
    | Keysym.down => setInput s DOWN_ARROW (pressedVal p)
    | Keysym.space => setInput s SPACE (pressedVal p)
    | Keysym.ret => setInput s ENTER (pressedVal p)
    | Keysym.ret2 => setInput s ENTER (pressedVal p)
    | Keysym.s => setInput s S (pressedVal p)
    | Keysym.other => some s
  | Event.quit => some { s with going := 0 }
  | Event.other => some s

/-! ## The main loop -/

/-- Event loop `while (SDL_PollEvent(&e))` over the pending events: a quit
event clears `going` and leaves the loop, any other event goes to
`updateInputs`. -/
def pollEvents : List Event → State → Option State
  | [], s => some s
  | e :: es, s =>
    if e = Event.quit then some { s with going := 0 }
    else (updateInputs e s).bind (pollEvents es)

/-- The call `memcpy(prevInputs, currInputs, NUM_INPUTS * sizeof(int))`. -/
def copyInputs (s : State) : Option State :=
  if 7 ≤ s.currInputs.length ∧ 7 ≤ s.prevInputs.length then
    some { s with prevInputs := s.currInputs.take 7 ++ s.prevInputs.drop 7 }
  else none

/-- Lag-draining loop `while (lag >= speed) { if (!paused) tick(); lag -= speed; }`.
One unit of fuel is one evaluation of the loop test; `none` also stands for
fuel running out.  `lag` is converted to `float` for the comparison and for
the subtraction, and the difference is converted back to `int`. -/
def lagLoop : Nat → Int → State → Option (Int × State)
  | 0, _, _ => none
  | fuel + 1, lag, s =>
    if roundF32 lag ≥ s.speed then
      (if s.paused = 0 then tick s else some s).bind fun s1 =>
      (ckInt (roundF32 (roundF32 lag - s1.speed))).bind fun lag1 =>
      lagLoop fuel lag1 s1
    else some (lag, s)

/-- Local variables `prevTime` and `lag` of `main`. -/
structure MainVars where
  prevTime : Int
  lag : Int
deriving DecidableEq, Repr

/-- First half of one iteration of `while (going)`: read the clock
(`currTime`), add the elapsed time to `lag` and drain the event queue.  The
result is the state in which `processInputs` is called. -/
def frameHead (currTime : Int) (evs : List Event) (v : MainVars) (s : State) :
    Option (MainVars × State) :=
  (ckInt (currTime - v.prevTime)).bind fun passTime =>
  (ckInt (v.lag + passTime)).bind fun lag1 =>
  (pollEvents evs s).bind fun s1 => some ({ v with lag := lag1 }, s1)

/-- Second half of one iteration: `processInputs`, the copy of `currInputs`
into `prevInputs`, the lag-draining loop, `draw`, `prevTime = currTime`. -/
def frameTail (fuel : Nat) (currTime : Int) (v : MainVars) (s : State) :
    Option (MainVars × State) :=
  (processInputs s).bind fun s1 =>
  (copyInputs s1).bind fun s2 =>
  (lagLoop fuel v.lag s2).bind fun r =>
  (draw r.2).bind fun s3 => some ({ prevTime := currTime, lag := r.1 }, s3)

/-- One iteration of `while (going)` in `main`. -/
def mainIter (fuel : Nat) (currTime : Int) (evs : List Event) (v : MainVars) (s : State) :
    Option (MainVars × State) :=
  (frameHead currTime evs v s).bind fun r => frameTail fuel currTime r.1 r.2

/-- Run `while (going)` over a list of frames (clock value and pending events
of each) and collect the state in which `processInputs` is called in each;
the run ends when the frames are used up or `going` is 0. -/
def framesFrom (fuel : Nat) : List (Int × List Event) → MainVars → State → Option (List State)
  | [], _, _ => some []
  | f :: fs, v, s =>
    if s.going = 0 then some []
    else
      (frameHead f.1 f.2 v s).bind fun r =>
      (frameTail fuel f.1 r.1 r.2).bind fun r1 =>
      (framesFrom fuel fs r1.1 r1.2).bind fun tr => some (r.2 :: tr)

/-! ## Specification-level notions -/

/-- Cell `(col, row)` of an 80x80 board, by the flattened index
`col + row * 80`; cells outside the list read as `0`. -/
def cellAt (board : List Int) (col row : Int) : Int :=
  board.getD (col + row * 80).toNat 0

/-- The eight offsets `{-1,0,1} x {-1,0,1}` other than `(0,0)`. -/
def neighbourOffsets : List (Int × Int) :=
  (List.product [-1, 0, 1] [-1, 0, 1]).filter fun d => d ≠ (0, 0)

/-- Number of offsets `(dx, dy)` whose toroidally wrapped cell
`((x + dx) mod 80, (y + dy) mod 80)` has value `1`. -/
def liveNeighbours (board : List Int) (x y : Int) : Nat :=
  neighbourOffsets.countP fun d => cellAt board ((x + d.1) % 80) ((y + d.2) % 80) = 1

/-- The rule table of the specification on binary cells (`1` alive, `0` dead). -/
def nextState (cell : Int) (n : Nat) : Int :=
  if cell = 1 then
    if n < 2 then 0 else if n = 2 ∨ n = 3 then 1 else 0
  else
    if n = 3 then 1 else 0

/-- What `tick` leaves in a cell holding `old` with `n` live neighbours: a
cell it does not write keeps `old`. -/
def tickRule (old : Int) (n : Nat) : Int :=
  if old = 1 then (if n < 2 ∨ n > 3 then 0 else old) else if n = 3 then 1 else old

/-- What `tick` leaves at flattened index `k` of the 80x80 board `old`. -/
def newCell (old : List Int) (k : Nat) : Int :=
  tickRule (old.getD k 0) (liveNeighbours old ((k : Int) % 80) ((k : Int) / 80))

/-- The board `tick` computes from the 80x80 board `gb`, cell by cell. -/
@[irreducible]
def tickBoard (gb : List Int) : List Int :=
  (List.range 6400).map (newCell gb)

/-- Indicator of a live cell. -/
def live (v : Int) : Int := if v = 1 then 1 else 0

/-- Loop invariant of the second loop of `tick`: the state is `sb` with some
80x80 `gameBoard` in which the cells selected by `p` hold their new value and
the others still hold the value of the snapshot `old`. -/
def TickInv (sb : State) (old : List Int) (p : Nat → Prop) (t : State) : Prop :=
  ∃ g, t = { sb with gameBoard := g } ∧ g.length = 6400 ∧
    ∀ k, k < 6400 → (p k → g.getD k 0 = newCell old k) ∧ (¬ p k → g.getD k 0 = old.getD k 0)

/-- The state is the configured one: an 80x80 grid with both boards allocated. -/
def Configured (s : State) : Prop :=
  s.ROWS = 80 ∧ s.COLS = 80 ∧ s.gameBoard.length = 6400 ∧ s.tempBoard.length = 6400

instance (s : State) : Decidable (Configured s) := by
  unfold Configured
  infer_instance

/-- Both input arrays have their `NUM_INPUTS` entries. -/
def InputsOk (s : State) : Prop :=
  s.currInputs.length = 7 ∧ s.prevInputs.length = 7

instance (s : State) : Decidable (InputsOk s) := by
  unfold InputsOk
  infer_instance

/-! ## Patterns on the torus -/

/-- The 80x80 board whose cell `(col, row)` is alive (1) exactly when
`p col row`, and dead (0) otherwise. -/
@[irreducible]
def boardOf (p : Int → Int → Bool) : List Int :=
  (List.range 6400).map fun (k : Nat) => if p ((k : Int) % 80) ((k : Int) / 80) then 1 else 0

/-- Number of the eight wrapped neighbours of `(x, y)` that satisfy `p`. -/
def nbrCount (p : Int → Int → Bool) (x y : Int) : Nat :=
  neighbourOffsets.countP fun d => p ((x + d.1) % 80) ((y + d.2) % 80)

/-- Next generation of the pattern `p` at `(x, y)` by the rule table. -/
def lifeRule (p : Int → Int → Bool) (x y : Int) : Bool :=
  decide (nextState (if p x y then 1 else 0) (nbrCount p x y) = 1)

/-- The pattern `P`, given in coordinates relative to an origin, placed with
its origin at `(c, r)` on the torus. -/
def placeAt (c r : Int) (P : Nat → Nat → Bool) : Int → Int → Bool :=
  fun col row => P ((col - c) % 80).toNat ((row - r) % 80).toNat

/-- The eight neighbour offsets as non-negative residues mod 80. -/
def neighbourOffsetsN : List (Nat × Nat) :=
  [(79, 79), (79, 0), (79, 1), (0, 79), (0, 1), (1, 79), (1, 0), (1, 1)]

/-- Neighbour count of a pattern in relative coordinates. -/
def nbrCountN (P : Nat → Nat → Bool) (a b : Nat) : Nat :=
  neighbourOffsetsN.countP fun d => P ((a + d.1) % 80) ((b + d.2) % 80)

/-- Next generation of a pattern in relative coordinates. -/
def lifeRuleN (P : Nat → Nat → Bool) (a b : Nat) : Bool :=
  decide (nextState (if P a b then 1 else 0) (nbrCountN P a b) = 1)

/-- Horizontal blinker centred at `(c, r)`: the only live cells are
`(c-1, r)`, `(c, r)`, `(c+1, r)`, columns taken mod 80. -/
def blinkerH (c r : Int) : List Int :=
  boardOf fun col row => decide (row = r ∧ (col = (c - 1) % 80 ∨ col = c ∨ col = (c + 1) % 80))

/-- Vertical blinker centred at `(c, r)`: the only live cells are
`(c, r-1)`, `(c, r)`, `(c, r+1)`, rows taken mod 80. -/
def blinkerV (c r : Int) : List Int :=
  boardOf fun col row => decide (col = c ∧ (row = (r - 1) % 80 ∨ row = r ∨ row = (r + 1) % 80))

/-- Membership in the 2x2 block with corner `(c, r)`: the cells `(c, r)`,
`(c+1, r)`, `(c, r+1)`, `(c+1, r+1)`, coordinates wrapped. -/
def inBlock (c r col row : Int) : Bool :=
  decide ((col = c ∨ col = (c + 1) % 80) ∧ (row = r ∨ row = (r + 1) % 80))

/-- The board whose only live cells are the 2x2 block with corner `(c, r)`. -/
def blockBoard (c r : Int) : List Int :=
  boardOf (inBlock c r)

/-- Horizontal blinker relative to its centre. -/
def relH (a b : Nat) : Bool := decide (b = 0 ∧ (a = 79 ∨ a = 0 ∨ a = 1))

/-- Vertical blinker relative to its centre. -/
def relV (a b : Nat) : Bool := decide (a = 0 ∧ (b = 79 ∨ b = 0 ∨ b = 1))

/-- The 2x2 block relative to its corner. -/
def relBlock (a b : Nat) : Bool := decide ((a = 0 ∨ a = 1) ∧ (b = 0 ∨ b = 1))

/-- The initial state with a horizontal blinker centred on the left edge of
the bottom row. -/
def blinkerState : State :=
  { initState with gameBoard := blinkerH 0 79 }

/-- The initial state with a block straddling the bottom-right corner. -/
def blockState : State :=
  { initState with gameBoard := blockBoard 79 79 }

/-- A pattern in relative coordinates lies within one cell of its origin. -/
def NearOrigin (P : Nat → Nat → Bool) : Prop :=
  ∀ a b, P a b = true → (a = 79 ∨ a = 0 ∨ a = 1) ∧ (b = 79 ∨ b = 0 ∨ b = 1)

/-- The residues within two cells of the origin. -/
def nearList : List Nat := [78, 79, 0, 1, 2]

/-- The state with the boards and the call counter blanked: what `tick`
never touches. -/
def controls (s : State) : State :=
  { s with gameBoard := [], tempBoard := [], tickCalls := 0 }

/-- The effect of `n` calls of `tick()` in a row. -/
def iterTick : Nat → State → Option State
  | 0, s => some s
  | n + 1, s => (tick s).bind (iterTick n)

/-- The initial state after un-pausing. -/
def runningState : State :=
  { initState with paused := 0 }

/-- The initial state at the fastest tick interval, still paused. -/
def fastPausedState : State :=
  { initState with speed := 10 }

/-! ## The controller, step by step, as state transformers -/

/-- Value of `currInputs[k]`. -/
def cur (s : State) (k : Int) : Int := s.currInputs.getD k.toNat 0

/-- Value of `prevInputs[k]`. -/
def prv (s : State) (k : Int) : Int := s.prevInputs.getD k.toNat 0

/-- Flattened index of the cursor cell, `MouseRect.x + MouseRect.y * ROWS`. -/
def cursorIdx (s : State) : Nat := (s.MouseRect.x + s.MouseRect.y * s.ROWS).toNat

/-- The cursor cell is a cell of the grid. -/
def CursorInGrid (s : State) : Prop :=
  0 ≤ s.MouseRect.x ∧ s.MouseRect.x < s.COLS ∧ 0 ≤ s.MouseRect.y ∧ s.MouseRect.y < s.ROWS

instance (s : State) : Decidable (CursorInGrid s) := by
  unfold CursorInGrid
  infer_instance

/-- Board left by the painting statement. -/
def paintBoard (s : State) : List Int :=
  if cur s L_CLICK ≠ 0 ∨ cur s R_CLICK ≠ 0 then s.gameBoard.set (cursorIdx s) (cur s L_CLICK)
  else s.gameBoard

/-- State after the painting statement. -/
def paintPure (s : State) : State := { s with gameBoard := paintBoard s }

/-- Value of `paused` after the pause toggle. -/
def pauseVal (s : State) : Int :=
  if cur s SPACE ≠ 0 ∧ prv s SPACE = 0 then (if s.paused = 0 then 1 else 0) else s.paused

/-- State after the pause toggle. -/
def pausePure (s : State) : State := { s with paused := pauseVal s }

/-- Value of `speed` after the `UP_ARROW` statement. -/
def speedUpVal (s : State) : Int :=
  if cur s UP_ARROW ≠ 0 then
    (if roundF32 (s.speed - 10) < 10 then 10 else roundF32 (s.speed - 10))
  else s.speed

/-- State after the `UP_ARROW` statement. -/
def speedUpPure (s : State) : State := { s with speed := speedUpVal s }

/-- Value of `speed` after the `DOWN_ARROW` statement. -/
def speedDownVal (s : State) : Int :=
  if cur s DOWN_ARROW ≠ 0 then
    (if roundF32 (s.speed + 10) > 1000 then 1000 else roundF32 (s.speed + 10))
  else s.speed

/-- State after the `DOWN_ARROW` statement. -/
def speedDownPure (s : State) : State := { s with speed := speedDownVal s }

/-- Value of `speed` after the `UP_ARROW` and `DOWN_ARROW` statements. -/
def speedVal (s : State) : Int := speedDownVal (speedUpPure s)

/-- State after the four statements of `processInputs` that precede the
clear-board statement: the painted board, the toggled `paused`, the adjusted
`speed`. -/
def beforeClear (s : State) : State :=
  { s with gameBoard := paintBoard s, paused := pauseVal s, speed := speedVal s }

/-- The state with both boards zeroed and `paused = 1`. -/
def clearedState (s : State) : State :=
  { s with gameBoard := zeroBoard, tempBoard := zeroBoard, paused := 1 }

/-- Loop invariant of the clear-board loop: the first `i` cells of both
boards are zero. -/
def ClearInv (s : State) (i : Int) (t : State) : Prop :=
  ∃ g tb, t = { s with gameBoard := g, tempBoard := tb } ∧ g.length = 6400 ∧ tb.length = 6400 ∧
    ∀ k : Nat, (k : Int) < i → g[k]? = some 0 ∧ tb[k]? = some 0

/-- The running state with the left button held over cell `(3, 4)`. -/
def paintState : State :=
  { runningState with currInputs := [0, 1, 0, 0, 0, 0, 0], MouseRect := ⟨3, 4⟩ }

/-- A blinker on the board, unpaused, and in this frame ENTER and S are newly
pressed while the left button is held over cell `(3, 4)`. -/
def enterState : State :=
  { blinkerState with currInputs := [0, 1, 0, 0, 0, 1, 1], MouseRect := ⟨3, 4⟩, paused := 0 }

/-- The two input arrays of a state. -/
def inputsOf (s : State) : List Int × List Int := (s.currInputs, s.prevInputs)

/-- The initial state in the frame in which SPACE goes down. -/
def spaceDown : State :=
  { initState with currInputs := [1, 0, 0, 0, 0, 0, 0] }

/-- The state in the following frames, SPACE still down: the pause has been
toggled and `prevInputs` has caught up. -/
def spaceHeld : State :=
  { initState with
      currInputs := [1, 0, 0, 0, 0, 0, 0], prevInputs := [1, 0, 0, 0, 0, 0, 0], paused := 0 }

/-- Four frames at clock value 0: nothing, SPACE pressed, nothing, nothing. -/
def quietFrames : List (Int × List Event) :=
  [(0, []), (0, [Event.key Keysym.space true]), (0, []), (0, [])]

/-- The states in which `processInputs` is called in those four frames. -/
def quietTrace : List State := [initState, spaceDown, spaceHeld, spaceHeld]

/-- State at the end of a frame without clear-board or single step: the
first four statements of `processInputs`, then `prevInputs = currInputs`. -/
def frameEnd (s : State) : State :=
  { beforeClear s with prevInputs := s.currInputs }

/-! ## Start-up and other grid shapes -/

/-- The globals as their initialisers leave them, before `init()`: the
boards are not allocated yet and the cell size is 0. -/
def bootState : State where
  ROWS := 80
  COLS := 80
  WINDOW_W := 800
  WINDOW_H := 800
  CELL_W := 0
  CELL_H := 0
  gameBoard := []
  tempBoard := []
  speed := 500
  Mouse := ⟨0, 0⟩
  MouseRect := ⟨0, 0⟩
  currInputs := List.replicate 7 0
  prevInputs := List.replicate 7 0
  paused := 1
  going := 1
  tickCalls := 0

/-- Loop of `init` that zeroes `currInputs[i]` and `prevInputs[i]` for
`i < NUM_INPUTS`. -/
def initInputs (s : State) : Option State :=
  forLt 0 NUM_INPUTS (fun i s1 =>
    (writeArr s1.currInputs i 0).bind fun ci =>
    (writeArr s1.prevInputs i 0).bind fun pv =>
      some { s1 with currInputs := ci, prevInputs := pv }) s

/-- Function `initRects()`: the rectangle array `gameBoardRects`, allocated
with `ROWS * COLS` entries, is no part of the modelled state, so the
function returns the state as it is; it is defined when every store to
`gameBoardRects[i + (ROWS * j)]` is inside the array and the products
`i * CELL_W` and `j * CELL_H` are representable. -/
def initRects (s : State) : Option State :=
  forLt 0 s.COLS (fun i s1 => forLt 0 s1.ROWS (fun j s2 =>
    (ckInt (s2.ROWS * j)).bind fun rj =>
    (ckInt (i + rj)).bind fun idx =>
    if 0 ≤ idx ∧ idx < s2.ROWS * s2.COLS then
      (ckInt (i * s2.CELL_W)).bind fun _ =>
      (ckInt (j * s2.CELL_H)).bind fun _ => some s2
    else none) s1) s

/-- Function `init()` on the modelled state; `sdlFails` says whether
`SDL_Init` reports an error, in which case `init` returns before it allocates
the boards.  The window and the surfaces are no part of the modelled state. -/
def init (sdlFails : Bool) (s : State) : Option State :=
  (cDiv s.WINDOW_W s.COLS).bind fun cw =>
  (cDiv s.WINDOW_H s.ROWS).bind fun ch =>
  (ckInt (s.ROWS * s.COLS)).bind fun _ =>
  if sdlFails then some { s with CELL_W := cw, CELL_H := ch }
  else
    (allocateBoard s.COLS s.ROWS).bind fun gb =>
    (allocateBoard s.COLS s.ROWS).bind fun tb =>
    (initInputs { s with CELL_W := cw, CELL_H := ch, gameBoard := gb, tempBoard := tb }).bind
      initRects

/-- The cell the claim on wrapped reads names: `arr[(x mod w) + h*(y mod h)]`
with the non-negative remainder. -/
def wrapCell (arr : List Int) (x y w h : Int) : Option Int :=
  readArr arr (x % w + h * (y % h))

/-- The globals with an 850x850 window in place of the 800x800 one. -/
def wideWindowBoot : State :=
  { bootState with WINDOW_W := 850, WINDOW_H := 850 }

/-- A 2-wide, 3-high grid with its boards of 6 cells. -/
def tallState : State :=
  { initState with ROWS := 3, COLS := 2, gameBoard := List.replicate 6 0, tempBoard := List.replicate 6 0 }

/-- A 3-wide, 2-high grid with its boards of 6 cells. -/
def flatState : State :=
  { initState with ROWS := 2, COLS := 3, gameBoard := List.replicate 6 0, tempBoard := List.replicate 6 0 }

/-- The initial state before `init` has computed the cell size. -/
def zeroCellState : State :=
  { initState with CELL_W := 0, CELL_H := 0, MouseRect := ⟨3, 4⟩ }

/-! ## The controller after the clear-board statement -/

/-- State after the clear-board statement of `processInputs`. -/
def afterClear (s : State) : State :=
  if cur s ENTER ≠ 0 ∧ prv s ENTER = 0 then clearedState (beforeClear s) else beforeClear s

/-- Value of `paused` when `processInputs` reaches the single-step test:
after this frame's pause toggle and clear-board handling. -/
def pausedAtCheck (s : State) : Int :=
  if cur s ENTER ≠ 0 ∧ prv s ENTER = 0 then 1 else pauseVal s

/-- The single-step test of `processInputs` succeeds: `S` has a rising edge
and `paused` is non-zero at that moment. -/
def stepsNow (s : State) : Prop :=
  (cur s S ≠ 0 ∧ prv s S = 0) ∧ pausedAtCheck s ≠ 0

instance (s : State) : Decidable (stepsNow s) := by
  unfold stepsNow
  infer_instance

/-- State after the pause toggle and the two speed statements. -/
def afterKnobs (s : State) : State :=
  { s with paused := pauseVal s, speed := speedVal s }

/-- The pair `(paused, speed)` of a state. -/
def knobs (s : State) : Int × Int := (s.paused, s.speed)

/-- C negation `!v`. -/
def lnot (v : Int) : Int := if v = 0 then 1 else 0

/-- The initial state in a frame in which S is newly pressed (still paused). -/
def stepDown : State :=
  { initState with currInputs := [0, 0, 0, 0, 0, 0, 1] }

/-- The running state with UP_ARROW held at the tick interval 15. -/
def upHeldState : State :=
  { runningState with currInputs := [0, 0, 0, 1, 0, 0, 0], speed := 15 }

/-! ## Binary boards and shifted boards -/

/-- Every entry of the list is 0 or 1. -/
def Binary (b : List Int) : Prop := ∀ v ∈ b, v = 0 ∨ v = 1

instance (b : List Int) : Decidable (Binary b) := by
  unfold Binary
  infer_instance

/-- Every held-value stored in `currInputs` is 0 or 1. -/
def InputsBinary (s : State) : Prop := Binary s.currInputs

instance (s : State) : Decidable (InputsBinary s) := by
  unfold InputsBinary
  infer_instance

/-- The 80x80 board `b` shifted by `(dx, dy)` on the torus: the content of
cell `(c, r)` moves to `((c + dx) mod 80, (r + dy) mod 80)`, so cell
`(col, row)` of the result holds what `((col - dx) mod 80, (row - dy) mod 80)`
held. -/
@[irreducible]
def shiftBoard (dx dy : Int) (b : List Int) : List Int :=
  (List.range 6400).map fun (k : Nat) =>
    cellAt b (((k : Int) % 80 - dx) % 80) (((k : Int) / 80 - dy) % 80)

/-- The initial state with a glider near the top-left corner. -/
def gliderState : State :=
  { initState with gameBoard := boardOf fun c r => decide ((c, r) ∈ [((1 : Int), (0 : Int)), (2, 1), (0, 2), (1, 2), (2, 2)]) }

/-! ## Binary32 spacing and further witness states -/

/-- Spacing of binary32 just below the `float` value of the `int` `L`: what
one `lag -= speed` has to overcome to move `lag`. -/
def spacingBelow (L : Int) : Int := (quantum (roundF32 L - 1).toNat : Int)

/-- The blinker state at the fastest tick interval, paused. -/
def fastBlinkerState : State :=
  { blinkerState with speed := 10 }

/-- The board whose cell at flattened index `i` holds `i`: all cells differ. -/
def indexBoard : List Int := (List.range 6400).map Int.ofNat

/-- The state `init` leaves with an 850x850 window. -/
def wideInitState : State :=
  { initState with WINDOW_W := 850, WINDOW_H := 850 }

/-! ## Basic facts -/

theorem zeroBoard_eq : zeroBoard = List.replicate 6400 0 := by
  unfold zeroBoard
  rfl

theorem zeroBoard_length : zeroBoard.length = 6400 := by
  rw [zeroBoard_eq, List.length_replicate]

theorem mem_zeroBoard (v : Int) (h : v ∈ zeroBoard) : v = 0 := by
  rw [zeroBoard_eq] at h
  exact List.eq_of_mem_replicate h

theorem ckInt_of_bounds {v : Int} (h1 : -2147483648 ≤ v) (h2 : v ≤ 2147483647) :
    ckInt v = some v := by
  unfold ckInt INT_MIN INT_MAX
  rw [if_pos ⟨h1, h2⟩]

theorem roundF32_exact {v : Int} (h1 : -16777216 ≤ v) (h2 : v ≤ 16777216) :
    roundF32 v = v := by
  by_cases hlt : v.natAbs < 16777216
  · have hq : quantum v.natAbs = 1 := by
      unfold quantum quantumAux
      rw [if_pos hlt]
    unfold roundF32
    simp only [hq, Nat.div_one, Nat.mod_one, mul_zero, Nat.lt_one_iff, if_true, mul_one,
      zero_lt_one, Nat.zero_lt_one]
    split <;> omega
  · have : v = 16777216 ∨ v = -16777216 := by omega
    rcases this with rfl | rfl <;> decide

theorem cMod_80 {a : Int} (h : 0 ≤ a) : cMod a 80 = some (a % 80) := by
  have h1 : a ≠ INT_MIN := by simp only [INT_MIN]; omega
  simp [cMod, h1, Int.tmod_eq_emod h (by decide : (0 : Int) ≤ 80)]

theorem getElem?_eq_some_getD (l : List Int) (k : Nat) (h : k < l.length) :
    l[k]? = some (l.getD k 0) := by
  simp [List.getD, List.getElem?_eq_getElem h]

theorem readArr_of_lt (l : List Int) (i : Int) (h0 : 0 ≤ i) (h : i.toNat < l.length) :
    readArr l i = some (l.getD i.toNat 0) := by
  unfold readArr
  rw [if_neg (not_lt.mpr h0), getElem?_eq_some_getD l _ h]

/-- The wrapped read on the 80x80 grid, for coordinates not below `-80`. -/
theorem getArrValue_80 (board : List Int) (x y : Int) (hlen : board.length = 6400)
    (hx : -80 ≤ x) (hx2 : x ≤ 2147483567) (hy : -80 ≤ y) (hy2 : y ≤ 2147483567) :
    getArrValue board x y 80 80 = some (cellAt board (x % 80) (y % 80)) := by
  have e1 : ckInt (x + 80) = some (x + 80) := ckInt_of_bounds (by omega) (by omega)
  have e2 : ckInt (y + 80) = some (y + 80) := ckInt_of_bounds (by omega) (by omega)
  have e3 : cMod (x + 80) 80 = some (x % 80) := by
    rw [cMod_80 (by omega)]; congr 1; omega
  have e4 : cMod (y + 80) 80 = some (y % 80) := by
    rw [cMod_80 (by omega)]; congr 1; omega
  have e5 : ckInt (80 * (y % 80)) = some (80 * (y % 80)) :=
    ckInt_of_bounds (by omega) (by omega)
  have e6 : ckInt (x % 80 + 80 * (y % 80)) = some (x % 80 + 80 * (y % 80)) :=
    ckInt_of_bounds (by omega) (by omega)
  have e7 : x % 80 + 80 * (y % 80) = x % 80 + y % 80 * 80 := by omega
  simp only [getArrValue, e1, e2, e3, e4, e5, e6, Option.some_bind, Option.bind_some]
  rw [readArr_of_lt _ _ (by omega) (by omega), cellAt, e7]

/-! ## Neighbour counting -/

theorem live_nonneg (v : Int) : 0 ≤ live v := by
  unfold live; split <;> decide

theorem live_le_one (v : Int) : live v ≤ 1 := by
  unfold live; split <;> decide

theorem neighbourOffsets_eq :
    neighbourOffsets = [(-1, -1), (-1, 0), (-1, 1), (0, -1), (0, 1), (1, -1), (1, 0), (1, 1)] := by
  decide

theorem liveNeighbours_eq (board : List Int) (x y : Int) :
    (liveNeighbours board x y : Int) =
      live (cellAt board ((x - 1) % 80) ((y - 1) % 80))
      + live (cellAt board ((x - 1) % 80) (y % 80))
      + live (cellAt board ((x - 1) % 80) ((y + 1) % 80))
      + live (cellAt board (x % 80) ((y - 1) % 80))
      + live (cellAt board (x % 80) ((y + 1) % 80))
      + live (cellAt board ((x + 1) % 80) ((y - 1) % 80))
      + live (cellAt board ((x + 1) % 80) (y % 80))
      + live (cellAt board ((x + 1) % 80) ((y + 1) % 80)) := by
  unfold liveNeighbours
  rw [neighbourOffsets_eq]
  simp only [List.countP_cons, List.countP_nil, decide_eq_true_eq, live]
  push_cast
  simp only [Int.add_zero, Int.sub_eq_add_neg]
  omega

theorem liveNeighbours_le (board : List Int) (x y : Int) : liveNeighbours board x y ≤ 8 := by
  unfold liveNeighbours
  exact le_trans (List.countP_le_length _) (by rw [neighbourOffsets_eq]; decide)

/-- One step of the inner loop of `countNeighbors` away from the centre. -/
theorem countCell_off (s : State) (board : List Int) (i j x y count : Int)
    (hR : s.ROWS = 80) (hC : s.COLS = 80) (hlen : board.length = 6400)
    (hne : ¬ (i = x ∧ y = j))
    (hi : -80 ≤ i) (hi2 : i ≤ 80) (hj : -80 ≤ j) (hj2 : j ≤ 80)
    (hc : 0 ≤ count) (hc2 : count ≤ 8) :
    countCell s board x y i j count = some (count + live (cellAt board (i % 80) (j % 80))) := by
  unfold countCell
  rw [if_neg hne, hR, hC, getArrValue_80 board i j hlen hi (by omega) hj (by omega),
    Option.some_bind]
  unfold live
  split
  · exact ckInt_of_bounds (by omega) (by omega)
  · simp

theorem countCell_centre (s : State) (board : List Int) (x y count : Int) :
    countCell s board x y x y count = some count := by
  unfold countCell
  rw [if_pos ⟨rfl, rfl⟩]

/-- The inner loop of `countNeighbors` in a column other than the centre one. -/
theorem countColumn_off (s : State) (board : List Int) (i x y count : Int)
    (hR : s.ROWS = 80) (hC : s.COLS = 80) (hlen : board.length = 6400)
    (hne : i ≠ x) (hi : -80 ≤ i) (hi2 : i ≤ 80) (hy : 0 ≤ y) (hy2 : y < 80)
    (hc : 0 ≤ count) (hc2 : count ≤ 5) :
    forLe (y - 1) (y + 1) (fun j c => countCell s board x y i j c) count
      = some (count + live (cellAt board (i % 80) ((y - 1) % 80))
          + live (cellAt board (i % 80) (y % 80))
          + live (cellAt board (i % 80) ((y + 1) % 80))) := by
  have n3 : (y + 1 + 1 - (y - 1)).toNat = 3 := by
    have : y + 1 + 1 - (y - 1) = 3 := by omega
    rw [this]; rfl
  have ey : y - 1 + 1 = y := by omega
  have l1 := live_nonneg (cellAt board (i % 80) ((y - 1) % 80))
  have u1 := live_le_one (cellAt board (i % 80) ((y - 1) % 80))
  have l2 := live_nonneg (cellAt board (i % 80) (y % 80))
  have u2 := live_le_one (cellAt board (i % 80) (y % 80))
  unfold forLe
  rw [n3]
  simp only [forLoopFrom, ey]
  rw [countCell_off s board i (y - 1) x y _ hR hC hlen (by omega) hi hi2 (by omega) (by omega)
    hc (by omega), Option.some_bind]
  rw [countCell_off s board i y x y _ hR hC hlen (by omega) hi hi2 (by omega) (by omega)
    (by omega) (by omega), Option.some_bind]
  rw [countCell_off s board i (y + 1) x y _ hR hC hlen (by omega) hi hi2 (by omega) (by omega)
    (by omega) (by omega), Option.some_bind]

/-- The inner loop of `countNeighbors` in the centre column. -/
theorem countColumn_centre (s : State) (board : List Int) (x y count : Int)
    (hR : s.ROWS = 80) (hC : s.COLS = 80) (hlen : board.length = 6400)
    (hx : 0 ≤ x) (hx2 : x < 80) (hy : 0 ≤ y) (hy2 : y < 80)
    (hc : 0 ≤ count) (hc2 : count ≤ 5) :
    forLe (y - 1) (y + 1) (fun j c => countCell s board x y x j c) count
      = some (count + live (cellAt board (x % 80) ((y - 1) % 80))
          + live (cellAt board (x % 80) ((y + 1) % 80))) := by
  have n3 : (y + 1 + 1 - (y - 1)).toNat = 3 := by
    have : y + 1 + 1 - (y - 1) = 3 := by omega
    rw [this]; rfl
  have ey : y - 1 + 1 = y := by omega
  have l1 := live_nonneg (cellAt board (x % 80) ((y - 1) % 80))
  have u1 := live_le_one (cellAt board (x % 80) ((y - 1) % 80))
  unfold forLe
  rw [n3]
  simp only [forLoopFrom, ey]
  rw [countCell_off s board x (y - 1) x y _ hR hC hlen (by omega) (by omega) (by omega)
    (by omega) (by omega) hc (by omega), Option.some_bind]
  rw [countCell_centre, Option.some_bind]
  rw [countCell_off s board x (y + 1) x y _ hR hC hlen (by omega) (by omega) (by omega)
    (by omega) (by omega) (by omega) (by omega), Option.some_bind]

theorem countNeighbors_80 (s : State) (board : List Int) (x y : Int)
    (hR : s.ROWS = 80) (hC : s.COLS = 80) (hlen : board.length = 6400)
    (hx : 0 ≤ x) (hx2 : x < 80) (hy : 0 ≤ y) (hy2 : y < 80) :
    countNeighbors s board x y = some (liveNeighbours board x y : Int) := by
  have n3 : (x + 1 + 1 - (x - 1)).toNat = 3 := by
    have : x + 1 + 1 - (x - 1) = 3 := by omega
    rw [this]; rfl
  have ex : x - 1 + 1 = x := by omega
  have l1 := live_nonneg (cellAt board ((x - 1) % 80) ((y - 1) % 80))
  have u1 := live_le_one (cellAt board ((x - 1) % 80) ((y - 1) % 80))
  have l2 := live_nonneg (cellAt board ((x - 1) % 80) (y % 80))
  have u2 := live_le_one (cellAt board ((x - 1) % 80) (y % 80))
  have l3 := live_nonneg (cellAt board ((x - 1) % 80) ((y + 1) % 80))
  have u3 := live_le_one (cellAt board ((x - 1) % 80) ((y + 1) % 80))
  have l4 := live_nonneg (cellAt board (x % 80) ((y - 1) % 80))
  have u4 := live_le_one (cellAt board (x % 80) ((y - 1) % 80))
  have l5 := live_nonneg (cellAt board (x % 80) ((y + 1) % 80))
  have u5 := live_le_one (cellAt board (x % 80) ((y + 1) % 80))
  unfold countNeighbors
  rw [forLe, n3]
  simp only [forLoopFrom, ex]
  rw [countColumn_off s board (x - 1) x y 0 hR hC hlen (by omega) (by omega) (by omega) hy hy2
    (by omega) (by omega), Option.some_bind]
  rw [countColumn_centre s board x y _ hR hC hlen hx hx2 hy hy2 (by omega) (by omega),
    Option.some_bind]
  rw [countColumn_off s board (x + 1) x y _ hR hC hlen (by omega) (by omega) (by omega) hy hy2
    (by omega) (by omega), Option.some_bind]
  rw [liveNeighbours_eq]
  congr 1
  omega

/-! ## Loops -/

/-- Invariant rule for `for` loops: total correctness, the body is shown to
be defined at every iteration. -/
theorem forLoopFrom_inv {σ : Type} (body : Int → σ → Option σ) (P : Int → σ → Prop) :
    ∀ (n : Nat) (lo : Int) (s : σ), P lo s →
      (∀ i t, lo ≤ i → i < lo + n → P i t → ∃ t', body i t = some t' ∧ P (i + 1) t') →
      ∃ t, forLoopFrom body n lo s = some t ∧ P (lo + n) t := by
  intro n
  induction n with
  | zero =>
    intro lo s h _
    exact ⟨s, rfl, by simpa using h⟩
  | succ n ih =>
    intro lo s h hstep
    obtain ⟨t', hb, hP⟩ := hstep lo s (le_refl _) (by push_cast; omega) h
    obtain ⟨t, ht, hPt⟩ := ih (lo + 1) t' hP
      (fun i u h1 h2 hu => hstep i u (by omega) (by push_cast; omega) hu)
    refine ⟨t, ?_, ?_⟩
    · simp only [forLoopFrom, hb, Option.some_bind]
      exact ht
    · have e : lo + ((n + 1 : Nat) : Int) = lo + 1 + n := by push_cast; omega
      rw [e]
      exact hPt

/-- Partial-correctness rule for `for` loops: a relation that every defined
step of the body respects is respected by the loop. -/
theorem forLoopFrom_rel {σ : Type} (body : Int → σ → Option σ) (R : σ → σ → Prop)
    (hrefl : ∀ s, R s s) (htrans : ∀ a b c, R a b → R b c → R a c)
    (hbody : ∀ i s t, body i s = some t → R s t) :
    ∀ (n : Nat) (lo : Int) (s t : σ), forLoopFrom body n lo s = some t → R s t := by
  intro n
  induction n with
  | zero =>
    intro lo s t h
    simp only [forLoopFrom, Option.some.injEq] at h
    subst h
    exact hrefl _
  | succ n ih =>
    intro lo s t h
    simp only [forLoopFrom] at h
    cases hb : body lo s with
    | none => rw [hb] at h; simp at h
    | some u =>
      rw [hb, Option.some_bind] at h
      exact htrans _ _ _ (hbody _ _ _ hb) (ih _ _ _ h)

theorem getD_set_eq (l : List Int) (k : Nat) (v : Int) (h : k < l.length) :
    (l.set k v).getD k 0 = v := by
  simp [List.getD, List.getElem?_set, h]

theorem getD_set_ne (l : List Int) (k k' : Nat) (v : Int) (h : k ≠ k') :
    (l.set k v).getD k' 0 = l.getD k' 0 := by
  simp [List.getD, List.getElem?_set, h]

theorem writeArr_of_lt (l : List Int) (i v : Int) (h0 : 0 ≤ i) (h : i.toNat < l.length) :
    writeArr l i v = some (l.set i.toNat v) := by
  unfold writeArr
  rw [if_pos ⟨h0, h⟩]

/-! ## The generation step -/

theorem tickCopy_ok (s : State) (h : Configured s) :
    tickCopy s = some { s with tempBoard := s.gameBoard } := by
  obtain ⟨hR, hC, hg, ht⟩ := h
  unfold tickCopy
  rw [hR, hC, ckInt_of_bounds (by decide) (by decide), Option.some_bind]
  unfold forLt
  have hn : ((80 : Int) * 80 - 0).toNat = 6400 := by decide
  rw [hn]
  obtain ⟨t, ht1, tb, rfl, hlen, hk⟩ := forLoopFrom_inv
    (fun (i : Int) (s1 : State) =>
      (readArr s1.gameBoard i).bind fun v =>
      (writeArr s1.tempBoard i v).bind fun tb => some { s1 with tempBoard := tb })
    (fun i t => ∃ tb, t = { s with tempBoard := tb } ∧ tb.length = 6400 ∧
      ∀ k : Nat, (k : Int) < i → tb[k]? = s.gameBoard[k]?)
    6400 0 s ⟨s.tempBoard, rfl, ht, by intro k hk; omega⟩
    (by
      rintro i t h0 h1 ⟨tb, rfl, hlen, hk⟩
      refine ⟨{ s with tempBoard := tb.set i.toNat (s.gameBoard.getD i.toNat 0) }, ?_,
        _, rfl, by simpa using hlen, ?_⟩
      · show (readArr s.gameBoard i).bind _ = _
        rw [readArr_of_lt _ _ h0 (by omega), Option.some_bind]
        show (writeArr tb i _).bind _ = _
        rw [writeArr_of_lt _ _ _ h0 (by omega), Option.some_bind]
      · intro k hk1
        rw [List.getElem?_set]
        by_cases e : i.toNat = k
        · rw [if_pos e, if_pos (by omega), ← e, getElem?_eq_some_getD _ _ (by omega)]
        · rw [if_neg e]
          exact hk k (by omega))
  rw [ht1]
  congr 2
  apply List.ext_getElem?
  intro k
  by_cases hk6 : k < 6400
  · exact hk k (by omega)
  · rw [List.getElem?_eq_none (by omega), List.getElem?_eq_none (by omega)]

theorem setGameCell_ok (t : State) (i j v : Int) (hR : t.ROWS = 80)
    (hg : t.gameBoard.length = 6400) (hi : 0 ≤ i) (hi2 : i < 80) (hj : 0 ≤ j) (hj2 : j < 80) :
    setGameCell t i j v = some { t with gameBoard := t.gameBoard.set (i + j * 80).toNat v } := by
  unfold setGameCell
  rw [hR, ckInt_of_bounds (by omega) (by omega), Option.some_bind,
    ckInt_of_bounds (by omega) (by omega), Option.some_bind,
    writeArr_of_lt _ _ _ (by omega) (by omega), Option.some_bind]

/-- Effect of the loop body of `tick` at cell `(i, j)`: only the cell's own
index can change, and a cell still holding its snapshot value receives the
value of the rule table. -/
theorem tickCell_ok (t : State) (i j : Int) (hR : t.ROWS = 80) (hC : t.COLS = 80)
    (hg : t.gameBoard.length = 6400) (ht : t.tempBoard.length = 6400)
    (hi : 0 ≤ i) (hi2 : i < 80) (hj : 0 ≤ j) (hj2 : j < 80) :
    ∃ g, tickCell i j t = some { t with gameBoard := g } ∧ g.length = 6400 ∧
      (∀ k : Nat, k ≠ (i + j * 80).toNat → g.getD k 0 = t.gameBoard.getD k 0) ∧
      (t.gameBoard.getD (i + j * 80).toNat 0 = t.tempBoard.getD (i + j * 80).toNat 0 →
        g.getD (i + j * 80).toNat 0 =
          tickRule (t.tempBoard.getD (i + j * 80).toNat 0) (liveNeighbours t.tempBoard i j)) := by
  have hcell : cellAt t.tempBoard (i % 80) (j % 80) = t.tempBoard.getD (i + j * 80).toNat 0 := by
    unfold cellAt
    rw [Int.emod_eq_of_lt hi hi2, Int.emod_eq_of_lt hj hj2]
  have hidx : (i + j * 80).toNat < t.gameBoard.length := by omega
  have hga : getArrValue t.tempBoard i j t.COLS t.ROWS
      = some (t.tempBoard.getD (i + j * 80).toNat 0) := by
    rw [hR, hC, getArrValue_80 t.tempBoard i j ht (by omega) (by omega) (by omega) (by omega),
      hcell]
  unfold tickCell
  rw [countNeighbors_80 t t.tempBoard i j hR hC ht hi hi2 hj hj2, Option.some_bind, hga,
    Option.some_bind]
  by_cases hv : t.tempBoard.getD (i + j * 80).toNat 0 = 1
  · rw [if_pos hv]
    by_cases h2 : liveNeighbours t.tempBoard i j < 2
    · rw [if_pos (by omega), setGameCell_ok t i j 0 hR hg hi hi2 hj hj2, Option.some_bind,
        if_neg (by omega)]
      refine ⟨_, rfl, by simpa using hg, fun k hk => getD_set_ne _ _ _ _ (Ne.symm hk), fun _ => ?_⟩
      rw [getD_set_eq _ _ _ hidx]
      unfold tickRule
      rw [if_pos hv, if_pos (Or.inl h2)]
    · rw [if_neg (by omega), Option.some_bind]
      by_cases h3 : liveNeighbours t.tempBoard i j > 3
      · rw [if_pos (by omega), setGameCell_ok t i j 0 hR hg hi hi2 hj hj2]
        refine ⟨_, rfl, by simpa using hg, fun k hk => getD_set_ne _ _ _ _ (Ne.symm hk),
          fun _ => ?_⟩
        rw [getD_set_eq _ _ _ hidx]
        unfold tickRule
        rw [if_pos hv, if_pos (Or.inr h3)]
      · rw [if_neg (by omega)]
        refine ⟨t.gameBoard, rfl, hg, fun k _ => rfl, fun he => ?_⟩
        rw [he]
        unfold tickRule
        rw [if_pos hv, if_neg (fun h => h.elim h2 h3)]
  · rw [if_neg hv]
    by_cases h3 : liveNeighbours t.tempBoard i j = 3
    · rw [if_pos (by omega), setGameCell_ok t i j 1 hR hg hi hi2 hj hj2]
      refine ⟨_, rfl, by simpa using hg, fun k hk => getD_set_ne _ _ _ _ (Ne.symm hk), fun _ => ?_⟩
      rw [getD_set_eq _ _ _ hidx]
      unfold tickRule
      rw [if_neg hv, if_pos h3]
    · rw [if_neg (by omega)]
      refine ⟨t.gameBoard, rfl, hg, fun k _ => rfl, fun he => ?_⟩
      rw [he]
      unfold tickRule
      rw [if_neg hv, if_neg h3]

theorem TickInv_congr (sb : State) (old : List Int) (p q : Nat → Prop) (t : State)
    (hpq : ∀ k, k < 6400 → (p k ↔ q k)) (h : TickInv sb old p t) : TickInv sb old q t := by
  obtain ⟨g, e, hlen, hk⟩ := h
  refine ⟨g, e, hlen, fun k hk6 => ⟨fun hq => (hk k hk6).1 ((hpq k hk6).2 hq), fun hq => ?_⟩⟩
  exact (hk k hk6).2 (fun hp => hq ((hpq k hk6).1 hp))

/-- The inner loop of `tick` for column `i` extends the invariant from the
columns before `i` to the columns up to `i`. -/
theorem tickColumn_ok (sb : State) (i : Int) (t : State) (hR : sb.ROWS = 80) (hC : sb.COLS = 80)
    (ht : sb.tempBoard.length = 6400) (hi : 0 ≤ i) (hi2 : i < 80)
    (h : TickInv sb sb.tempBoard (fun k => (k : Int) % 80 < i) t) :
    ∃ t', forLt 0 t.ROWS (fun j s3 => tickCell i j s3) t = some t' ∧
      TickInv sb sb.tempBoard (fun k => (k : Int) % 80 < i + 1) t' := by
  have hRt : t.ROWS = 80 := by
    obtain ⟨g, e, _, _⟩ := h
    rw [e]; exact hR
  unfold forLt
  rw [hRt]
  have hn : ((80 : Int) - 0).toNat = 80 := by decide
  rw [hn]
  obtain ⟨t', ht', hinv⟩ := forLoopFrom_inv (fun j s3 => tickCell i j s3)
    (fun j u => TickInv sb sb.tempBoard
      (fun k => (k : Int) % 80 < i ∨ ((k : Int) % 80 = i ∧ (k : Int) / 80 < j)) u)
    80 0 t
    (TickInv_congr sb _ _ _ t (fun k _ => by constructor <;> intro hh <;> omega) h)
    (by
      rintro j u hj hj2 ⟨g, rfl, hlen, hk⟩
      obtain ⟨g', e', hlen', hoth, hown⟩ := tickCell_ok { sb with gameBoard := g } i j hR hC
        hlen ht hi hi2 hj (by omega)
      refine ⟨_, e', g', rfl, hlen', fun k hk6 => ?_⟩
      by_cases hkidx : k = (i + j * 80).toNat
      · have hnot : ¬ ((k : Int) % 80 < i ∨ ((k : Int) % 80 = i ∧ (k : Int) / 80 < j)) := by
          omega
        have hold := (hk k hk6).2 hnot
        have e1 : (k : Int) % 80 = i := by omega
        have e2 : (k : Int) / 80 = j := by omega
        refine ⟨fun _ => ?_, fun hn => absurd (Or.inr ⟨e1, by omega⟩) hn⟩
        rw [hkidx]
        rw [hkidx] at hold
        rw [hown hold]
        unfold newCell
        rw [← hkidx, e1, e2]
      · rw [hoth k hkidx]
        refine ⟨fun hp => (hk k hk6).1 ?_, fun hp => (hk k hk6).2 ?_⟩
        · omega
        · omega)
  exact ⟨t', ht', TickInv_congr sb _ _ _ t' (fun k hk6 => by constructor <;> intro hh <;> omega)
    hinv⟩

/-- Function `tick` on the configured grid: it is defined, and it leaves the board
`tickBoard` of the old board, the old board in `tempBoard`, and one more
call counted. -/
theorem tick_ok (s : State) (h : Configured s) :
    tick s = some { s with gameBoard := tickBoard s.gameBoard, tempBoard := s.gameBoard,
                           tickCalls := s.tickCalls + 1 } := by
  have hcopy := tickCopy_ok { s with tickCalls := s.tickCalls + 1 } h
  obtain ⟨hR, hC, hg, ht⟩ := h
  unfold tick
  rw [hcopy, Option.some_bind]
  unfold forLt
  have hn : (s.COLS - 0).toNat = 80 := by rw [hC]; decide
  show forLoopFrom _ (s.COLS - 0).toNat 0 _ = _
  rw [hn]
  obtain ⟨t, ht1, g, rfl, hlen, hk⟩ := forLoopFrom_inv
    (fun (i : Int) (s2 : State) => forLoopFrom (fun j s3 => tickCell i j s3) (s2.ROWS - 0).toNat 0 s2)
    (fun i u => TickInv { s with tempBoard := s.gameBoard, tickCalls := s.tickCalls + 1 }
      s.gameBoard (fun k => (k : Int) % 80 < i) u)
    80 0 { s with tempBoard := s.gameBoard, tickCalls := s.tickCalls + 1 }
    ⟨s.gameBoard, rfl, hg, fun k _ => ⟨fun hp => by omega, fun _ => rfl⟩⟩
    (by
      intro i u hi hi2 hu
      exact tickColumn_ok { s with tempBoard := s.gameBoard, tickCalls := s.tickCalls + 1 } i u
        hR hC hg hi (by omega) hu)
  rw [ht1]
  have hgb : g = tickBoard s.gameBoard := by
    apply List.ext_getElem
    · rw [hlen]; simp [tickBoard]
    · intro k h1 h2
      have hk6 : k < 6400 := by omega
      have := (hk k hk6).1 (by omega)
      rw [List.getD_eq_getElem _ _ h1] at this
      rw [this]
      simp [tickBoard]
  rw [hgb]

/-- Function `tick` on the configured grid, as an existence statement. -/
theorem tick_spec (s : State) (h : Configured s) :
    ∃ s1, tick s = some s1 ∧ s1.gameBoard = tickBoard s.gameBoard ∧
      s1.tempBoard = s.gameBoard ∧ s1.tickCalls = s.tickCalls + 1 ∧ Configured s1 := by
  refine ⟨_, tick_ok s h, rfl, rfl, rfl, h.1, h.2.1, ?_, h.2.2.1⟩
  simp [tickBoard]

theorem getD_mem_of_lt (l : List Int) (k : Nat) (h : k < l.length) : l.getD k 0 ∈ l := by
  rw [List.getD_eq_getElem _ _ h]
  exact List.getElem_mem h

theorem cellAt_mod_mem (board : List Int) (a b : Int) (hlen : board.length = 6400) :
    cellAt board (a % 80) (b % 80) ∈ board := by
  unfold cellAt
  exact getD_mem_of_lt _ _ (by omega)

theorem tickRule_binary (v : Int) (n : Nat) (hv : v = 0 ∨ v = 1) :
    tickRule v n = nextState v n := by
  unfold tickRule nextState
  rcases hv with rfl | rfl
  · simp
  · simp only [if_true]
    by_cases h2 : n < 2
    · rw [if_pos (Or.inl h2), if_pos h2]
    · by_cases h3 : n > 3
      · rw [if_pos (Or.inr h3), if_neg h2, if_neg (by omega)]
      · rw [if_neg (fun h => h.elim h2 h3), if_neg h2, if_pos (by omega)]

theorem tickBoard_length (gb : List Int) : (tickBoard gb).length = 6400 := by
  simp [tickBoard]

theorem tickBoard_getD (gb : List Int) (k : Nat) (h : k < 6400) :
    (tickBoard gb).getD k 0 = newCell gb k := by
  rw [List.getD_eq_getElem _ _ (by rw [tickBoard_length]; exact h)]
  simp [tickBoard]

theorem initState_configured : Configured initState :=
  ⟨rfl, rfl, zeroBoard_length, zeroBoard_length⟩

/-! ## Claims C1 to C3 -/

/-- C1: on the configured 80x80 grid, for a board of cells 0 or 1, `tick()`
is defined and afterwards every in-range cell `gameBoard[col + row*ROWS]`
holds `nextState` of its old value and of the number of live cells among its
eight wrapped neighbours in the pre-tick board, and `tempBoard` equals the
pre-tick `gameBoard`. -/
theorem C1_tick_applies_rule_to_snapshot (s : State) (h : Configured s)
    (hbin : ∀ v ∈ s.gameBoard, v = 0 ∨ v = 1) :
    ∃ s', tick s = some s' ∧ s'.tempBoard = s.gameBoard ∧
      ∀ col row : Int, 0 ≤ col → col < s.COLS → 0 ≤ row → row < s.ROWS →
        readArr s'.gameBoard (col + row * s.ROWS)
          = some (nextState (cellAt s.gameBoard col row) (liveNeighbours s.gameBoard col row)) := by
  refine ⟨_, tick_ok s h, rfl, ?_⟩
  obtain ⟨hR, hC, hg, ht⟩ := h
  intro col row h0 h1 h2 h3
  rw [hC] at h1
  rw [hR] at h3
  rw [hR]
  dsimp only
  rw [readArr_of_lt _ _ (by omega) (by rw [tickBoard_length]; omega),
    tickBoard_getD _ _ (by omega)]
  unfold newCell cellAt
  have e1 : (((col + row * 80).toNat : Nat) : Int) % 80 = col := by omega
  have e2 : (((col + row * 80).toNat : Nat) : Int) / 80 = row := by omega
  rw [e1, e2, tickRule_binary _ _ (hbin _ (getD_mem_of_lt _ _ (by omega)))]

/-- C2: on the configured 80x80 grid, `countNeighbors(&board, x, y)` at an
in-range cell is the number of the eight offsets `(dx,dy) ≠ (0,0)` whose
wrapped cell `((x+dx) mod COLS, (y+dy) mod ROWS)` holds 1; it is at most 8,
it is 0 on an all-dead board and 8 on an all-alive board. -/
theorem C2_countNeighbors_counts_wrapped_neighbours (s : State) (board : List Int) (x y : Int)
    (hR : s.ROWS = 80) (hC : s.COLS = 80) (hlen : board.length = 6400)
    (hx : 0 ≤ x) (hx2 : x < 80) (hy : 0 ≤ y) (hy2 : y < 80) :
    countNeighbors s board x y = some (liveNeighbours board x y : Int) ∧
      liveNeighbours board x y ≤ 8 ∧
      ((∀ v ∈ board, v = 0) → countNeighbors s board x y = some 0) ∧
      ((∀ v ∈ board, v = 1) → countNeighbors s board x y = some 8) := by
  have hcn := countNeighbors_80 s board x y hR hC hlen hx hx2 hy hy2
  refine ⟨hcn, liveNeighbours_le board x y, fun h0 => ?_, fun h1 => ?_⟩
  · rw [hcn, liveNeighbours_eq]
    have hz : ∀ a b : Int, live (cellAt board (a % 80) (b % 80)) = 0 := fun a b => by
      rw [h0 _ (cellAt_mod_mem board a b hlen)]; rfl
    simp only [hz]
    rfl
  · rw [hcn, liveNeighbours_eq]
    have hz : ∀ a b : Int, live (cellAt board (a % 80) (b % 80)) = 1 := fun a b => by
      rw [h1 _ (cellAt_mod_mem board a b hlen)]; rfl
    simp only [hz]
    rfl

theorem C2_countNeighbors_counts_wrapped_neighbours_witness :
    countNeighbors initState (List.replicate 6400 1) 0 79
        = some (liveNeighbours (List.replicate 6400 1) 0 79 : Int) ∧
      liveNeighbours (List.replicate 6400 1) 0 79 ≤ 8 ∧
      ((∀ v ∈ List.replicate 6400 (1 : Int), v = 0) →
        countNeighbors initState (List.replicate 6400 1) 0 79 = some 0) ∧
      ((∀ v ∈ List.replicate 6400 (1 : Int), v = 1) →
        countNeighbors initState (List.replicate 6400 1) 0 79 = some 8) :=
  C2_countNeighbors_counts_wrapped_neighbours initState (List.replicate 6400 1) 0 79 rfl rfl
    (List.length_replicate _ _) (by decide) (by decide) (by decide) (by decide)

/-- C3 fails as stated: with `k = -2` the column `1 - 2*80 = -159` gives
`(-159 + 80) % 80 = -79` in C, so the read at row 0 is `arr[-79]`, outside
the board, and the read at row 1 is `arr[1]`, the cell of row 0, while
`getArrValue(board, 1, 1, 80, 80)` is `arr[81]`. -/
theorem C3_counterexample :
    getArrValue (List.replicate 6400 0) (1 + (-2) * 80) (0 + 0 * 80) 80 80 = none ∧
    getArrValue (List.replicate 6400 0) 1 0 80 80 = some 0 ∧
    getArrValue ((List.range 6400).map Int.ofNat) (1 + (-2) * 80) (1 + 0 * 80) 80 80 = some 1 ∧
    getArrValue ((List.range 6400).map Int.ofNat) 1 1 80 80 = some 81 := by
  refine ⟨by decide!, by decide!, by decide!, by decide!⟩

/-- C3 (amended): on the configured grid, for every board, every in-range
`(col,row)` and all integers `k ≥ -1` and `m ≥ -1` whose shifted coordinates
still leave room for the `+ COLS` inside `int`, `getArrValue(board,
col + k*COLS, row + m*ROWS, COLS, ROWS)` is defined and returns the same
value as `getArrValue(board, col, row, COLS, ROWS)`. -/
theorem C3_getArrValue_periodic_from_minus_one (board : List Int) (col row k m : Int)
    (hlen : board.length = 6400) (hc : 0 ≤ col) (hc2 : col < 80) (hr : 0 ≤ row) (hr2 : row < 80)
    (hk : -1 ≤ k) (hm : -1 ≤ m)
    (hk2 : col + k * 80 + 80 ≤ INT_MAX) (hm2 : row + m * 80 + 80 ≤ INT_MAX) :
    (getArrValue board (col + k * 80) (row + m * 80) 80 80).isSome = true ∧
      getArrValue board (col + k * 80) (row + m * 80) 80 80 = getArrValue board col row 80 80 := by
  unfold INT_MAX at hk2 hm2
  have e1 : (col + k * 80) % 80 = col % 80 := by omega
  have e2 : (row + m * 80) % 80 = row % 80 := by omega
  rw [getArrValue_80 board _ _ hlen (by omega) (by omega) (by omega) (by omega),
    getArrValue_80 board col row hlen (by omega) (by omega) (by omega) (by omega), e1, e2]
  exact ⟨rfl, rfl⟩

theorem indexBoard_length : indexBoard.length = 6400 := by
  unfold indexBoard
  rw [List.length_map, List.length_range]

theorem C3_getArrValue_periodic_from_minus_one_witness :
    (getArrValue indexBoard (3 + (-1) * 80) (79 + 5 * 80) 80 80).isSome = true ∧
      getArrValue indexBoard (3 + (-1) * 80) (79 + 5 * 80) 80 80
        = getArrValue indexBoard 3 79 80 80 ∧
      getArrValue indexBoard 3 79 80 80 = some 6323 ∧
      getArrValue indexBoard 3 0 80 80 = some 3 :=
  ⟨(C3_getArrValue_periodic_from_minus_one indexBoard 3 79 (-1) 5 indexBoard_length
      (by decide) (by decide) (by decide) (by decide) (by decide) (by decide) (by decide)
      (by decide)).1,
   (C3_getArrValue_periodic_from_minus_one indexBoard 3 79 (-1) 5 indexBoard_length
      (by decide) (by decide) (by decide) (by decide) (by decide) (by decide) (by decide)
      (by decide)).2,
   by decide!, by decide!⟩

/-! ## Patterns: the step on boards given by a predicate -/

theorem boardOf_length (p : Int → Int → Bool) : (boardOf p).length = 6400 := by
  simp [boardOf]

theorem boardOf_getD (p : Int → Int → Bool) (k : Nat) (h : k < 6400) :
    (boardOf p).getD k 0 = if p ((k : Int) % 80) ((k : Int) / 80) then 1 else 0 := by
  rw [List.getD_eq_getElem _ _ (by rw [boardOf_length]; exact h)]
  simp [boardOf]

theorem cellAt_boardOf (p : Int → Int → Bool) (a b : Int)
    (ha : 0 ≤ a) (ha2 : a < 80) (hb : 0 ≤ b) (hb2 : b < 80) :
    cellAt (boardOf p) a b = if p a b then 1 else 0 := by
  unfold cellAt
  rw [boardOf_getD p _ (by omega)]
  have e1 : (((a + b * 80).toNat : Nat) : Int) % 80 = a := by omega
  have e2 : (((a + b * 80).toNat : Nat) : Int) / 80 = b := by omega
  rw [e1, e2]

theorem boardOf_binary (p : Int → Int → Bool) : ∀ v ∈ boardOf p, v = 0 ∨ v = 1 := by
  intro v hv
  unfold boardOf at hv
  rw [List.mem_map] at hv
  obtain ⟨k, _, rfl⟩ := hv
  split
  · exact Or.inr rfl
  · exact Or.inl rfl

theorem liveNeighbours_boardOf (p : Int → Int → Bool) (x y : Int) :
    liveNeighbours (boardOf p) x y = nbrCount p x y := by
  unfold liveNeighbours nbrCount
  apply List.countP_congr
  intro d _
  have hc : cellAt (boardOf p) ((x + d.1) % 80) ((y + d.2) % 80)
      = if p ((x + d.1) % 80) ((y + d.2) % 80) then 1 else 0 :=
    cellAt_boardOf p _ _ (by omega) (by omega) (by omega) (by omega)
  rw [hc]
  cases p ((x + d.1) % 80) ((y + d.2) % 80) <;> simp

/-- On a board given by a predicate, `tick` computes the board of the rule
table applied to the predicate. -/
theorem tickBoard_boardOf (p : Int → Int → Bool) :
    tickBoard (boardOf p) = boardOf (lifeRule p) := by
  apply List.ext_getElem
  · rw [tickBoard_length, boardOf_length]
  · intro k h1 h2
    have hk : k < 6400 := by rw [tickBoard_length] at h1; exact h1
    rw [← List.getD_eq_getElem _ 0 h1, ← List.getD_eq_getElem _ 0 h2, tickBoard_getD _ _ hk,
      boardOf_getD _ _ hk]
    unfold newCell lifeRule
    rw [boardOf_getD _ _ hk, liveNeighbours_boardOf,
      tickRule_binary _ _ (by cases p ((k : Int) % 80) ((k : Int) / 80) <;> simp)]
    have hb : ∀ (v : Int) (n : Nat), nextState v n = 0 ∨ nextState v n = 1 := by
      intro v n
      unfold nextState
      split_ifs <;> simp
    rcases hb (if p ((k : Int) % 80) ((k : Int) / 80) = true then 1 else 0)
      (nbrCount p ((k : Int) % 80) ((k : Int) / 80)) with h0 | h0 <;> rw [h0] <;> simp

theorem boardOf_congr (p q : Int → Int → Bool)
    (h : ∀ x y : Int, 0 ≤ x → x < 80 → 0 ≤ y → y < 80 → p x y = q x y) :
    boardOf p = boardOf q := by
  unfold boardOf
  apply List.map_congr_left
  intro k hk
  rw [List.mem_range] at hk
  rw [h _ _ (by omega) (by omega) (by omega) (by omega)]

/-- The neighbour count of a placed pattern is the count of the pattern in
coordinates relative to its origin. -/
theorem nbrCount_placeAt (c r : Int) (P : Nat → Nat → Bool) (x y : Int) :
    nbrCount (placeAt c r P) x y = nbrCountN P ((x - c) % 80).toNat ((y - r) % 80).toNat := by
  have hx1 : (((x + -1) % 80 - c) % 80).toNat = (((x - c) % 80).toNat + 79) % 80 := by omega
  have hx0 : (((x + 0) % 80 - c) % 80).toNat = (((x - c) % 80).toNat + 0) % 80 := by omega
  have hx2 : (((x + 1) % 80 - c) % 80).toNat = (((x - c) % 80).toNat + 1) % 80 := by omega
  have hy1 : (((y + -1) % 80 - r) % 80).toNat = (((y - r) % 80).toNat + 79) % 80 := by omega
  have hy0 : (((y + 0) % 80 - r) % 80).toNat = (((y - r) % 80).toNat + 0) % 80 := by omega
  have hy2 : (((y + 1) % 80 - r) % 80).toNat = (((y - r) % 80).toNat + 1) % 80 := by omega
  unfold nbrCount nbrCountN placeAt neighbourOffsetsN
  rw [neighbourOffsets_eq]
  simp only [List.countP_cons, List.countP_nil, hx1, hx0, hx2, hy1, hy0, hy2]

theorem lifeRule_placeAt (c r : Int) (P : Nat → Nat → Bool) (x y : Int) :
    lifeRule (placeAt c r P) x y = lifeRuleN P ((x - c) % 80).toNat ((y - r) % 80).toNat := by
  unfold lifeRule lifeRuleN
  rw [nbrCount_placeAt]
  rfl

/-- A pattern whose next generation in relative coordinates is `Q` steps to
`Q` wherever it is placed. -/
theorem tickBoard_placeAt (c r : Int) (P Q : Nat → Nat → Bool)
    (h : ∀ a b : Nat, a < 80 → b < 80 → lifeRuleN P a b = Q a b) :
    tickBoard (boardOf (placeAt c r P)) = boardOf (placeAt c r Q) := by
  rw [tickBoard_boardOf]
  apply boardOf_congr
  intro x y _ _ _ _
  rw [lifeRule_placeAt]
  exact h _ _ (by omega) (by omega)

/-! ## Claims C4 and C5: blinker and block -/

theorem mem_neighbourOffsetsN (d : Nat × Nat) (hd : d ∈ neighbourOffsetsN) :
    (d.1 = 79 ∨ d.1 = 0 ∨ d.1 = 1) ∧ (d.2 = 79 ∨ d.2 = 0 ∨ d.2 = 1) := by
  simp only [neighbourOffsetsN, List.mem_cons, List.mem_singleton, List.not_mem_nil,
    or_false] at hd
  rcases hd with rfl | rfl | rfl | rfl | rfl | rfl | rfl | rfl <;> simp

/-- Far from a pattern that lies near its origin there are no live neighbours. -/
theorem nbrCountN_far (P : Nat → Nat → Bool) (hP : NearOrigin P) (a b : Nat)
    (ha : a < 80) (hb : b < 80) (hfar : (3 ≤ a ∧ a ≤ 77) ∨ (3 ≤ b ∧ b ≤ 77)) :
    nbrCountN P a b = 0 := by
  unfold nbrCountN
  rw [List.countP_eq_zero]
  intro d hd hp
  have h1 := mem_neighbourOffsetsN d hd
  have h2 := hP _ _ hp
  omega

theorem far_dead (P : Nat → Nat → Bool) (hP : NearOrigin P) (a b : Nat)
    (hfar : (3 ≤ a ∧ a ≤ 77) ∨ (3 ≤ b ∧ b ≤ 77)) : P a b = false := by
  cases h : P a b with
  | false => rfl
  | true =>
    have := hP a b h
    omega

theorem mem_nearList (a : Nat) (ha : a < 80) (hnear : ¬ (3 ≤ a ∧ a ≤ 77)) : a ∈ nearList := by
  have h : a = 78 ∨ a = 79 ∨ a = 0 ∨ a = 1 ∨ a = 2 := by omega
  simp only [nearList, List.mem_cons, List.mem_singleton, List.not_mem_nil, or_false]
  exact h

/-- A pattern near its origin steps to `Q` as soon as it does so on the cells
within two of the origin. -/
theorem lifeRuleN_of_near (P Q : Nat → Nat → Bool) (hP : NearOrigin P) (hQ : NearOrigin Q)
    (hnear : ∀ a ∈ nearList, ∀ b ∈ nearList, lifeRuleN P a b = Q a b) :
    ∀ a b : Nat, a < 80 → b < 80 → lifeRuleN P a b = Q a b := by
  intro a b ha hb
  by_cases hfar : (3 ≤ a ∧ a ≤ 77) ∨ (3 ≤ b ∧ b ≤ 77)
  · rw [far_dead Q hQ a b hfar]
    unfold lifeRuleN
    rw [nbrCountN_far P hP a b ha hb hfar, far_dead P hP a b hfar]
    decide
  · rw [not_or] at hfar
    exact hnear a (mem_nearList a ha hfar.1) b (mem_nearList b hb hfar.2)

theorem relH_near : NearOrigin relH := by
  intro a b h
  simp only [relH, decide_eq_true_eq] at h
  omega

theorem relV_near : NearOrigin relV := by
  intro a b h
  simp only [relV, decide_eq_true_eq] at h
  omega

theorem relBlock_near : NearOrigin relBlock := by
  intro a b h
  simp only [relBlock, decide_eq_true_eq] at h
  omega

theorem relH_step : ∀ a b : Nat, a < 80 → b < 80 → lifeRuleN relH a b = relV a b :=
  lifeRuleN_of_near relH relV relH_near relV_near (by decide)

theorem relV_step : ∀ a b : Nat, a < 80 → b < 80 → lifeRuleN relV a b = relH a b :=
  lifeRuleN_of_near relV relH relV_near relH_near (by decide)

theorem relBlock_step : ∀ a b : Nat, a < 80 → b < 80 → lifeRuleN relBlock a b = relBlock a b :=
  lifeRuleN_of_near relBlock relBlock relBlock_near relBlock_near (by decide)

/-- Around the block: three live neighbours exactly at the block cells. -/
theorem relBlock_count (a b : Nat) (ha : a < 80) (hb : b < 80) :
    (relBlock a b = true → nbrCountN relBlock a b = 3) ∧
    (relBlock a b = false → nbrCountN relBlock a b ≠ 3) := by
  have hnear : ∀ a ∈ nearList, ∀ b ∈ nearList,
      (relBlock a b = true → nbrCountN relBlock a b = 3) ∧
      (relBlock a b = false → nbrCountN relBlock a b ≠ 3) := by decide
  by_cases hfar : (3 ≤ a ∧ a ≤ 77) ∨ (3 ≤ b ∧ b ≤ 77)
  · rw [far_dead relBlock relBlock_near a b hfar,
      nbrCountN_far relBlock relBlock_near a b ha hb hfar]
    exact ⟨fun h => by simp at h, fun _ => by decide⟩
  · rw [not_or] at hfar
    exact hnear a (mem_nearList a ha hfar.1) b (mem_nearList b hb hfar.2)

theorem blinkerH_eq (c r : Int) (hc : 0 ≤ c) (hc2 : c < 80) (hr : 0 ≤ r) (hr2 : r < 80) :
    blinkerH c r = boardOf (placeAt c r relH) := by
  unfold blinkerH
  apply boardOf_congr
  intro x y _ _ _ _
  unfold placeAt relH
  rw [decide_eq_decide]
  constructor <;> intro h <;> omega

theorem blinkerV_eq (c r : Int) (hc : 0 ≤ c) (hc2 : c < 80) (hr : 0 ≤ r) (hr2 : r < 80) :
    blinkerV c r = boardOf (placeAt c r relV) := by
  unfold blinkerV
  apply boardOf_congr
  intro x y _ _ _ _
  unfold placeAt relV
  rw [decide_eq_decide]
  constructor <;> intro h <;> omega

theorem inBlock_eq (c r x y : Int) (hc : 0 ≤ c) (hc2 : c < 80) (hr : 0 ≤ r) (hr2 : r < 80)
    (hx : 0 ≤ x) (hx2 : x < 80) (hy : 0 ≤ y) (hy2 : y < 80) :
    inBlock c r x y = placeAt c r relBlock x y := by
  unfold inBlock placeAt relBlock
  rw [decide_eq_decide]
  constructor <;> intro h <;> omega

theorem blockBoard_eq (c r : Int) (hc : 0 ≤ c) (hc2 : c < 80) (hr : 0 ≤ r) (hr2 : r < 80) :
    blockBoard c r = boardOf (placeAt c r relBlock) := by
  unfold blockBoard
  apply boardOf_congr
  intro x y hx hx2 hy hy2
  exact inBlock_eq c r x y hc hc2 hr hr2 hx hx2 hy hy2

/-- C4: on the configured 80x80 torus, for every centre `(c, r)` in the grid,
one `tick()` turns the horizontal blinker centred there into the vertical
one, and a second `tick()` gives the horizontal blinker back. -/
theorem C4_blinker_oscillates (s : State) (c r : Int) (h : Configured s)
    (hc : 0 ≤ c) (hc2 : c < s.COLS) (hr : 0 ≤ r) (hr2 : r < s.ROWS)
    (hb : s.gameBoard = blinkerH c r) :
    ∃ s1 s2, tick s = some s1 ∧ s1.gameBoard = blinkerV c r ∧
      tick s1 = some s2 ∧ s2.gameBoard = blinkerH c r := by
  have hC := h.2.1
  have hR := h.1
  rw [hC] at hc2
  rw [hR] at hr2
  have e1 : tickBoard (blinkerH c r) = blinkerV c r := by
    rw [blinkerH_eq c r hc hc2 hr hr2, blinkerV_eq c r hc hc2 hr hr2]
    exact tickBoard_placeAt c r relH relV relH_step
  have e2 : tickBoard (blinkerV c r) = blinkerH c r := by
    rw [blinkerH_eq c r hc hc2 hr hr2, blinkerV_eq c r hc hc2 hr hr2]
    exact tickBoard_placeAt c r relV relH relV_step
  obtain ⟨s1, ht1, hg1, _, _, hconf1⟩ := tick_spec s h
  obtain ⟨s2, ht2, hg2, _, _, _⟩ := tick_spec s1 hconf1
  refine ⟨s1, s2, ht1, ?_, ht2, ?_⟩
  · rw [hg1, hb, e1]
  · rw [hg2, hg1, hb, e1, e2]

theorem blinkerState_configured : Configured blinkerState :=
  ⟨rfl, rfl, boardOf_length _, zeroBoard_length⟩

theorem C1_tick_applies_rule_to_snapshot_witness :
    ∃ s', tick blinkerState = some s' ∧ s'.tempBoard = blinkerState.gameBoard ∧
      (∀ col row : Int, 0 ≤ col → col < blinkerState.COLS → 0 ≤ row → row < blinkerState.ROWS →
        readArr s'.gameBoard (col + row * blinkerState.ROWS)
          = some (nextState (cellAt blinkerState.gameBoard col row)
              (liveNeighbours blinkerState.gameBoard col row))) ∧
      readArr s'.gameBoard (0 + 78 * blinkerState.ROWS) = some 1 ∧
      readArr s'.gameBoard (1 + 79 * blinkerState.ROWS) = some 0 ∧
      readArr s'.gameBoard (0 + 79 * blinkerState.ROWS) = some 1 ∧
      readArr s'.gameBoard (5 + 5 * blinkerState.ROWS) = some 0 := by
  obtain ⟨s', ht, htb, hall⟩ := C1_tick_applies_rule_to_snapshot blinkerState
    blinkerState_configured (boardOf_binary _)
  have hg : blinkerState.gameBoard
      = boardOf fun col row => decide (row = 79 ∧ (col = (0 - 1) % 80 ∨ col = 0 ∨ col = (0 + 1) % 80)) := rfl
  refine ⟨s', ht, htb, hall, ?_, ?_, ?_, ?_⟩
  · rw [hall 0 78 (by decide) (by decide) (by decide) (by decide), hg,
      cellAt_boardOf _ _ _ (by decide) (by decide) (by decide) (by decide),
      liveNeighbours_boardOf]
    decide
  · rw [hall 1 79 (by decide) (by decide) (by decide) (by decide), hg,
      cellAt_boardOf _ _ _ (by decide) (by decide) (by decide) (by decide),
      liveNeighbours_boardOf]
    decide
  · rw [hall 0 79 (by decide) (by decide) (by decide) (by decide), hg,
      cellAt_boardOf _ _ _ (by decide) (by decide) (by decide) (by decide),
      liveNeighbours_boardOf]
    decide
  · rw [hall 5 5 (by decide) (by decide) (by decide) (by decide), hg,
      cellAt_boardOf _ _ _ (by decide) (by decide) (by decide) (by decide),
      liveNeighbours_boardOf]
    decide

theorem C4_blinker_oscillates_witness :
    ∃ s1 s2, tick blinkerState = some s1 ∧
      s1.gameBoard = blinkerV 0 79 ∧ tick s1 = some s2 ∧ s2.gameBoard = blinkerH 0 79 :=
  C4_blinker_oscillates blinkerState 0 79 blinkerState_configured
    (by decide) (by decide) (by decide) (by decide) rfl

/-- C5: on the configured 80x80 torus, for every corner `(c, r)` in the grid,
the board whose only live cells are the 2x2 block at `(c, r)` (wrapped) is
left unchanged by `tick()`; `countNeighbors` is 3 at every block cell and
differs from 3 at every other cell. -/
theorem C5_block_is_still_life (s : State) (c r : Int) (h : Configured s)
    (hc : 0 ≤ c) (hc2 : c < s.COLS) (hr : 0 ≤ r) (hr2 : r < s.ROWS)
    (hb : s.gameBoard = blockBoard c r) :
    (∃ s1, tick s = some s1 ∧ s1.gameBoard = blockBoard c r) ∧
    (∀ col row : Int, 0 ≤ col → col < s.COLS → 0 ≤ row → row < s.ROWS →
      inBlock c r col row = true → countNeighbors s s.gameBoard col row = some 3) ∧
    (∀ col row : Int, 0 ≤ col → col < s.COLS → 0 ≤ row → row < s.ROWS →
      inBlock c r col row = false → countNeighbors s s.gameBoard col row ≠ some 3) := by
  have hC := h.2.1
  have hR := h.1
  rw [hC] at hc2
  rw [hR] at hr2
  have hcount : ∀ col row : Int, 0 ≤ col → col < 80 → 0 ≤ row → row < 80 →
      countNeighbors s s.gameBoard col row
        = some ((nbrCountN relBlock ((col - c) % 80).toNat ((row - r) % 80).toNat : Nat) : Int) := by
    intro col row h0 h1 h2 h3
    rw [countNeighbors_80 s s.gameBoard col row hR hC h.2.2.1 h0 h1 h2 h3, hb,
      blockBoard_eq c r hc hc2 hr hr2, liveNeighbours_boardOf, nbrCount_placeAt]
  obtain ⟨s1, ht1, hg1, _, _, _⟩ := tick_spec s h
  refine ⟨⟨s1, ht1, ?_⟩, ?_, ?_⟩
  · rw [hg1, hb, blockBoard_eq c r hc hc2 hr hr2]
    exact tickBoard_placeAt c r relBlock relBlock relBlock_step
  · intro col row h0 h1 h2 h3 hin
    rw [hC] at h1
    rw [hR] at h3
    rw [inBlock_eq c r col row hc hc2 hr hr2 h0 h1 h2 h3] at hin
    rw [hcount col row h0 h1 h2 h3]
    have := (relBlock_count ((col - c) % 80).toNat ((row - r) % 80).toNat (by omega)
      (by omega)).1 hin
    rw [this]
    rfl
  · intro col row h0 h1 h2 h3 hin
    rw [hC] at h1
    rw [hR] at h3
    rw [inBlock_eq c r col row hc hc2 hr hr2 h0 h1 h2 h3] at hin
    rw [hcount col row h0 h1 h2 h3]
    have := (relBlock_count ((col - c) % 80).toNat ((row - r) % 80).toNat (by omega)
      (by omega)).2 hin
    intro he
    rw [Option.some.injEq] at he
    exact this (by exact_mod_cast he)

theorem blockState_configured : Configured blockState :=
  ⟨rfl, rfl, boardOf_length _, zeroBoard_length⟩

theorem C5_block_is_still_life_witness :
    (∃ s1, tick blockState = some s1 ∧ s1.gameBoard = blockBoard 79 79) ∧
    (∀ col row : Int, 0 ≤ col → col < blockState.COLS → 0 ≤ row → row < blockState.ROWS →
      inBlock 79 79 col row = true →
      countNeighbors blockState blockState.gameBoard col row = some 3) ∧
    (∀ col row : Int, 0 ≤ col → col < blockState.COLS → 0 ≤ row → row < blockState.ROWS →
      inBlock 79 79 col row = false →
      countNeighbors blockState blockState.gameBoard col row ≠ some 3) :=
  C5_block_is_still_life blockState 79 79 blockState_configured
    (by decide) (by decide) (by decide) (by decide) rfl

/-! ## What `tick` leaves alone -/

theorem setGameCell_controls (s t : State) (i j v : Int) (h : setGameCell s i j v = some t) :
    controls t = controls s := by
  unfold setGameCell at h
  simp only [Option.bind_eq_some] at h
  obtain ⟨_, _, _, _, gb, _, h⟩ := h
  rw [Option.some.injEq] at h
  rw [← h]
  rfl

theorem tickCell_controls (i j : Int) (s t : State) (h : tickCell i j s = some t) :
    controls t = controls s := by
  unfold tickCell at h
  simp only [Option.bind_eq_some] at h
  obtain ⟨count, _, v, _, h⟩ := h
  split at h
  · simp only [Option.bind_eq_some] at h
    obtain ⟨s1, h1, h⟩ := h
    have e1 : controls s1 = controls s := by
      split at h1
      · exact setGameCell_controls _ _ _ _ _ h1
      · rw [Option.some.injEq] at h1; rw [h1]
    split at h
    · rw [setGameCell_controls _ _ _ _ _ h, e1]
    · rw [Option.some.injEq] at h; rw [← h, e1]
  · split at h
    · exact setGameCell_controls _ _ _ _ _ h
    · rw [Option.some.injEq] at h; rw [h]

theorem tickCopy_controls (s t : State) (h : tickCopy s = some t) : controls t = controls s := by
  unfold tickCopy at h
  simp only [Option.bind_eq_some] at h
  obtain ⟨n, _, h⟩ := h
  refine forLoopFrom_rel _ (fun a b => controls b = controls a) (fun _ => rfl)
    (fun a b c h1 h2 => h2.trans h1) ?_ _ _ _ _ h
  intro i a b hb
  simp only [Option.bind_eq_some] at hb
  obtain ⟨_, _, tb, _, hb⟩ := hb
  rw [Option.some.injEq] at hb
  rw [← hb]
  rfl

/-- Function `tick` changes nothing but the two boards and the call counter. -/
theorem tick_controls (s t : State) (h : tick s = some t) : controls t = controls s := by
  unfold tick at h
  simp only [Option.bind_eq_some] at h
  obtain ⟨s1, h1, h⟩ := h
  have e0 := tickCopy_controls _ _ h1
  have e1 : controls s1 = controls s := e0
  rw [← e1]
  refine forLoopFrom_rel _ (fun a b => controls b = controls a) (fun _ => rfl)
    (fun a b c h1 h2 => h2.trans h1) ?_ _ _ _ _ h
  intro i a b hb
  refine forLoopFrom_rel _ (fun a b => controls b = controls a) (fun _ => rfl)
    (fun a b c h1 h2 => h2.trans h1) ?_ _ _ _ _ hb
  intro j a b hb
  exact tickCell_controls _ _ _ _ hb

theorem controls_speed (s t : State) (h : controls t = controls s) : t.speed = s.speed := by
  have := congrArg State.speed h
  exact this

theorem controls_paused (s t : State) (h : controls t = controls s) : t.paused = s.paused := by
  have := congrArg State.paused h
  exact this

theorem iterTick_ok (n : Nat) : ∀ s : State, Configured s →
    ∃ t, iterTick n s = some t ∧ Configured t ∧
      t.gameBoard = tickBoard^[n] s.gameBoard ∧ t.tickCalls = s.tickCalls + n := by
  induction n with
  | zero =>
    intro s h
    exact ⟨s, rfl, h, rfl, rfl⟩
  | succ n ih =>
    intro s h
    obtain ⟨s1, ht1, hg1, _, hc1, hconf1⟩ := tick_spec s h
    obtain ⟨t, ht, hconf, hg, hc⟩ := ih s1 hconf1
    refine ⟨t, ?_, hconf, ?_, ?_⟩
    · simp only [iterTick, ht1, Option.some_bind]
      exact ht
    · rw [hg, hg1, Function.iterate_succ_apply]
    · rw [hc, hc1]
      omega

/-! ## The lag-draining loop -/

/-- The loop while unpaused: with `n = L / T` it needs `n + 1` evaluations of
its test, runs `tick` `n` times and leaves `L mod T`. -/
theorem lagLoop_unpaused (T : Int) (hT : 1 ≤ T) (n : Nat) :
    ∀ (L : Int) (s : State), s.speed = T → s.paused = 0 → 0 ≤ L → L ≤ 16777216 →
      L / T = n → ∀ fuel : Nat,
        (fuel ≤ n → lagLoop fuel L s = none) ∧
        (n < fuel → lagLoop fuel L s = (iterTick n s).map fun t => (L % T, t)) := by
  induction n with
  | zero =>
    intro L s hs hp h0 h1 hn fuel
    have hlt : L < T := by
      have h2 := Int.emod_add_ediv L T
      have h3 := Int.emod_lt_of_pos L (by omega : (0 : Int) < T)
      rw [hn] at h2
      simp only [Nat.cast_zero, mul_zero, add_zero] at h2
      omega
    refine ⟨fun hf => ?_, fun hf => ?_⟩
    · have : fuel = 0 := by omega
      subst this
      rfl
    · obtain ⟨f, rfl⟩ : ∃ f, fuel = f + 1 := ⟨fuel - 1, by omega⟩
      simp only [lagLoop, roundF32_exact (by omega : (-16777216 : Int) ≤ L) h1,
        hs, ge_iff_le, if_neg (not_le.mpr hlt), iterTick, Option.map_some']
      rw [Int.emod_eq_of_lt h0 hlt]
  | succ n ih =>
    intro L s hs hp h0 h1 hn fuel
    have hge : T ≤ L := by
      by_contra hc
      have : L / T = 0 := Int.ediv_eq_zero_of_lt h0 (by omega)
      rw [this] at hn
      push_cast at hn
      omega
    have hdiv : (L - T) / T = n := by
      have : L - T = L + T * (-1) := by ring
      rw [this, Int.add_mul_ediv_left _ _ (by omega : T ≠ 0), hn]
      push_cast
      ring
    have hmod : (L - T) % T = L % T := by
      have : L - T = L + T * (-1) := by ring
      rw [this, Int.add_mul_emod_self_left]
    cases fuel with
    | zero => exact ⟨fun _ => rfl, fun hf => by omega⟩
    | succ f =>
      have hstep : lagLoop (f + 1) L s = (tick s).bind fun s1 => lagLoop f (L - T) s1 := by
        simp only [lagLoop, roundF32_exact (by omega : (-16777216 : Int) ≤ L) h1,
          hs, ge_iff_le, if_pos hge, hp, if_true]
        cases ht : tick s with
        | none => rfl
        | some s1 =>
          have hsp : s1.speed = T := by
            rw [← hs]
            exact controls_speed _ _ (tick_controls _ _ ht)
          simp only [Option.some_bind, hsp]
          rw [roundF32_exact (by omega) (by omega),
            ckInt_of_bounds (by omega) (by omega), Option.some_bind]
      rw [hstep]
      cases ht : tick s with
      | none =>
        refine ⟨fun _ => rfl, fun _ => ?_⟩
        simp only [iterTick, ht, Option.none_bind, Option.map_none']
      | some s1 =>
        have hsp : s1.speed = T := by
          rw [← hs]
          exact controls_speed _ _ (tick_controls _ _ ht)
        have hpa : s1.paused = 0 := by
          rw [← hp]
          exact controls_paused _ _ (tick_controls _ _ ht)
        obtain ⟨ih1, ih2⟩ := ih (L - T) s1 hsp hpa (by omega) (by omega) hdiv f
        refine ⟨fun hf => ?_, fun hf => ?_⟩
        · rw [Option.some_bind]
          exact ih1 (by omega)
        · rw [Option.some_bind, ih2 (by omega), hmod]
          simp only [iterTick, ht, Option.some_bind]

/-- The loop while paused: the same number of iterations, and the state is
not touched. -/
theorem lagLoop_paused (T : Int) (hT : 1 ≤ T) (n : Nat) :
    ∀ (L : Int) (s : State), s.speed = T → s.paused ≠ 0 → 0 ≤ L → L ≤ 16777216 →
      L / T = n → ∀ fuel : Nat,
        (fuel ≤ n → lagLoop fuel L s = none) ∧
        (n < fuel → lagLoop fuel L s = some (L % T, s)) := by
  induction n with
  | zero =>
    intro L s hs hp h0 h1 hn fuel
    have hlt : L < T := by
      have h2 := Int.emod_add_ediv L T
      have h3 := Int.emod_lt_of_pos L (by omega : (0 : Int) < T)
      rw [hn] at h2
      simp only [Nat.cast_zero, mul_zero, add_zero] at h2
      omega
    refine ⟨fun hf => ?_, fun hf => ?_⟩
    · have : fuel = 0 := by omega
      subst this
      rfl
    · obtain ⟨f, rfl⟩ : ∃ f, fuel = f + 1 := ⟨fuel - 1, by omega⟩
      simp only [lagLoop, roundF32_exact (by omega : (-16777216 : Int) ≤ L) h1,
        hs, ge_iff_le, if_neg (not_le.mpr hlt)]
      rw [Int.emod_eq_of_lt h0 hlt]
  | succ n ih =>
    intro L s hs hp h0 h1 hn fuel
    have hge : T ≤ L := by
      by_contra hc
      have : L / T = 0 := Int.ediv_eq_zero_of_lt h0 (by omega)
      rw [this] at hn
      push_cast at hn
      omega
    have hdiv : (L - T) / T = n := by
      have : L - T = L + T * (-1) := by ring
      rw [this, Int.add_mul_ediv_left _ _ (by omega : T ≠ 0), hn]
      push_cast
      ring
    have hmod : (L - T) % T = L % T := by
      have : L - T = L + T * (-1) := by ring
      rw [this, Int.add_mul_emod_self_left]
    cases fuel with
    | zero => exact ⟨fun _ => rfl, fun hf => by omega⟩
    | succ f =>
      have hstep : lagLoop (f + 1) L s = lagLoop f (L - T) s := by
        simp only [lagLoop, roundF32_exact (by omega : (-16777216 : Int) ≤ L) h1,
          hs, ge_iff_le, if_pos hge, if_neg hp, Option.some_bind]
        rw [roundF32_exact (by omega) (by omega),
          ckInt_of_bounds (by omega) (by omega), Option.some_bind]
      rw [hstep]
      obtain ⟨ih1, ih2⟩ := ih (L - T) s hs hp (by omega) (by omega) hdiv f
      refine ⟨fun hf => ih1 (by omega), fun hf => ?_⟩
      rw [ih2 (by omega), hmod]

theorem ediv_toNat_cast (L T : Int) (hL : 0 ≤ L) (hT : 1 ≤ T) :
    L / T = ((L / T).toNat : Int) := by
  have := Int.ediv_nonneg hL (by omega : (0 : Int) ≤ T)
  omega

/-! ## Claims C6 and C7 -/

/-- C6: for a tick interval `T = speed` in `[10,1000]` and a lag `L` in
`[0, 2^24]` at entry, the loop `while (lag >= speed)` of `main` stops after
exactly `floor(L/T)` iterations (it fails to finish with `floor(L/T)` loop
tests and finishes with any larger number), leaves `lag = L mod T` in
`[0, T)`, and while unpaused its effect is that of `floor(L/T)` calls of
`tick()`; from lag 0, an elapsed time `3*T` unpaused gives exactly 3 calls. -/
theorem C6_lag_drains_in_floor_steps (s : State) (L : Int) (hconf : Configured s)
    (hT1 : 10 ≤ s.speed) (hT2 : s.speed ≤ 1000) (hL : 0 ≤ L) (hL2 : L ≤ 16777216) :
    (∀ fuel : Nat, fuel ≤ (L / s.speed).toNat → lagLoop fuel L s = none) ∧
    ∃ s', (∀ fuel : Nat, (L / s.speed).toNat < fuel →
        lagLoop fuel L s = some (L % s.speed, s')) ∧
      0 ≤ L % s.speed ∧ L % s.speed < s.speed ∧
      (s.paused = 0 → iterTick (L / s.speed).toNat s = some s' ∧
        s'.tickCalls = s.tickCalls + (L / s.speed).toNat ∧
        s'.gameBoard = tickBoard^[(L / s.speed).toNat] s.gameBoard) ∧
      (s.paused ≠ 0 → s' = s) ∧
      (s.paused = 0 → L = 0 + 3 * s.speed →
        L % s.speed = 0 ∧ s'.tickCalls = s.tickCalls + 3) := by
  have hn := ediv_toNat_cast L s.speed hL (by omega)
  have hm0 := Int.emod_nonneg L (by omega : s.speed ≠ 0)
  have hm1 := Int.emod_lt_of_pos L (by omega : (0 : Int) < s.speed)
  by_cases hp : s.paused = 0
  · have hrun := lagLoop_unpaused s.speed (by omega) (L / s.speed).toNat L s rfl hp hL hL2 hn
    obtain ⟨t, ht, _, hg, hc⟩ := iterTick_ok (L / s.speed).toNat s hconf
    refine ⟨fun fuel hf => (hrun fuel).1 hf, t, fun fuel hf => ?_, hm0, hm1,
      fun _ => ⟨ht, hc, hg⟩, fun hne => absurd hp hne, fun _ h3 => ?_⟩
    · rw [(hrun fuel).2 hf, ht]
      rfl
    · have hq : L / s.speed = 3 := by
        rw [h3, zero_add, Int.mul_ediv_cancel _ (by omega : s.speed ≠ 0)]
      have hr : L % s.speed = 0 := by
        rw [h3, zero_add, Int.mul_emod_left]
      refine ⟨hr, ?_⟩
      rw [hc, hq]
      rfl
  · have hrun := lagLoop_paused s.speed (by omega) (L / s.speed).toNat L s rfl hp hL hL2 hn
    exact ⟨fun fuel hf => (hrun fuel).1 hf, s, fun fuel hf => (hrun fuel).2 hf, hm0, hm1,
      fun h0 => absurd h0 hp, fun _ => rfl, fun h0 => absurd h0 hp⟩

theorem runningState_configured : Configured runningState :=
  ⟨rfl, rfl, zeroBoard_length, zeroBoard_length⟩

theorem C6_lag_drains_in_floor_steps_witness :
    (∀ fuel : Nat, fuel ≤ ((1500 : Int) / runningState.speed).toNat →
      lagLoop fuel 1500 runningState = none) ∧
    ∃ s', (∀ fuel : Nat, ((1500 : Int) / runningState.speed).toNat < fuel →
        lagLoop fuel 1500 runningState = some (1500 % runningState.speed, s')) ∧
      0 ≤ (1500 : Int) % runningState.speed ∧ (1500 : Int) % runningState.speed < runningState.speed ∧
      (runningState.paused = 0 →
        iterTick ((1500 : Int) / runningState.speed).toNat runningState = some s' ∧
        s'.tickCalls = runningState.tickCalls + ((1500 : Int) / runningState.speed).toNat ∧
        s'.gameBoard = tickBoard^[((1500 : Int) / runningState.speed).toNat] runningState.gameBoard) ∧
      (runningState.paused ≠ 0 → s' = runningState) ∧
      (runningState.paused = 0 → (1500 : Int) = 0 + 3 * runningState.speed →
        (1500 : Int) % runningState.speed = 0 ∧ s'.tickCalls = runningState.tickCalls + 3) :=
  C6_lag_drains_in_floor_steps runningState 1500 runningState_configured
    (by decide) (by decide) (by decide) (by decide)

theorem lagLoop_stuck (fuel : Nat) : lagLoop fuel 1073741824 fastPausedState = none := by
  have e1 : roundF32 1073741824 = 1073741824 := by decide
  have e2 : roundF32 (1073741824 - 10) = 1073741824 := by decide
  have hs : fastPausedState.speed = 10 := rfl
  have hp : fastPausedState.paused = 1 := rfl
  induction fuel with
  | zero => rfl
  | succ f ih =>
    simp only [lagLoop, e1, hs, hp, ge_iff_le]
    rw [if_pos (by decide), if_neg (by decide), Option.some_bind, hs, e2,
      ckInt_of_bounds (by decide) (by decide), Option.some_bind]
    exact ih

/-- C7 fails as stated for a large lag: with `speed = 10` and `lag = 2^30`
the `float` difference `lag - speed` rounds back to `2^30` (binary32 has
spacing 64 just below `2^30`), so `lag -= speed` leaves `lag` unchanged and
the paused loop never finishes, whatever the number of loop tests allowed. -/
theorem C7_counterexample :
    roundF32 (roundF32 1073741824 - fastPausedState.speed) = 1073741824 ∧
    fastPausedState.paused ≠ 0 ∧
    ¬ ∃ fuel r, lagLoop fuel 1073741824 fastPausedState = some r := by
  refine ⟨by decide, by decide, ?_⟩
  rintro ⟨fuel, r, h⟩
  rw [lagLoop_stuck fuel] at h
  exact Option.noConfusion h

/-! ## Rounding to binary32 beyond the exact range -/

/-- The spacing of binary32, binade by binade, for magnitudes below `2^32`. -/
theorem quantum_cases (a : Nat) (h : a < 4294967296) :
    (a < 16777216 ∧ quantum a = 1) ∨
    (16777216 ≤ a ∧ a < 33554432 ∧ quantum a = 2) ∨
    (33554432 ≤ a ∧ a < 67108864 ∧ quantum a = 4) ∨
    (67108864 ≤ a ∧ a < 134217728 ∧ quantum a = 8) ∨
    (134217728 ≤ a ∧ a < 268435456 ∧ quantum a = 16) ∨
    (268435456 ≤ a ∧ a < 536870912 ∧ quantum a = 32) ∨
    (536870912 ≤ a ∧ a < 1073741824 ∧ quantum a = 64) ∨
    (1073741824 ≤ a ∧ a < 2147483648 ∧ quantum a = 128) ∨
    (2147483648 ≤ a ∧ quantum a = 256) := by
  unfold quantum
  unfold quantumAux
  by_cases h0 : a < 16777216
  · rw [if_pos h0]
    exact Or.inl ⟨h0, rfl⟩
  rw [if_neg h0]
  unfold quantumAux
  by_cases h1 : a / 2 < 16777216
  · rw [if_pos h1]
    exact Or.inr (Or.inl ⟨by omega, by omega, rfl⟩)
  rw [if_neg h1]
  unfold quantumAux
  by_cases h2 : a / 2 / 2 < 16777216
  · rw [if_pos h2]
    exact Or.inr (Or.inr (Or.inl ⟨by omega, by omega, rfl⟩))
  rw [if_neg h2]
  unfold quantumAux
  by_cases h3 : a / 2 / 2 / 2 < 16777216
  · rw [if_pos h3]
    exact Or.inr (Or.inr (Or.inr (Or.inl ⟨by omega, by omega, rfl⟩)))
  rw [if_neg h3]
  unfold quantumAux
  by_cases h4 : a / 2 / 2 / 2 / 2 < 16777216
  · rw [if_pos h4]
    exact Or.inr (Or.inr (Or.inr (Or.inr (Or.inl ⟨by omega, by omega, rfl⟩))))
  rw [if_neg h4]
  unfold quantumAux
  by_cases h5 : a / 2 / 2 / 2 / 2 / 2 < 16777216
  · rw [if_pos h5]
    exact Or.inr (Or.inr (Or.inr (Or.inr (Or.inr (Or.inl ⟨by omega, by omega, rfl⟩)))))
  rw [if_neg h5]
  unfold quantumAux
  by_cases h6 : a / 2 / 2 / 2 / 2 / 2 / 2 < 16777216
  · rw [if_pos h6]
    exact Or.inr (Or.inr (Or.inr (Or.inr (Or.inr (Or.inr (Or.inl ⟨by omega, by omega, rfl⟩))))))
  rw [if_neg h6]
  unfold quantumAux
  by_cases h7 : a / 2 / 2 / 2 / 2 / 2 / 2 / 2 < 16777216
  · rw [if_pos h7]
    exact Or.inr (Or.inr (Or.inr (Or.inr (Or.inr (Or.inr (Or.inr
      (Or.inl ⟨by omega, by omega, rfl⟩)))))))
  rw [if_neg h7]
  unfold quantumAux
  rw [if_pos (by omega : a / 2 / 2 / 2 / 2 / 2 / 2 / 2 / 2 < 16777216)]
  exact Or.inr (Or.inr (Or.inr (Or.inr (Or.inr (Or.inr (Or.inr
    (Or.inr ⟨by omega, rfl⟩)))))))

theorem quantumAux_pos (n : Nat) : ∀ a : Nat, 0 < quantumAux n a := by
  induction n with
  | zero =>
    intro a
    exact Nat.one_pos
  | succ n ih =>
    intro a
    unfold quantumAux
    split
    · exact Nat.one_pos
    · have := ih (a / 2)
      omega

theorem quantum_pos (a : Nat) : 0 < quantum a := quantumAux_pos 128 a

/-- Rounding of a non-negative integer, with `q * k` the multiple of the
spacing `q` below it and `r` its distance from there: the nearer of `q * k`
and `q * k + q`, and on a tie the one that is an even multiple of `q`. -/
theorem roundF32_spec (v : Int) (h0 : 0 ≤ v) :
    ∃ k r : Int, v = (quantum v.toNat : Int) * k + r ∧ 0 ≤ k ∧ 0 ≤ r ∧
      r < (quantum v.toNat : Int) ∧
      ((2 * r < (quantum v.toNat : Int) ∧ roundF32 v = (quantum v.toNat : Int) * k) ∨
       ((quantum v.toNat : Int) < 2 * r ∧
          roundF32 v = (quantum v.toNat : Int) * k + (quantum v.toNat : Int)) ∨
       (2 * r = (quantum v.toNat : Int) ∧ k % 2 = 0 ∧
          roundF32 v = (quantum v.toNat : Int) * k) ∨
       (2 * r = (quantum v.toNat : Int) ∧ k % 2 = 1 ∧
          roundF32 v = (quantum v.toNat : Int) * k + (quantum v.toNat : Int))) := by
  have hna : v.natAbs = v.toNat := by omega
  have hq := quantum_pos v.toNat
  have hv : v = (v.toNat : Int) := by omega
  have hdm := Nat.div_add_mod v.toNat (quantum v.toNat)
  have hmod := Nat.mod_lt v.toNat hq
  have hR : roundF32 v = ((if 2 * (v.toNat % quantum v.toNat) < quantum v.toNat
      then v.toNat / quantum v.toNat * quantum v.toNat
      else if quantum v.toNat < 2 * (v.toNat % quantum v.toNat)
        then (v.toNat / quantum v.toNat + 1) * quantum v.toNat
      else if v.toNat / quantum v.toNat % 2 = 0 then v.toNat / quantum v.toNat * quantum v.toNat
      else (v.toNat / quantum v.toNat + 1) * quantum v.toNat : Nat) : Int) := by
    unfold roundF32
    simp only [hna]
    rw [if_neg (by omega)]
  rw [hR]
  generalize quantum v.toNat = q at *
  generalize hk : v.toNat / q = k at *
  generalize hr : v.toNat % q = r at *
  have e1 : ((k * q : Nat) : Int) = (q : Int) * (k : Int) := by push_cast; ring
  have e2 : (((k + 1) * q : Nat) : Int) = (q : Int) * (k : Int) + (q : Int) := by push_cast; ring
  have e3 : v = (q : Int) * (k : Int) + (r : Int) := by
    rw [hv, ← hdm]
    push_cast
    rfl
  refine ⟨(k : Int), (r : Int), e3, by omega, by omega, by omega, ?_⟩
  by_cases c1 : 2 * r < q
  · rw [if_pos c1, e1]
    exact Or.inl ⟨by omega, rfl⟩
  · rw [if_neg c1]
    by_cases c2 : q < 2 * r
    · rw [if_pos c2, e2]
      exact Or.inr (Or.inl ⟨by omega, rfl⟩)
    · rw [if_neg c2]
      by_cases c3 : k % 2 = 0
      · rw [if_pos c3, e1]
        exact Or.inr (Or.inr (Or.inl ⟨by omega, by omega, rfl⟩))
      · rw [if_neg c3, e2]
        exact Or.inr (Or.inr (Or.inr ⟨by omega, by omega, rfl⟩))

/-- The rounded value is within half a spacing of the argument. -/
theorem roundF32_near (v : Int) (h0 : 0 ≤ v) :
    0 ≤ roundF32 v ∧ 2 * (roundF32 v - v) ≤ (quantum v.toNat : Int) ∧
      2 * (v - roundF32 v) ≤ (quantum v.toNat : Int) := by
  obtain ⟨k, r, hv, hk, hr, hrq, hR⟩ := roundF32_spec v h0
  have hP : 0 ≤ (quantum v.toNat : Int) * k := Int.mul_nonneg (Int.ofNat_nonneg _) hk
  generalize (quantum v.toNat : Int) * k = P at hv hR hP
  generalize (quantum v.toNat : Int) = q at hv hR hrq
  omega

/-- A non-negative multiple of the spacing at its own magnitude is a
binary32 value: rounding leaves it alone. -/
theorem roundF32_of_rep (x : Int) (h0 : 0 ≤ x) (hx : x % (quantum x.toNat : Int) = 0) :
    roundF32 x = x := by
  obtain ⟨k, r, hv, hk, hr, hrq, hR⟩ := roundF32_spec x h0
  generalize (quantum x.toNat : Int) = q at hx hv hrq hR
  have hr0 : r = 0 := by
    have e : (q * k + r) % q = r := by
      rw [Int.add_comm, Int.add_mul_emod_self_left]
      exact Int.emod_eq_of_lt hr hrq
    rw [hv, e] at hx
    exact hx
  subst hr0
  generalize q * k = P at hv hR
  omega

/-- The rounded value is a multiple of the spacing at its own magnitude. -/
theorem roundF32_rep (v : Int) (h0 : 0 ≤ v) (h1 : v ≤ 2147483648) :
    0 ≤ roundF32 v ∧ roundF32 v ≤ 2147483648 ∧
      roundF32 v % (quantum (roundF32 v).toNat : Int) = 0 ∧
      (roundF32 v < 16777216 → roundF32 v = v) := by
  obtain ⟨k, r, hv, hk, hr, hrq, hR⟩ := roundF32_spec v h0
  have hn := roundF32_near v h0
  have hRlt : (roundF32 v).toNat < 4294967296 := by
    rcases quantum_cases v.toNat (by omega) with ⟨c1, hq⟩ | ⟨c1, c2, hq⟩ | ⟨c1, c2, hq⟩ |
      ⟨c1, c2, hq⟩ | ⟨c1, c2, hq⟩ | ⟨c1, c2, hq⟩ | ⟨c1, c2, hq⟩ | ⟨c1, c2, hq⟩ | ⟨c1, hq⟩ <;>
    · rw [hq] at hn
      omega
  rcases quantum_cases v.toNat (by omega) with ⟨c1, hq⟩ | ⟨c1, c2, hq⟩ | ⟨c1, c2, hq⟩ |
      ⟨c1, c2, hq⟩ | ⟨c1, c2, hq⟩ | ⟨c1, c2, hq⟩ | ⟨c1, c2, hq⟩ | ⟨c1, c2, hq⟩ | ⟨c1, hq⟩ <;>
  · rw [hq] at hv hrq hR
    rcases quantum_cases (roundF32 v).toNat hRlt with ⟨d1, hp⟩ | ⟨d1, d2, hp⟩ | ⟨d1, d2, hp⟩ |
      ⟨d1, d2, hp⟩ | ⟨d1, d2, hp⟩ | ⟨d1, d2, hp⟩ | ⟨d1, d2, hp⟩ | ⟨d1, d2, hp⟩ | ⟨d1, hp⟩ <;>
    · rw [hp]
      omega

theorem roundF32_idem (v : Int) (h0 : 0 ≤ v) (h1 : v ≤ 2147483648) :
    roundF32 (roundF32 v) = roundF32 v :=
  roundF32_of_rep _ (roundF32_rep v h0 h1).1 (roundF32_rep v h0 h1).2.2.1

/-- The spacing does not shrink as the magnitude grows. -/
theorem quantum_mono (a b : Nat) (hab : a ≤ b) (hb : b < 4294967296) :
    quantum a ≤ quantum b := by
  rcases quantum_cases a (by omega) with ⟨c1, hq⟩ | ⟨c1, c2, hq⟩ | ⟨c1, c2, hq⟩ |
      ⟨c1, c2, hq⟩ | ⟨c1, c2, hq⟩ | ⟨c1, c2, hq⟩ | ⟨c1, c2, hq⟩ | ⟨c1, c2, hq⟩ | ⟨c1, hq⟩ <;>
  · rcases quantum_cases b hb with ⟨d1, hp⟩ | ⟨d1, d2, hp⟩ | ⟨d1, d2, hp⟩ |
      ⟨d1, d2, hp⟩ | ⟨d1, d2, hp⟩ | ⟨d1, d2, hp⟩ | ⟨d1, d2, hp⟩ | ⟨d1, d2, hp⟩ | ⟨d1, hp⟩ <;>
    · omega

/-- One `lag -= speed` in binary32 moves a value down when the interval is
more than half the spacing just below it. -/
theorem roundF32_sub_lt (x T : Int) (hx : x ≤ 2147483648) (hT : 1 ≤ T) (hTx : T ≤ x)
    (hq : (quantum (x - 1).toNat : Int) < 2 * T) :
    0 ≤ roundF32 (x - T) ∧ roundF32 (x - T) < x := by
  have hn := roundF32_near (x - T) (by omega)
  have hm := quantum_mono (x - T).toNat (x - 1).toNat (by omega) (by omega)
  omega

/-- Below `2^28 + 16` the `float` value of `L` has spacing at most 16 below
it. -/
theorem spacingBelow_le_16 (L : Int) (h0 : 0 ≤ L) (h1 : L ≤ 268435472) :
    spacingBelow L ≤ 16 := by
  unfold spacingBelow
  obtain ⟨k, r, hv, hk, hr, hrq, hR⟩ := roundF32_spec L h0
  rcases quantum_cases L.toNat (by omega) with ⟨c1, hq⟩ | ⟨c1, c2, hq⟩ | ⟨c1, c2, hq⟩ |
      ⟨c1, c2, hq⟩ | ⟨c1, c2, hq⟩ | ⟨c1, c2, hq⟩ | ⟨c1, c2, hq⟩ | ⟨c1, c2, hq⟩ | ⟨c1, hq⟩ <;>
  · rw [hq] at hv hrq hR
    rcases quantum_cases (roundF32 L - 1).toNat (by omega) with ⟨d1, hp⟩ | ⟨d1, d2, hp⟩ |
      ⟨d1, d2, hp⟩ | ⟨d1, d2, hp⟩ | ⟨d1, d2, hp⟩ | ⟨d1, d2, hp⟩ | ⟨d1, d2, hp⟩ | ⟨d1, d2, hp⟩ |
      ⟨d1, hp⟩ <;>
    · omega

/-- For an `int` the `float` value has spacing at most 128 below it. -/
theorem spacingBelow_le_128 (L : Int) (h0 : 0 ≤ L) (h1 : L ≤ 2147483647) :
    spacingBelow L ≤ 128 := by
  unfold spacingBelow
  have hr := roundF32_rep L h0 (by omega)
  rcases quantum_cases (roundF32 L - 1).toNat (by omega) with ⟨d1, hp⟩ | ⟨d1, d2, hp⟩ |
      ⟨d1, d2, hp⟩ | ⟨d1, d2, hp⟩ | ⟨d1, d2, hp⟩ | ⟨d1, d2, hp⟩ | ⟨d1, d2, hp⟩ | ⟨d1, d2, hp⟩ |
      ⟨d1, hp⟩ <;>
  · omega

/-- One step above the bound of the amended C7 for `speed = 10`: from
`lag = 2^28 + 17` the `float` value of `lag` is `2^28 + 32`, the difference
`2^28 + 22` rounds back to `2^28 + 32`, and the paused loop never finishes. -/
theorem lagLoop_stuck_above (fuel : Nat) : lagLoop fuel 268435473 fastPausedState = none := by
  have e0 : roundF32 268435473 = 268435488 := by decide
  have e1 : roundF32 268435488 = 268435488 := by decide
  have e2 : roundF32 (268435488 - 10) = 268435488 := by decide
  have hs : fastPausedState.speed = 10 := rfl
  have hp : fastPausedState.paused = 1 := rfl
  have hstuck : ∀ f : Nat, lagLoop f 268435488 fastPausedState = none := by
    intro f
    induction f with
    | zero => rfl
    | succ f ih =>
      simp only [lagLoop, e1, hs, hp, ge_iff_le]
      rw [if_pos (by decide), if_neg (by decide), Option.some_bind, hs, e2,
        ckInt_of_bounds (by decide) (by decide), Option.some_bind]
      exact ih
  cases fuel with
  | zero => rfl
  | succ f =>
    simp only [lagLoop, e0, hs, hp, ge_iff_le]
    rw [if_pos (by decide), if_neg (by decide), Option.some_bind, hs, e2,
      ckInt_of_bounds (by decide) (by decide), Option.some_bind]
    exact hstuck f

/-- The paused loop from a lag that is a binary32 value with spacing below
it of less than twice the interval: every pass moves `lag` down, so the loop
ends, in the state it started in and with a lag below the interval. -/
theorem lagLoop_paused_rep (s : State) (hp : s.paused ≠ 0) (hT : 1 ≤ s.speed) :
    ∀ (n : Nat) (lag : Int), lag.toNat ≤ n → 0 ≤ lag → lag ≤ 2147483647 → roundF32 lag = lag →
      (quantum (lag - 1).toNat : Int) < 2 * s.speed →
      ∃ (m : Nat) (r : Int), (∀ fuel : Nat, m < fuel → lagLoop fuel lag s = some (r, s)) ∧
        0 ≤ r ∧ r < s.speed := by
  intro n
  induction n with
  | zero =>
    intro lag hn h0 h1 hrep hq
    have hlt : lag < s.speed := by omega
    refine ⟨0, lag, fun fuel hf => ?_, h0, hlt⟩
    obtain ⟨f, rfl⟩ : ∃ f, fuel = f + 1 := ⟨fuel - 1, by omega⟩
    simp only [lagLoop, hrep, ge_iff_le, if_neg (not_le.mpr hlt)]
  | succ n ih =>
    intro lag hn h0 h1 hrep hq
    by_cases hlt : lag < s.speed
    · refine ⟨0, lag, fun fuel hf => ?_, h0, hlt⟩
      obtain ⟨f, rfl⟩ : ∃ f, fuel = f + 1 := ⟨fuel - 1, by omega⟩
      simp only [lagLoop, hrep, ge_iff_le, if_neg (not_le.mpr hlt)]
    · have hge : s.speed ≤ lag := not_lt.mp hlt
      have hstep := roundF32_sub_lt lag s.speed (by omega) hT hge hq
      have hidem := roundF32_idem (lag - s.speed) (by omega) (by omega)
      have hmono := quantum_mono (roundF32 (lag - s.speed) - 1).toNat (lag - 1).toNat
        (by omega) (by omega)
      obtain ⟨m, r, hrun, hr0, hr1⟩ := ih (roundF32 (lag - s.speed)) (by omega) hstep.1
        (by omega) hidem (by omega)
      refine ⟨m + 1, r, fun fuel hf => ?_, hr0, hr1⟩
      obtain ⟨f, rfl⟩ : ∃ f, fuel = f + 1 := ⟨fuel - 1, by omega⟩
      simp only [lagLoop, hrep, ge_iff_le, if_pos hge, if_neg hp, Option.some_bind]
      rw [ckInt_of_bounds (by omega) (by omega), Option.some_bind]
      exact hrun f (by omega)

/-- The paused loop from any `int` lag whose `float` value has spacing below
it of less than twice the interval. -/
theorem lagLoop_paused_drains (s : State) (L : Int) (hp : s.paused ≠ 0) (hT1 : 1 ≤ s.speed)
    (hT2 : s.speed ≤ 16777216) (hL : 0 ≤ L) (hL2 : L ≤ 2147483647)
    (hq : spacingBelow L < 2 * s.speed) :
    ∃ (m : Nat) (r : Int), (∀ fuel : Nat, m < fuel → lagLoop fuel L s = some (r, s)) ∧
      0 ≤ r ∧ r < s.speed := by
  have hrep := roundF32_rep L hL (by omega)
  by_cases hlt : roundF32 L < s.speed
  · have hx : roundF32 L = L := hrep.2.2.2 (by omega)
    refine ⟨0, L, fun fuel hf => ?_, hL, by omega⟩
    obtain ⟨f, rfl⟩ : ∃ f, fuel = f + 1 := ⟨fuel - 1, by omega⟩
    simp only [lagLoop, ge_iff_le, if_neg (not_le.mpr hlt)]
  · have hge : s.speed ≤ roundF32 L := not_lt.mp hlt
    have hstep := roundF32_sub_lt (roundF32 L) s.speed hrep.2.1 hT1 hge hq
    have hidem := roundF32_idem (roundF32 L - s.speed) (by omega) (by omega)
    have hmono := quantum_mono (roundF32 (roundF32 L - s.speed) - 1).toNat
      (roundF32 L - 1).toNat (by omega) (by omega)
    have hq2 : (quantum (roundF32 L - 1).toNat : Int) < 2 * s.speed := hq
    obtain ⟨m, r, hrun, hr0, hr1⟩ := lagLoop_paused_rep s hp hT1
      (roundF32 (roundF32 L - s.speed)).toNat (roundF32 (roundF32 L - s.speed)) (le_refl _)
      hstep.1 (by omega) hidem (by omega)
    refine ⟨m + 1, r, fun fuel hf => ?_, hr0, hr1⟩
    obtain ⟨f, rfl⟩ : ∃ f, fuel = f + 1 := ⟨fuel - 1, by omega⟩
    simp only [lagLoop, ge_iff_le, if_pos hge, if_neg hp, Option.some_bind]
    rw [ckInt_of_bounds (by omega) (by omega), Option.some_bind]
    exact hrun f (by omega)

/-- C7 (amended): with `paused != 0`, for every board, every tick interval
`T` in `[10,1000]` and every `int` lag `L >= 0` whose `float` value has a
binary32 spacing below it of less than `2*T` (every `L <= 2^28 + 16`
whatever `T` is, and every `L` when `T > 64`), the lag-draining loop of
`main` finishes, with any number of loop tests above some bound, in exactly
the state it started in, so `gameBoard`, `tempBoard` and the count of
`tick()` calls are unchanged, and it leaves a lag in `[0, T)`. -/
theorem C7_paused_drain_keeps_state (s : State) (L : Int) (hp : s.paused ≠ 0)
    (hT1 : 10 ≤ s.speed) (hT2 : s.speed ≤ 1000) (hL : 0 ≤ L) (hL2 : L ≤ INT_MAX)
    (hq : L ≤ 268435472 ∨ 64 < s.speed ∨ spacingBelow L < 2 * s.speed) :
    ∃ (m : Nat) (lag : Int) (s' : State),
      (∀ fuel : Nat, m < fuel → lagLoop fuel L s = some (lag, s')) ∧
      s'.gameBoard = s.gameBoard ∧ s'.tempBoard = s.tempBoard ∧ s'.tickCalls = s.tickCalls ∧
      s' = s ∧ 0 ≤ lag ∧ lag < s.speed := by
  unfold INT_MAX at hL2
  have hq2 : spacingBelow L < 2 * s.speed := by
    rcases hq with h | h | h
    · have := spacingBelow_le_16 L hL h
      omega
    · have := spacingBelow_le_128 L hL hL2
      omega
    · exact h
  obtain ⟨m, r, hrun, hr0, hr1⟩ := lagLoop_paused_drains s L hp (by omega) (by omega) hL hL2 hq2
  exact ⟨m, r, s, hrun, rfl, rfl, rfl, rfl, hr0, hr1⟩

theorem C7_paused_drain_keeps_state_witness :
    ∃ (m : Nat) (lag : Int) (s' : State),
      (∀ fuel : Nat, m < fuel → lagLoop fuel 268435472 fastBlinkerState = some (lag, s')) ∧
      s'.gameBoard = fastBlinkerState.gameBoard ∧ s'.tempBoard = fastBlinkerState.tempBoard ∧
      s'.tickCalls = fastBlinkerState.tickCalls ∧
      s' = fastBlinkerState ∧ 0 ≤ lag ∧ lag < fastBlinkerState.speed :=
  C7_paused_drain_keeps_state fastBlinkerState 268435472 (by decide) (by decide) (by decide)
    (by decide) (by decide) (Or.inl (by decide))

/-! ## Input queries -/

theorem getInput_eq (s : State) (k : Int) (h : InputsOk s) (hk : 0 ≤ k) (hk2 : k < 7) :
    getInput s k = some (cur s k) := by
  unfold getInput NUM_INPUTS
  rw [if_neg (by omega), readArr_of_lt _ _ hk (by rw [h.1]; omega)]
  rfl

theorem getFirstInput_eq (s : State) (k : Int) (h : InputsOk s) (hk : 0 ≤ k) (hk2 : k < 7) :
    getFirstInput s k = some (if cur s k ≠ 0 ∧ prv s k = 0 then 1 else 0) := by
  unfold getFirstInput NUM_INPUTS
  rw [if_neg (by omega), readArr_of_lt _ _ hk (by rw [h.1]; omega), Option.some_bind]
  show (if cur s k ≠ 0 then _ else _) = _
  by_cases hc : cur s k ≠ 0
  · rw [if_pos hc, readArr_of_lt _ _ hk (by rw [h.2]; omega), Option.some_bind]
    show some (if prv s k = 0 then (1 : Int) else 0) = _
    by_cases hp : prv s k = 0
    · rw [if_pos hp, if_pos ⟨hc, hp⟩]
    · rw [if_neg hp, if_neg (fun hh => hp hh.2)]
  · rw [if_neg hc, if_neg (fun hh => hc hh.1)]

theorem getLastInput_eq (s : State) (k : Int) (h : InputsOk s) (hk : 0 ≤ k) (hk2 : k < 7) :
    getLastInput s k = some (if cur s k = 0 ∧ prv s k ≠ 0 then 1 else 0) := by
  unfold getLastInput NUM_INPUTS
  rw [if_neg (by omega), readArr_of_lt _ _ hk (by rw [h.1]; omega), Option.some_bind]
  show (if cur s k = 0 then _ else _) = _
  by_cases hc : cur s k = 0
  · rw [if_pos hc, readArr_of_lt _ _ hk (by rw [h.2]; omega), Option.some_bind]
    show some (if prv s k ≠ 0 then (1 : Int) else 0) = _
    by_cases hp : prv s k ≠ 0
    · rw [if_pos hp, if_pos ⟨hc, hp⟩]
    · rw [if_neg hp, if_neg (fun hh => hp hh.2)]
  · rw [if_neg hc, if_neg (fun hh => hc hh.1)]

/-! ## The statements of `processInputs` -/

theorem paintStep_eq (s : State) (hi : InputsOk s) (hc : Configured s) (hm : CursorInGrid s) :
    paintStep s = some (paintPure s) := by
  obtain ⟨hR, hC, hg, _⟩ := hc
  obtain ⟨m1, m2, m3, m4⟩ := hm
  rw [hC] at m2
  rw [hR] at m4
  have e1 : ckInt (s.MouseRect.y * s.ROWS) = some (s.MouseRect.y * s.ROWS) :=
    ckInt_of_bounds (by rw [hR]; omega) (by rw [hR]; omega)
  have e2 : ckInt (s.MouseRect.x + s.MouseRect.y * s.ROWS)
      = some (s.MouseRect.x + s.MouseRect.y * s.ROWS) :=
    ckInt_of_bounds (by rw [hR]; omega) (by rw [hR]; omega)
  have e3 : writeArr s.gameBoard (s.MouseRect.x + s.MouseRect.y * s.ROWS) (cur s L_CLICK)
      = some (s.gameBoard.set (s.MouseRect.x + s.MouseRect.y * s.ROWS).toNat (cur s L_CLICK)) :=
    writeArr_of_lt _ _ _ (by rw [hR]; omega) (by rw [hR]; omega)
  unfold paintStep paintPure paintBoard cursorIdx
  rw [getInput_eq s L_CLICK hi (by decide) (by decide),
    getInput_eq s R_CLICK hi (by decide) (by decide), Option.some_bind]
  by_cases hl : cur s L_CLICK ≠ 0
  · rw [if_pos hl, Option.some_bind, if_pos (by decide), Option.some_bind, e1, Option.some_bind,
      e2, Option.some_bind, e3, Option.some_bind, if_pos (Or.inl hl)]
  · rw [if_neg hl, Option.some_bind, Option.some_bind]
    by_cases hr : cur s R_CLICK ≠ 0
    · rw [if_pos hr, if_pos (by decide), Option.some_bind, e1, Option.some_bind,
        e2, Option.some_bind, e3, Option.some_bind, if_pos (Or.inr hr)]
    · rw [if_neg hr, if_neg (by decide), if_neg (fun h => h.elim hl hr)]

theorem pauseStep_eq (s : State) (hi : InputsOk s) : pauseStep s = some (pausePure s) := by
  unfold pauseStep pausePure pauseVal
  rw [getFirstInput_eq s SPACE hi (by decide) (by decide), Option.some_bind]
  by_cases h : cur s SPACE ≠ 0 ∧ prv s SPACE = 0
  · rw [if_pos h, if_pos (by decide), if_pos h]
  · rw [if_neg h, if_neg (by decide), if_neg h]

theorem speedUpStep_eq (s : State) (hi : InputsOk s) : speedUpStep s = some (speedUpPure s) := by
  unfold speedUpStep speedUpPure speedUpVal
  rw [getInput_eq s UP_ARROW hi (by decide) (by decide), Option.some_bind]
  by_cases h : cur s UP_ARROW ≠ 0
  · simp only [if_pos h]
  · simp only [if_neg h]

theorem speedDownStep_eq (s : State) (hi : InputsOk s) :
    speedDownStep s = some (speedDownPure s) := by
  unfold speedDownStep speedDownPure speedDownVal
  rw [getInput_eq s DOWN_ARROW hi (by decide) (by decide), Option.some_bind]
  by_cases h : cur s DOWN_ARROW ≠ 0
  · simp only [if_pos h]
  · simp only [if_neg h]

theorem paintBoard_length (s : State) : (paintBoard s).length = s.gameBoard.length := by
  unfold paintBoard
  split
  · rw [List.length_set]
  · rfl

theorem beforeClear_configured (s : State) (hc : Configured s) : Configured (beforeClear s) :=
  ⟨hc.1, hc.2.1, (paintBoard_length s).trans hc.2.2.1, hc.2.2.2⟩

theorem beforeClear_eq (s : State) :
    speedDownPure (speedUpPure (pausePure (paintPure s))) = beforeClear s := by
  simp only [speedDownPure, speedUpPure, pausePure, paintPure, beforeClear, speedVal,
    speedDownVal, speedUpVal, pauseVal, cur, prv]

/-- Function `processInputs` up to the clear-board statement. -/
theorem processInputs_eq (s : State) (hi : InputsOk s) (hc : Configured s) (hm : CursorInGrid s) :
    processInputs s = (clearStep (beforeClear s)).bind fun s5 => (singleStep s5).bind draw := by
  unfold processInputs
  rw [paintStep_eq s hi hc hm, Option.some_bind, pauseStep_eq (paintPure s) hi,
    Option.some_bind, speedUpStep_eq (pausePure (paintPure s)) hi, Option.some_bind,
    speedDownStep_eq (speedUpPure (pausePure (paintPure s))) hi, Option.some_bind,
    beforeClear_eq]

theorem clearLoop_ok (s : State) (hc : Configured s) :
    forLt 0 6400 (fun i s1 =>
      (writeArr s1.gameBoard i 0).bind fun gb =>
      (writeArr s1.tempBoard i 0).bind fun tb =>
        some { s1 with gameBoard := gb, tempBoard := tb }) s
      = some { s with gameBoard := zeroBoard, tempBoard := zeroBoard } := by
  obtain ⟨_, _, hg, ht⟩ := hc
  unfold forLt
  have hn : ((6400 : Int) - 0).toNat = 6400 := by decide
  rw [hn]
  obtain ⟨t, ht1, g, tb, rfl, hlg, hlt, hk⟩ := forLoopFrom_inv
    (fun (i : Int) (s1 : State) =>
      (writeArr s1.gameBoard i 0).bind fun gb =>
      (writeArr s1.tempBoard i 0).bind fun tb =>
        some { s1 with gameBoard := gb, tempBoard := tb })
    (ClearInv s) 6400 0 s ⟨s.gameBoard, s.tempBoard, rfl, hg, ht, by intro k hk; omega⟩
    (by
      rintro i t h0 h1 ⟨g, tb, rfl, hlg, hlt, hk⟩
      refine ⟨{ s with gameBoard := g.set i.toNat 0, tempBoard := tb.set i.toNat 0 }, ?_,
        _, _, rfl, by simpa using hlg, by simpa using hlt, ?_⟩
      · show (writeArr g i 0).bind _ = _
        rw [writeArr_of_lt _ _ _ h0 (by omega), Option.some_bind]
        show (writeArr tb i 0).bind _ = _
        rw [writeArr_of_lt _ _ _ h0 (by omega), Option.some_bind]
      · intro k hk1
        rw [List.getElem?_set, List.getElem?_set]
        by_cases e : i.toNat = k
        · rw [if_pos e, if_pos (by omega), if_pos e, if_pos (by omega)]
          exact ⟨rfl, rfl⟩
        · rw [if_neg e, if_neg e]
          exact hk k (by omega))
  rw [ht1]
  have eg : g = zeroBoard := by
    rw [zeroBoard_eq]
    apply List.ext_getElem?
    intro k
    rw [List.getElem?_replicate]
    by_cases hk6 : k < 6400
    · rw [if_pos hk6]
      exact (hk k (by omega)).1
    · rw [if_neg hk6, List.getElem?_eq_none (by omega)]
  have et : tb = zeroBoard := by
    rw [zeroBoard_eq]
    apply List.ext_getElem?
    intro k
    rw [List.getElem?_replicate]
    by_cases hk6 : k < 6400
    · rw [if_pos hk6]
      exact (hk k (by omega)).2
    · rw [if_neg hk6, List.getElem?_eq_none (by omega)]
  rw [eg, et]

theorem clearStep_edge (s : State) (hi : InputsOk s) (hc : Configured s)
    (he : cur s ENTER ≠ 0 ∧ prv s ENTER = 0) : clearStep s = some (clearedState s) := by
  have hn : ckInt (s.ROWS * s.COLS) = some 6400 := by
    rw [hc.1, hc.2.1]
    exact ckInt_of_bounds (by decide) (by decide)
  unfold clearStep
  rw [getFirstInput_eq s ENTER hi (by decide) (by decide), Option.some_bind, if_pos he,
    if_pos (by decide), hn, Option.some_bind, clearLoop_ok s hc, Option.some_bind]
  rfl

theorem clearStep_idle (s : State) (hi : InputsOk s)
    (he : ¬ (cur s ENTER ≠ 0 ∧ prv s ENTER = 0)) : clearStep s = some s := by
  unfold clearStep
  rw [getFirstInput_eq s ENTER hi (by decide) (by decide), Option.some_bind, if_neg he,
    if_neg (by decide)]

theorem singleStep_idle (s : State) (hi : InputsOk s)
    (he : ¬ ((cur s S ≠ 0 ∧ prv s S = 0) ∧ s.paused ≠ 0)) : singleStep s = some s := by
  unfold singleStep
  rw [getFirstInput_eq s S hi (by decide) (by decide), Option.some_bind]
  by_cases h : cur s S ≠ 0 ∧ prv s S = 0
  · rw [if_pos h, if_neg (fun hh => he ⟨h, hh.2⟩)]
  · rw [if_neg h, if_neg (fun hh => hh.1 rfl)]

theorem singleStep_tick (s : State) (hi : InputsOk s)
    (he : cur s S ≠ 0 ∧ prv s S = 0) (hp : s.paused ≠ 0) : singleStep s = tick s := by
  unfold singleStep
  rw [getFirstInput_eq s S hi (by decide) (by decide), Option.some_bind, if_pos he,
    if_pos ⟨by decide, hp⟩]

/-- Function `draw` reads every cell of the configured board and changes nothing. -/
theorem draw_ok (s : State) (hc : Configured s) : draw s = some s := by
  obtain ⟨hR, hC, hg, _⟩ := hc
  unfold draw forLt
  have hn : (s.COLS - 0).toNat = 80 := by rw [hC]; decide
  rw [hn]
  obtain ⟨t, ht1, rfl⟩ := forLoopFrom_inv
    (fun (i : Int) (s1 : State) => forLoopFrom (fun j s2 =>
      (getArrValue s2.gameBoard i j s2.COLS s2.ROWS).bind fun _ => some s2) (s1.ROWS - 0).toNat 0 s1)
    (fun _ t => t = s) 80 0 s rfl
    (by
      rintro i t h0 h1 rfl
      have hn2 : (t.ROWS - 0).toNat = 80 := by rw [hR]; decide
      beta_reduce
      rw [hn2]
      obtain ⟨u, hu1, rfl⟩ := forLoopFrom_inv
        (fun (j : Int) (s2 : State) =>
          (getArrValue s2.gameBoard i j s2.COLS s2.ROWS).bind fun _ => some s2)
        (fun _ u => u = t) 80 0 t rfl
        (by
          rintro j u hj0 hj1 rfl
          refine ⟨u, ?_, rfl⟩
          beta_reduce
          rw [hR, hC, getArrValue_80 u.gameBoard i j hg (by omega) (by omega) (by omega)
            (by omega), Option.some_bind])
      exact ⟨u, hu1, rfl⟩)
  exact ht1

theorem zeros_eq_boardOf : List.replicate 6400 (0 : Int) = boardOf fun _ _ => false := by
  apply List.ext_getElem
  · rw [List.length_replicate, boardOf_length]
  · intro k h1 h2
    have hk : k < 6400 := by rw [List.length_replicate] at h1; exact h1
    rw [List.getElem_replicate, ← List.getD_eq_getElem _ 0 h2, boardOf_getD _ _ hk]
    rfl

/-- An all-dead board stays all dead. -/
theorem tickBoard_zeros : tickBoard (List.replicate 6400 0) = List.replicate 6400 0 := by
  rw [zeros_eq_boardOf, tickBoard_boardOf]
  apply boardOf_congr
  intro x y _ _ _ _
  unfold lifeRule nbrCount
  rw [List.countP_eq_zero.mpr (by intro d _ h; exact Bool.noConfusion h)]
  rfl

/-- Without a rising edge of ENTER or S, `processInputs` is its first four
statements. -/
theorem processInputs_quiet (s : State) (hi : InputsOk s) (hc : Configured s)
    (hm : CursorInGrid s) (hE : ¬ (cur s ENTER ≠ 0 ∧ prv s ENTER = 0))
    (hS : ¬ (cur s S ≠ 0 ∧ prv s S = 0)) : processInputs s = some (beforeClear s) := by
  rw [processInputs_eq s hi hc hm, clearStep_idle (beforeClear s) hi hE, Option.some_bind,
    singleStep_idle (beforeClear s) hi (fun h => hS h.1), Option.some_bind,
    draw_ok _ (beforeClear_configured s hc)]

/-! ## Claims C9 and C10 -/

/-- C9: in a state of the configured program whose cursor cell is inside the
grid and in which neither ENTER nor S has a rising edge, `processInputs()` is
defined, leaves `tempBoard` unchanged, and changes `gameBoard` at most at the
cursor index `MouseRect.x + MouseRect.y * ROWS`: that cell becomes 1 when
L_CLICK is held (`currInputs[L_CLICK] == 1`, whatever R_CLICK is), 0 when
L_CLICK is not held and R_CLICK is, and nothing changes when neither is held.
No assumption is made on `prevInputs[L_CLICK]` or `prevInputs[R_CLICK]`. -/
theorem C9_painting_touches_only_cursor_cell (s : State) (hi : InputsOk s) (hc : Configured s)
    (hm : CursorInGrid s) (hE : ¬ (cur s ENTER ≠ 0 ∧ prv s ENTER = 0))
    (hS : ¬ (cur s S ≠ 0 ∧ prv s S = 0)) :
    ∃ t, processInputs s = some t ∧ t.tempBoard = s.tempBoard ∧
      (cur s L_CLICK = 1 → t.gameBoard = s.gameBoard.set (cursorIdx s) 1) ∧
      (cur s L_CLICK = 0 → cur s R_CLICK ≠ 0 → t.gameBoard = s.gameBoard.set (cursorIdx s) 0) ∧
      (cur s L_CLICK = 0 → cur s R_CLICK = 0 → t.gameBoard = s.gameBoard) := by
  have hrun := processInputs_quiet s hi hc hm hE hS
  have hg : (beforeClear s).gameBoard = paintBoard s := rfl
  refine ⟨beforeClear s, hrun, rfl, fun hl => ?_, fun hl hr => ?_, fun hl hr => ?_⟩
  · rw [hg, paintBoard, if_pos (Or.inl (by rw [hl]; decide)), hl]
  · rw [hg, paintBoard, if_pos (Or.inr hr), hl]
  · rw [hg, paintBoard, if_neg (by rw [hl, hr]; decide)]

theorem C9_painting_touches_only_cursor_cell_witness :
    ∃ t, processInputs paintState = some t ∧ t.tempBoard = paintState.tempBoard ∧
      (cur paintState L_CLICK = 1 →
        t.gameBoard = paintState.gameBoard.set (cursorIdx paintState) 1) ∧
      (cur paintState L_CLICK = 0 → cur paintState R_CLICK ≠ 0 →
        t.gameBoard = paintState.gameBoard.set (cursorIdx paintState) 0) ∧
      (cur paintState L_CLICK = 0 → cur paintState R_CLICK = 0 →
        t.gameBoard = paintState.gameBoard) :=
  C9_painting_touches_only_cursor_cell paintState ⟨rfl, rfl⟩
    ⟨rfl, rfl, zeroBoard_length, zeroBoard_length⟩
    ⟨by decide, by decide, by decide, by decide⟩ (by decide) (by decide)

/-- C10: in a state of the configured program in which ENTER has a rising
edge and the cursor cell is inside the grid, `processInputs()` is defined and
afterwards every cell of `gameBoard` and of `tempBoard` is 0 and
`paused == 1`, whatever the other inputs, the board and `paused` were. -/
theorem C10_enter_clears_and_pauses (s : State) (hi : InputsOk s) (hc : Configured s)
    (hm : CursorInGrid s) (hE : cur s ENTER ≠ 0 ∧ prv s ENTER = 0) :
    ∃ t, processInputs s = some t ∧ t.gameBoard = List.replicate 6400 0 ∧
      t.tempBoard = List.replicate 6400 0 ∧ t.paused = 1 ∧
      (∀ v ∈ t.gameBoard, v = 0) ∧ (∀ v ∈ t.tempBoard, v = 0) := by
  have hc5 : Configured (clearedState (beforeClear s)) :=
    ⟨hc.1, hc.2.1, zeroBoard_length, zeroBoard_length⟩
  have hp5 : (clearedState (beforeClear s)).paused = 1 := rfl
  have hg5 : (clearedState (beforeClear s)).gameBoard = List.replicate 6400 0 := zeroBoard_eq
  have ht5 : (clearedState (beforeClear s)).tempBoard = List.replicate 6400 0 := zeroBoard_eq
  have hstart : processInputs s
      = (singleStep (clearedState (beforeClear s))).bind draw := by
    rw [processInputs_eq s hi hc hm,
      clearStep_edge (beforeClear s) hi (beforeClear_configured s hc) hE, Option.some_bind]
  have hmain : ∃ t, processInputs s = some t ∧ t.gameBoard = List.replicate 6400 0 ∧
      t.tempBoard = List.replicate 6400 0 ∧ t.paused = 1 := by
    by_cases hS : cur s S ≠ 0 ∧ prv s S = 0
    · obtain ⟨t, ht, hg, htb, _, hct⟩ := tick_spec (clearedState (beforeClear s)) hc5
      have hp : t.paused = 1 :=
        (controls_paused _ _ (tick_controls _ _ ht)).trans hp5
      refine ⟨t, ?_, ?_, htb.trans hg5, hp⟩
      · rw [hstart, singleStep_tick (clearedState (beforeClear s)) hi hS
          (by rw [hp5]; decide), ht, Option.some_bind, draw_ok t hct]
      · rw [hg, hg5]
        exact tickBoard_zeros
    · refine ⟨clearedState (beforeClear s), ?_, hg5, ht5, hp5⟩
      rw [hstart, singleStep_idle (clearedState (beforeClear s)) hi (fun h => hS h.1),
        Option.some_bind, draw_ok _ hc5]
  obtain ⟨t, ht, hg, htb, hp⟩ := hmain
  refine ⟨t, ht, hg, htb, hp, fun v hv => ?_, fun v hv => ?_⟩
  · rw [hg] at hv
    exact List.eq_of_mem_replicate hv
  · rw [htb] at hv
    exact List.eq_of_mem_replicate hv

theorem C10_enter_clears_and_pauses_witness :
    ∃ t, processInputs enterState = some t ∧ t.gameBoard = List.replicate 6400 0 ∧
      t.tempBoard = List.replicate 6400 0 ∧ t.paused = 1 ∧
      (∀ v ∈ t.gameBoard, v = 0) ∧ (∀ v ∈ t.tempBoard, v = 0) :=
  C10_enter_clears_and_pauses enterState ⟨rfl, rfl⟩
    ⟨rfl, rfl, boardOf_length _, zeroBoard_length⟩
    ⟨by decide, by decide, by decide, by decide⟩ (by decide)

/-! ## The input arrays across a frame -/

theorem paintStep_inputs (s t : State) (h : paintStep s = some t) : inputsOf t = inputsOf s := by
  unfold paintStep at h
  simp only [Option.bind_eq_some] at h
  obtain ⟨_, _, held, _, h⟩ := h
  split at h
  · simp only [Option.bind_eq_some] at h
    obtain ⟨_, _, _, _, _, _, gb, _, h⟩ := h
    rw [Option.some.injEq] at h
    rw [← h]
    rfl
  · rw [Option.some.injEq] at h
    rw [h]

theorem pauseStep_inputs (s t : State) (h : pauseStep s = some t) : inputsOf t = inputsOf s := by
  unfold pauseStep at h
  simp only [Option.bind_eq_some] at h
  obtain ⟨_, _, h⟩ := h
  split at h
  · rw [Option.some.injEq] at h
    rw [← h]
    rfl
  · rw [Option.some.injEq] at h
    rw [h]

theorem speedUpStep_inputs (s t : State) (h : speedUpStep s = some t) :
    inputsOf t = inputsOf s := by
  unfold speedUpStep at h
  simp only [Option.bind_eq_some] at h
  obtain ⟨_, _, h⟩ := h
  split at h
  · rw [Option.some.injEq] at h
    rw [← h]
    rfl
  · rw [Option.some.injEq] at h
    rw [h]

theorem speedDownStep_inputs (s t : State) (h : speedDownStep s = some t) :
    inputsOf t = inputsOf s := by
  unfold speedDownStep at h
  simp only [Option.bind_eq_some] at h
  obtain ⟨_, _, h⟩ := h
  split at h
  · rw [Option.some.injEq] at h
    rw [← h]
    rfl
  · rw [Option.some.injEq] at h
    rw [h]

theorem clearStep_inputs (s t : State) (h : clearStep s = some t) : inputsOf t = inputsOf s := by
  unfold clearStep at h
  simp only [Option.bind_eq_some] at h
  obtain ⟨_, _, h⟩ := h
  split at h
  · simp only [Option.bind_eq_some] at h
    obtain ⟨n, _, s2, hloop, h⟩ := h
    rw [Option.some.injEq] at h
    have h2 : inputsOf s2 = inputsOf s := by
      refine forLoopFrom_rel _ (fun a b => inputsOf b = inputsOf a) (fun _ => rfl)
        (fun a b c h1 h2 => h2.trans h1) ?_ _ _ _ _ hloop
      intro i a b hb
      simp only [Option.bind_eq_some] at hb
      obtain ⟨_, _, _, _, hb⟩ := hb
      rw [Option.some.injEq] at hb
      rw [← hb]
      rfl
    rw [← h, ← h2]
    rfl
  · rw [Option.some.injEq] at h
    rw [h]

theorem tick_inputs (s t : State) (h : tick s = some t) : inputsOf t = inputsOf s := by
  have := congrArg inputsOf (tick_controls s t h)
  exact this

theorem singleStep_inputs (s t : State) (h : singleStep s = some t) :
    inputsOf t = inputsOf s := by
  unfold singleStep at h
  simp only [Option.bind_eq_some] at h
  obtain ⟨_, _, h⟩ := h
  split at h
  · exact tick_inputs _ _ h
  · rw [Option.some.injEq] at h
    rw [h]

theorem draw_same (s t : State) (h : draw s = some t) : t = s := by
  unfold draw at h
  refine forLoopFrom_rel _ (fun a b => b = a) (fun _ => rfl)
    (fun a b c h1 h2 => h2.trans h1) ?_ _ _ _ _ h
  intro i a b hb
  refine forLoopFrom_rel _ (fun a b => b = a) (fun _ => rfl)
    (fun a b c h1 h2 => h2.trans h1) ?_ _ _ _ _ hb
  intro j a b hb
  simp only [Option.bind_eq_some] at hb
  obtain ⟨_, _, hb⟩ := hb
  rw [Option.some.injEq] at hb
  exact hb.symm

/-- Function `processInputs` writes neither input array. -/
theorem processInputs_inputs (s t : State) (h : processInputs s = some t) :
    inputsOf t = inputsOf s := by
  unfold processInputs at h
  simp only [Option.bind_eq_some] at h
  obtain ⟨s1, h1, s2, h2, s3, h3, s4, h4, s5, h5, s6, h6, h7⟩ := h
  rw [draw_same _ _ h7, singleStep_inputs _ _ h6, clearStep_inputs _ _ h5,
    speedDownStep_inputs _ _ h4, speedUpStep_inputs _ _ h3, pauseStep_inputs _ _ h2,
    paintStep_inputs _ _ h1]

theorem lagLoop_inputs : ∀ (fuel : Nat) (lag : Int) (s : State) (r : Int × State),
    lagLoop fuel lag s = some r → inputsOf r.2 = inputsOf s := by
  intro fuel
  induction fuel with
  | zero =>
    intro lag s r h
    exact Option.noConfusion h
  | succ f ih =>
    intro lag s r h
    simp only [lagLoop] at h
    split at h
    · simp only [Option.bind_eq_some] at h
      obtain ⟨s1, h1, lag1, _, h2⟩ := h
      have e1 : inputsOf s1 = inputsOf s := by
        split at h1
        · exact tick_inputs _ _ h1
        · rw [Option.some.injEq] at h1
          rw [h1]
      rw [ih _ _ _ h2, e1]
    · rw [Option.some.injEq] at h
      rw [← h]

theorem copyInputs_eq (s : State) (hi : InputsOk s) :
    copyInputs s = some { s with prevInputs := s.currInputs } := by
  unfold copyInputs
  rw [if_pos ⟨by rw [hi.1], by rw [hi.2]⟩,
    List.take_of_length_le (by rw [hi.1]), List.drop_eq_nil_of_le (by rw [hi.2]),
    List.append_nil]

/-- After the second half of a frame both input arrays hold what
`currInputs` held when `processInputs` was called. -/
theorem frameTail_inputs (fuel : Nat) (ct : Int) (v : MainVars) (s : State)
    (r : MainVars × State) (hi : InputsOk s) (h : frameTail fuel ct v s = some r) :
    r.2.currInputs = s.currInputs ∧ r.2.prevInputs = s.currInputs := by
  unfold frameTail at h
  simp only [Option.bind_eq_some] at h
  obtain ⟨s1, h1, s2, h2, r1, h3, s3, h4, h5⟩ := h
  have e1 := processInputs_inputs _ _ h1
  have hi1 : InputsOk s1 := by
    have a := congrArg Prod.fst e1
    have b := congrArg Prod.snd e1
    simp only [inputsOf] at a b
    exact ⟨by rw [a]; exact hi.1, by rw [b]; exact hi.2⟩
  rw [copyInputs_eq s1 hi1, Option.some.injEq] at h2
  have e3 := lagLoop_inputs _ _ _ _ h3
  have e4 := draw_same _ _ h4
  rw [Option.some.injEq] at h5
  have a1 := congrArg Prod.fst e1
  have a3 := congrArg Prod.fst e3
  have b3 := congrArg Prod.snd e3
  simp only [inputsOf] at a1 a3 b3
  rw [← h5]
  simp only
  rw [e4, a3, b3, ← h2]
  exact ⟨a1, a1⟩

theorem setInput_prev (s t : State) (key v : Int) (h : setInput s key v = some t) :
    t.prevInputs = s.prevInputs ∧ t.currInputs.length = s.currInputs.length := by
  unfold setInput at h
  simp only [Option.bind_eq_some] at h
  obtain ⟨ci, hw, h⟩ := h
  rw [Option.some.injEq] at h
  unfold writeArr at hw
  split at hw
  · rw [Option.some.injEq] at hw
    rw [← h, ← hw]
    exact ⟨rfl, List.length_set _ _ _⟩
  · exact Option.noConfusion hw

theorem updateMouseRect_prev (s t : State) (x y : Int) (h : updateMouseRect s x y = some t) :
    t.prevInputs = s.prevInputs ∧ t.currInputs.length = s.currInputs.length := by
  unfold updateMouseRect at h
  split at h
  · rw [Option.some.injEq] at h
    rw [h]
    exact ⟨rfl, rfl⟩
  · simp only [Option.bind_eq_some] at h
    obtain ⟨_, _, _, _, h⟩ := h
    rw [Option.some.injEq] at h
    rw [← h]
    exact ⟨rfl, rfl⟩

/-- Function `updateInputs` never writes `prevInputs` and keeps the size of
`currInputs`. -/
theorem updateInputs_prev (e : Event) (s t : State) (h : updateInputs e s = some t) :
    t.prevInputs = s.prevInputs ∧ t.currInputs.length = s.currInputs.length := by
  cases e with
  | mouseButton b p =>
    simp only [updateInputs, Option.bind_eq_some] at h
    obtain ⟨s1, h1, h2⟩ := h
    have e1 : s1.prevInputs = s.prevInputs ∧ s1.currInputs.length = s.currInputs.length := by
      split at h1
      · exact setInput_prev _ _ _ _ h1
      · rw [Option.some.injEq] at h1
        rw [h1]
        exact ⟨rfl, rfl⟩
    have e2 : t.prevInputs = s1.prevInputs ∧ t.currInputs.length = s1.currInputs.length := by
      split at h2
      · exact setInput_prev _ _ _ _ h2
      · rw [Option.some.injEq] at h2
        rw [h2]
        exact ⟨rfl, rfl⟩
    exact ⟨e2.1.trans e1.1, e2.2.trans e1.2⟩
  | mouseMotion x y =>
    simp only [updateInputs] at h
    have e := updateMouseRect_prev _ _ _ _ h
    exact e
  | key sym p =>
    cases sym <;> simp only [updateInputs] at h
    · exact setInput_prev _ _ _ _ h
    · exact setInput_prev _ _ _ _ h
    · exact setInput_prev _ _ _ _ h
    · exact setInput_prev _ _ _ _ h
    · exact setInput_prev _ _ _ _ h
    · exact setInput_prev _ _ _ _ h
    · rw [Option.some.injEq] at h
      rw [h]
      exact ⟨rfl, rfl⟩
  | quit =>
    simp only [updateInputs, Option.some.injEq] at h
    rw [← h]
    exact ⟨rfl, rfl⟩
  | other =>
    simp only [updateInputs, Option.some.injEq] at h
    rw [h]
    exact ⟨rfl, rfl⟩

theorem pollEvents_prev : ∀ (evs : List Event) (s t : State), pollEvents evs s = some t →
    t.prevInputs = s.prevInputs ∧ t.currInputs.length = s.currInputs.length := by
  intro evs
  induction evs with
  | nil =>
    intro s t h
    simp only [pollEvents, Option.some.injEq] at h
    rw [h]
    exact ⟨rfl, rfl⟩
  | cons e es ih =>
    intro s t h
    simp only [pollEvents] at h
    split at h
    · rw [Option.some.injEq] at h
      rw [← h]
      exact ⟨rfl, rfl⟩
    · simp only [Option.bind_eq_some] at h
      obtain ⟨s1, h1, h2⟩ := h
      have e1 := updateInputs_prev _ _ _ h1
      have e2 := ih _ _ h2
      exact ⟨e2.1.trans e1.1, e2.2.trans e1.2⟩

theorem frameHead_prev (ct : Int) (evs : List Event) (v : MainVars) (s : State)
    (r : MainVars × State) (h : frameHead ct evs v s = some r) :
    r.2.prevInputs = s.prevInputs ∧ r.2.currInputs.length = s.currInputs.length := by
  unfold frameHead at h
  simp only [Option.bind_eq_some] at h
  obtain ⟨_, _, _, _, s1, h1, h2⟩ := h
  rw [Option.some.injEq] at h2
  rw [← h2]
  exact pollEvents_prev _ _ _ h1

/-- Along a run of the main loop, every state in which `processInputs` is
called has well-sized input arrays, and its `prevInputs` is the `currInputs`
of the frame before. -/
theorem framesFrom_trace (fuel : Nat) :
    ∀ (fs : List (Int × List Event)) (v : MainVars) (s : State) (tr : List State),
      InputsOk s → framesFrom fuel fs v s = some tr →
        (∀ b, tr[0]? = some b → b.prevInputs = s.prevInputs) ∧
        (∀ (i : Nat) a, tr[i]? = some a → InputsOk a) ∧
        (∀ (i : Nat) a b, tr[i]? = some a → tr[i + 1]? = some b →
          b.prevInputs = a.currInputs) := by
  intro fs
  induction fs with
  | nil =>
    intro v s tr hi h
    simp only [framesFrom, Option.some.injEq] at h
    subst h
    simp
  | cons f fs ih =>
    intro v s tr hi h
    simp only [framesFrom] at h
    split at h
    · rw [Option.some.injEq] at h
      subst h
      simp
    simp only [Option.bind_eq_some] at h
    obtain ⟨r, hr, r1, hr1, tr', htr', h⟩ := h
    rw [Option.some.injEq] at h
    subst h
    have e1 := frameHead_prev _ _ _ _ _ hr
    have hir : InputsOk r.2 := ⟨e1.2.trans hi.1, by rw [e1.1]; exact hi.2⟩
    have e2 := frameTail_inputs _ _ _ _ _ hir hr1
    have hir1 : InputsOk r1.2 := ⟨by rw [e2.1]; exact hir.1, by rw [e2.2]; exact hir.1⟩
    obtain ⟨ih1, ih2, ih3⟩ := ih _ _ _ hir1 htr'
    refine ⟨?_, ?_, ?_⟩
    · intro b hb
      simp only [List.getElem?_cons_zero, Option.some.injEq] at hb
      rw [← hb]
      exact e1.1
    · intro i a ha
      cases i with
      | zero =>
        simp only [List.getElem?_cons_zero, Option.some.injEq] at ha
        rw [← ha]
        exact hir
      | succ i =>
        rw [List.getElem?_cons_succ] at ha
        exact ih2 i a ha
    · intro i a b ha hb
      rw [List.getElem?_cons_succ] at hb
      cases i with
      | zero =>
        simp only [List.getElem?_cons_zero, Option.some.injEq] at ha
        rw [← ha, ih1 b hb]
        exact e2.2
      | succ i =>
        rw [List.getElem?_cons_succ] at ha
        exact ih3 i a b ha hb

theorem prv_eq_cur (a b : State) (k : Int) (h : b.prevInputs = a.currInputs) :
    prv b k = cur a k := by
  unfold prv cur
  rw [h]

/-- With less lag than one tick interval the loop body is not entered. -/
theorem lagLoop_idle (fuel : Nat) (lag : Int) (s : State) (h : roundF32 lag < s.speed) :
    lagLoop (fuel + 1) lag s = some (lag, s) := by
  simp only [lagLoop, ge_iff_le]
  rw [if_neg (not_le.mpr h)]

/-- A frame without a rising edge of ENTER or S and with less lag than one
tick interval: the second half of the iteration is the first four statements
of `processInputs` and the copy of the input array. -/
theorem frameTail_quiet (fuel : Nat) (ct : Int) (v : MainVars) (s : State) (hi : InputsOk s)
    (hc : Configured s) (hm : CursorInGrid s) (hE : ¬ (cur s ENTER ≠ 0 ∧ prv s ENTER = 0))
    (hS : ¬ (cur s S ≠ 0 ∧ prv s S = 0)) (hlag : roundF32 v.lag < speedVal s) :
    frameTail (fuel + 1) ct v s = some (⟨ct, v.lag⟩, frameEnd s) := by
  have hc2 : Configured (frameEnd s) := beforeClear_configured s hc
  have hcp : copyInputs (beforeClear s) = some (frameEnd s) := copyInputs_eq (beforeClear s) hi
  have hl : roundF32 v.lag < (frameEnd s).speed := hlag
  unfold frameTail
  rw [processInputs_quiet s hi hc hm hE hS, Option.some_bind, hcp, Option.some_bind,
    lagLoop_idle fuel v.lag (frameEnd s) hl, Option.some_bind, draw_ok _ hc2, Option.some_bind]

/-- The four quiet frames run from the initial state through `quietTrace`. -/
theorem quietRun : framesFrom 1 quietFrames ⟨0, 0⟩ initState = some quietTrace := by
  have h0 : frameHead 0 [] ⟨0, 0⟩ initState = some (⟨0, 0⟩, initState) := rfl
  have t0 : frameTail 1 0 ⟨0, 0⟩ initState = some (⟨0, 0⟩, initState) :=
    frameTail_quiet 0 0 ⟨0, 0⟩ initState ⟨rfl, rfl⟩ initState_configured
      ⟨by decide, by decide, by decide, by decide⟩ (by decide) (by decide) (by decide)
  have h1 : frameHead 0 [Event.key Keysym.space true] ⟨0, 0⟩ initState
      = some (⟨0, 0⟩, spaceDown) := rfl
  have t1 : frameTail 1 0 ⟨0, 0⟩ spaceDown = some (⟨0, 0⟩, spaceHeld) :=
    frameTail_quiet 0 0 ⟨0, 0⟩ spaceDown ⟨rfl, rfl⟩
      ⟨rfl, rfl, zeroBoard_length, zeroBoard_length⟩
      ⟨by decide, by decide, by decide, by decide⟩ (by decide) (by decide) (by decide)
  have h2 : frameHead 0 [] ⟨0, 0⟩ spaceHeld = some (⟨0, 0⟩, spaceHeld) := rfl
  have t2 : frameTail 1 0 ⟨0, 0⟩ spaceHeld = some (⟨0, 0⟩, spaceHeld) :=
    frameTail_quiet 0 0 ⟨0, 0⟩ spaceHeld ⟨rfl, rfl⟩
      ⟨rfl, rfl, zeroBoard_length, zeroBoard_length⟩
      ⟨by decide, by decide, by decide, by decide⟩ (by decide) (by decide) (by decide)
  have g0 : ¬ initState.going = 0 := by decide
  have g1 : ¬ spaceHeld.going = 0 := by decide
  unfold quietFrames quietTrace
  rw [framesFrom, if_neg g0, h0, Option.some_bind, t0, Option.some_bind,
    framesFrom, if_neg g0, h1, Option.some_bind, t1, Option.some_bind,
    framesFrom, if_neg g1, h2, Option.some_bind, t2, Option.some_bind,
    framesFrom, if_neg g1, h2, Option.some_bind, t2, Option.some_bind, framesFrom]
  rfl
/-! ## Claim C8 -/

/-- C8: for an input key `k` with `0 <= k < NUM_INPUTS`, `getInput(k)` is
`currInputs[k]`, `getFirstInput(k)` is 1 exactly when `currInputs[k]` is
non-zero and `prevInputs[k]` is zero, `getLastInput(k)` is 1 exactly when
`currInputs[k]` is zero and `prevInputs[k]` is non-zero.  Along any run of
the main loop (`tr` lists the states in which `processInputs` is called,
frame by frame): an input not held in frame `n` and held in frames
`n+1, ..., n+1+m` has `getFirstInput(k)` equal to 1 in frame `n+1` and to 0
in the frames `n+2, ..., n+1+m`; symmetrically `getLastInput(k)` is 1 only in
the first frame after a release. -/
theorem C8_edge_detection_over_frames (k : Int) (hk : 0 ≤ k) (hk2 : k < NUM_INPUTS)
    (fuel : Nat) (fs : List (Int × List Event)) (v : MainVars) (s : State) (tr : List State)
    (hi : InputsOk s) (hrun : framesFrom fuel fs v s = some tr) :
    (∀ a, InputsOk a →
      getInput a k = some (cur a k) ∧
      getFirstInput a k = some (if cur a k ≠ 0 ∧ prv a k = 0 then 1 else 0) ∧
      getLastInput a k = some (if cur a k = 0 ∧ prv a k ≠ 0 then 1 else 0)) ∧
    (∀ n m : Nat, n + 1 + m < tr.length →
      (∀ a, tr[n]? = some a → cur a k = 0) →
      (∀ j, j ≤ m → ∀ a, tr[n + 1 + j]? = some a → cur a k ≠ 0) →
      (∀ a, tr[n + 1]? = some a → getFirstInput a k = some 1) ∧
      (∀ j, 1 ≤ j → j ≤ m → ∀ a, tr[n + 1 + j]? = some a → getFirstInput a k = some 0)) ∧
    (∀ n m : Nat, n + 1 + m < tr.length →
      (∀ a, tr[n]? = some a → cur a k ≠ 0) →
      (∀ j, j ≤ m → ∀ a, tr[n + 1 + j]? = some a → cur a k = 0) →
      (∀ a, tr[n + 1]? = some a → getLastInput a k = some 1) ∧
      (∀ j, 1 ≤ j → j ≤ m → ∀ a, tr[n + 1 + j]? = some a → getLastInput a k = some 0)) := by
  unfold NUM_INPUTS at hk2
  obtain ⟨_, hok, hchain⟩ := framesFrom_trace fuel fs v s tr hi hrun
  have hprev : ∀ (i : Nat) a, i + 1 < tr.length → tr[i + 1]? = some a →
      ∃ p, tr[i]? = some p ∧ prv a k = cur p k := by
    intro i a hlt ha
    have hp : tr[i]? = some (tr.get ⟨i, by omega⟩) := List.getElem?_eq_getElem (by omega)
    exact ⟨_, hp, prv_eq_cur _ _ k (hchain i _ a hp ha)⟩
  refine ⟨fun a ha => ⟨getInput_eq a k ha hk hk2, getFirstInput_eq a k ha hk hk2,
    getLastInput_eq a k ha hk hk2⟩, ?_, ?_⟩
  · intro n m hlen hnot hheld
    refine ⟨fun a ha => ?_, fun j hj1 hjm a ha => ?_⟩
    · obtain ⟨p, hp, hpc⟩ := hprev n a (by omega) ha
      rw [getFirstInput_eq a k (hok _ a ha) hk hk2,
        if_pos ⟨hheld 0 (Nat.zero_le _) a ha, by rw [hpc]; exact hnot p hp⟩]
    · obtain ⟨j', rfl⟩ : ∃ j', j = j' + 1 := ⟨j - 1, by omega⟩
      obtain ⟨p, hp, hpc⟩ := hprev (n + 1 + j') a (by omega) ha
      rw [getFirstInput_eq a k (hok _ a ha) hk hk2,
        if_neg (fun hh => hheld j' (by omega) p hp (by rw [← hpc]; exact hh.2))]
  · intro n m hlen hheld hnot
    refine ⟨fun a ha => ?_, fun j hj1 hjm a ha => ?_⟩
    · obtain ⟨p, hp, hpc⟩ := hprev n a (by omega) ha
      rw [getLastInput_eq a k (hok _ a ha) hk hk2,
        if_pos ⟨hnot 0 (Nat.zero_le _) a ha, by rw [hpc]; exact hheld p hp⟩]
    · obtain ⟨j', rfl⟩ : ∃ j', j = j' + 1 := ⟨j - 1, by omega⟩
      obtain ⟨p, hp, hpc⟩ := hprev (n + 1 + j') a (by omega) ha
      rw [getLastInput_eq a k (hok _ a ha) hk hk2,
        if_neg (fun hh => hh.2 (by rw [hpc]; exact hnot j' (by omega) p hp))]

theorem C8_edge_detection_over_frames_witness :
    getFirstInput spaceDown SPACE = some 1 ∧ getFirstInput spaceHeld SPACE = some 0 := by
  have h := (C8_edge_detection_over_frames SPACE (by decide) (by decide) 1 quietFrames ⟨0, 0⟩
    initState quietTrace ⟨rfl, rfl⟩ quietRun).2.1 0 2 (by decide)
    (by
      intro a ha
      have e : a = initState := by
        simp only [quietTrace, List.getElem?_cons_zero, Option.some.injEq] at ha
        exact ha.symm
      rw [e]
      decide)
    (by
      intro j hj a ha
      have hj3 : j = 0 ∨ j = 1 ∨ j = 2 := by omega
      have e : a = spaceDown ∨ a = spaceHeld := by
        rcases hj3 with rfl | rfl | rfl
        · left
          simp only [quietTrace, List.getElem?_cons_succ, List.getElem?_cons_zero,
            Option.some.injEq] at ha
          exact ha.symm
        · right
          simp only [quietTrace, List.getElem?_cons_succ, List.getElem?_cons_zero,
            Option.some.injEq] at ha
          exact ha.symm
        · right
          simp only [quietTrace, List.getElem?_cons_succ, List.getElem?_cons_zero,
            Option.some.injEq] at ha
          exact ha.symm
      rcases e with rfl | rfl <;> decide)
  exact ⟨h.1 spaceDown rfl, h.2 1 (le_refl 1) (by decide) spaceHeld rfl⟩

/-! ## The controller as a whole -/

theorem afterClear_configured (s : State) (hc : Configured s) : Configured (afterClear s) := by
  unfold afterClear
  split
  · exact ⟨hc.1, hc.2.1, zeroBoard_length, zeroBoard_length⟩
  · exact beforeClear_configured s hc

theorem afterClear_inputs (s : State) : inputsOf (afterClear s) = inputsOf s := by
  unfold afterClear
  split <;> rfl

theorem afterClear_paused (s : State) : (afterClear s).paused = pausedAtCheck s := by
  unfold afterClear pausedAtCheck
  split <;> rfl

theorem afterClear_speed (s : State) : (afterClear s).speed = speedVal s := by
  unfold afterClear
  split <;> rfl

theorem afterClear_tickCalls (s : State) : (afterClear s).tickCalls = s.tickCalls := by
  unfold afterClear
  split <;> rfl

theorem inputsOk_of_inputsOf (s t : State) (h : inputsOf t = inputsOf s) (hi : InputsOk s) :
    InputsOk t := by
  have a := congrArg Prod.fst h
  have b := congrArg Prod.snd h
  simp only [inputsOf] at a b
  exact ⟨by rw [a]; exact hi.1, by rw [b]; exact hi.2⟩

theorem cur_of_inputsOf (s t : State) (k : Int) (h : inputsOf t = inputsOf s) :
    cur t k = cur s k := by
  have a := congrArg Prod.fst h
  simp only [inputsOf] at a
  unfold cur
  rw [a]

theorem prv_of_inputsOf (s t : State) (k : Int) (h : inputsOf t = inputsOf s) :
    prv t k = prv s k := by
  have b := congrArg Prod.snd h
  simp only [inputsOf] at b
  unfold prv
  rw [b]

/-- Function `processInputs` up to the single-step statement. -/
theorem processInputs_afterClear (s : State) (hi : InputsOk s) (hc : Configured s)
    (hm : CursorInGrid s) :
    processInputs s = (singleStep (afterClear s)).bind draw := by
  rw [processInputs_eq s hi hc hm]
  unfold afterClear
  by_cases hE : cur s ENTER ≠ 0 ∧ prv s ENTER = 0
  · rw [if_pos hE, clearStep_edge (beforeClear s) hi (beforeClear_configured s hc) hE,
      Option.some_bind]
  · rw [if_neg hE, clearStep_idle (beforeClear s) hi hE, Option.some_bind]

/-- Function `processInputs` on a configured state with the cursor in the
grid: it is defined, and this is what it leaves. -/
theorem processInputs_total (s : State) (hi : InputsOk s) (hc : Configured s)
    (hm : CursorInGrid s) :
    ∃ t, processInputs s = some t ∧ Configured t ∧ t.speed = speedVal s ∧
      t.paused = pausedAtCheck s ∧ inputsOf t = inputsOf s ∧
      (stepsNow s → tick (afterClear s) = some t ∧ t.tickCalls = s.tickCalls + 1 ∧
        t.gameBoard = tickBoard (afterClear s).gameBoard) ∧
      (¬ stepsNow s → t = afterClear s ∧ t.tickCalls = s.tickCalls) := by
  have hia : InputsOk (afterClear s) := inputsOk_of_inputsOf _ _ (afterClear_inputs s) hi
  have hca := afterClear_configured s hc
  have hcS : cur (afterClear s) S = cur s S := cur_of_inputsOf _ _ _ (afterClear_inputs s)
  have hpS : prv (afterClear s) S = prv s S := prv_of_inputsOf _ _ _ (afterClear_inputs s)
  by_cases hst : stepsNow s
  · obtain ⟨t, ht, hg, _, hcnt, hct⟩ := tick_spec (afterClear s) hca
    have hctl := tick_controls _ _ ht
    refine ⟨t, ?_, hct, ?_, ?_, ?_, fun _ => ⟨ht, ?_, hg⟩, fun hn => absurd hst hn⟩
    · rw [processInputs_afterClear s hi hc hm,
        singleStep_tick (afterClear s) hia (by rw [hcS, hpS]; exact hst.1)
          (by rw [afterClear_paused]; exact hst.2), ht, Option.some_bind, draw_ok t hct]
    · rw [controls_speed _ _ hctl, afterClear_speed]
    · rw [controls_paused _ _ hctl, afterClear_paused]
    · rw [tick_inputs _ _ ht, afterClear_inputs]
    · rw [hcnt, afterClear_tickCalls]
  · refine ⟨afterClear s, ?_, hca, afterClear_speed s, afterClear_paused s, afterClear_inputs s,
      fun h => absurd h hst, fun _ => ⟨rfl, afterClear_tickCalls s⟩⟩
    rw [processInputs_afterClear s hi hc hm,
      singleStep_idle (afterClear s) hia
        (by rw [hcS, hpS, afterClear_paused]; exact hst), Option.some_bind,
      draw_ok _ hca]

/-! ## What a frame leaves in `paused`, `speed` and the call counter -/

theorem afterKnobs_eq (s : State) :
    speedDownPure (speedUpPure (pausePure s)) = afterKnobs s := by
  simp only [speedDownPure, speedUpPure, pausePure, afterKnobs, speedVal,
    speedDownVal, speedUpVal, pauseVal, cur, prv]

theorem setGameCell_calls (s t : State) (i j v : Int) (h : setGameCell s i j v = some t) :
    t.tickCalls = s.tickCalls := by
  unfold setGameCell at h
  simp only [Option.bind_eq_some] at h
  obtain ⟨_, _, _, _, gb, _, h⟩ := h
  rw [Option.some.injEq] at h
  rw [← h]

theorem tickCell_calls (i j : Int) (s t : State) (h : tickCell i j s = some t) :
    t.tickCalls = s.tickCalls := by
  unfold tickCell at h
  simp only [Option.bind_eq_some] at h
  obtain ⟨count, _, v, _, h⟩ := h
  split at h
  · simp only [Option.bind_eq_some] at h
    obtain ⟨s1, h1, h⟩ := h
    have e1 : s1.tickCalls = s.tickCalls := by
      split at h1
      · exact setGameCell_calls _ _ _ _ _ h1
      · rw [Option.some.injEq] at h1; rw [h1]
    split at h
    · rw [setGameCell_calls _ _ _ _ _ h, e1]
    · rw [Option.some.injEq] at h; rw [← h, e1]
  · split at h
    · exact setGameCell_calls _ _ _ _ _ h
    · rw [Option.some.injEq] at h; rw [h]

theorem tickCopy_calls (s t : State) (h : tickCopy s = some t) : t.tickCalls = s.tickCalls := by
  unfold tickCopy at h
  simp only [Option.bind_eq_some] at h
  obtain ⟨n, _, h⟩ := h
  refine forLoopFrom_rel _ (fun (a b : State) => b.tickCalls = a.tickCalls) (fun _ => rfl)
    (fun a b c h1 h2 => h2.trans h1) ?_ _ _ _ _ h
  intro i a b hb
  simp only [Option.bind_eq_some] at hb
  obtain ⟨_, _, tb, _, hb⟩ := hb
  rw [Option.some.injEq] at hb
  rw [← hb]

/-- Every call of `tick` that returns has counted itself once. -/
theorem tick_calls (s t : State) (h : tick s = some t) : t.tickCalls = s.tickCalls + 1 := by
  unfold tick at h
  simp only [Option.bind_eq_some] at h
  obtain ⟨s1, h1, h⟩ := h
  have e0 := tickCopy_calls _ _ h1
  have e1 : s1.tickCalls = s.tickCalls + 1 := e0
  rw [← e1]
  refine forLoopFrom_rel _ (fun (a b : State) => b.tickCalls = a.tickCalls) (fun _ => rfl)
    (fun a b c h1 h2 => h2.trans h1) ?_ _ _ _ _ h
  intro i a b hb
  refine forLoopFrom_rel _ (fun (a b : State) => b.tickCalls = a.tickCalls) (fun _ => rfl)
    (fun a b c h1 h2 => h2.trans h1) ?_ _ _ _ _ hb
  intro j a b hb
  exact tickCell_calls _ _ _ _ hb

theorem paintStep_rest (s t : State) (h : paintStep s = some t) :
    t.paused = s.paused ∧ t.speed = s.speed ∧ t.tickCalls = s.tickCalls := by
  unfold paintStep at h
  simp only [Option.bind_eq_some] at h
  obtain ⟨_, _, held, _, h⟩ := h
  split at h
  · simp only [Option.bind_eq_some] at h
    obtain ⟨_, _, _, _, _, _, gb, _, h⟩ := h
    rw [Option.some.injEq] at h
    rw [← h]
    exact ⟨rfl, rfl, rfl⟩
  · rw [Option.some.injEq] at h
    rw [h]
    exact ⟨rfl, rfl, rfl⟩

theorem clearStep_rest (s t : State) (hi : InputsOk s) (h : clearStep s = some t) :
    t.paused = (if cur s ENTER ≠ 0 ∧ prv s ENTER = 0 then 1 else s.paused) ∧
      t.speed = s.speed ∧ t.tickCalls = s.tickCalls := by
  unfold clearStep at h
  rw [getFirstInput_eq s ENTER hi (by decide) (by decide), Option.some_bind] at h
  by_cases hE : cur s ENTER ≠ 0 ∧ prv s ENTER = 0
  · rw [if_pos hE, if_pos (by decide)] at h
    simp only [Option.bind_eq_some] at h
    obtain ⟨n, _, s2, hloop, h⟩ := h
    rw [Option.some.injEq] at h
    have h2 : s2.speed = s.speed ∧ s2.tickCalls = s.tickCalls := by
      refine forLoopFrom_rel _ (fun (a b : State) => b.speed = a.speed ∧ b.tickCalls = a.tickCalls)
        (fun _ => ⟨rfl, rfl⟩) (fun a b c h1 h2 => ⟨h2.1.trans h1.1, h2.2.trans h1.2⟩) ?_
        _ _ _ _ hloop
      intro i a b hb
      simp only [Option.bind_eq_some] at hb
      obtain ⟨_, _, _, _, hb⟩ := hb
      rw [Option.some.injEq] at hb
      rw [← hb]
      exact ⟨rfl, rfl⟩
    rw [← h, if_pos hE]
    exact ⟨rfl, h2.1, h2.2⟩
  · rw [if_neg hE, if_neg (by decide), Option.some.injEq] at h
    rw [← h, if_neg hE]
    exact ⟨rfl, rfl, rfl⟩

theorem singleStep_rest (s t : State) (hi : InputsOk s) (h : singleStep s = some t) :
    t.paused = s.paused ∧ t.speed = s.speed ∧
      t.tickCalls = s.tickCalls + (if (cur s S ≠ 0 ∧ prv s S = 0) ∧ s.paused ≠ 0 then 1 else 0) := by
  by_cases hst : (cur s S ≠ 0 ∧ prv s S = 0) ∧ s.paused ≠ 0
  · rw [singleStep_tick s hi hst.1 hst.2] at h
    have hctl := tick_controls _ _ h
    rw [if_pos hst]
    exact ⟨controls_paused _ _ hctl, controls_speed _ _ hctl, tick_calls _ _ h⟩
  · rw [singleStep_idle s hi hst, Option.some.injEq] at h
    rw [← h, if_neg hst]
    exact ⟨rfl, rfl, rfl⟩

/-- The three values depend on the input arrays, `paused` and `speed` only. -/
theorem panel_congr (a b : State) (h1 : a.currInputs = b.currInputs)
    (h2 : a.prevInputs = b.prevInputs) (h3 : a.paused = b.paused) (h4 : a.speed = b.speed) :
    pausedAtCheck a = pausedAtCheck b ∧ speedVal a = speedVal b ∧ (stepsNow a ↔ stepsNow b) := by
  simp only [stepsNow, pausedAtCheck, pauseVal, speedVal, speedDownVal, speedUpPure, speedUpVal,
    cur, prv, h1, h2, h3, h4, and_self]

/-- Whenever `processInputs` returns, `paused`, `speed` and the call counter
are these. -/
theorem processInputs_rest (s t : State) (hi : InputsOk s) (h : processInputs s = some t) :
    t.paused = pausedAtCheck s ∧ t.speed = speedVal s ∧
      t.tickCalls = s.tickCalls + (if stepsNow s then 1 else 0) := by
  unfold processInputs at h
  simp only [Option.bind_eq_some] at h
  obtain ⟨s1, h1, s2, h2, s3, h3, s4, h4, s5, h5, s6, h6, h7⟩ := h
  have e1 := paintStep_inputs _ _ h1
  have r1 := paintStep_rest _ _ h1
  have hi1 : InputsOk s1 := inputsOk_of_inputsOf _ _ e1 hi
  rw [pauseStep_eq s1 hi1, Option.some.injEq] at h2
  subst h2
  rw [speedUpStep_eq (pausePure s1) hi1, Option.some.injEq] at h3
  subst h3
  rw [speedDownStep_eq (speedUpPure (pausePure s1)) hi1, Option.some.injEq] at h4
  subst h4
  rw [afterKnobs_eq] at h5
  have hi4 : InputsOk (afterKnobs s1) := ⟨hi1.1, hi1.2⟩
  have r5 := clearStep_rest (afterKnobs s1) s5 hi4 h5
  have e5 := clearStep_inputs _ _ h5
  have e4 : inputsOf (afterKnobs s1) = inputsOf s1 := rfl
  have e5' : inputsOf s5 = inputsOf s1 := e5.trans e4
  have hi5 : InputsOk s5 := inputsOk_of_inputsOf _ _ e5' hi1
  have r6 := singleStep_rest _ _ hi5 h6
  have e7 := draw_same _ _ h7
  subst e7
  have a1 := congrArg Prod.fst e1
  have b1 := congrArg Prod.snd e1
  simp only [inputsOf] at a1 b1
  obtain ⟨c1, c2, c3⟩ := panel_congr s1 s a1 b1 r1.1 r1.2.1
  have p5 : s5.paused = pausedAtCheck s1 := r5.1
  have v5 : s5.speed = speedVal s1 := r5.2.1
  have k5 : s5.tickCalls = s1.tickCalls := r5.2.2
  have hst : ((cur s5 S ≠ 0 ∧ prv s5 S = 0) ∧ s5.paused ≠ 0) ↔ stepsNow s1 := by
    rw [cur_of_inputsOf _ _ S e5', prv_of_inputsOf _ _ S e5', p5]
    rfl
  refine ⟨?_, ?_, ?_⟩
  · rw [r6.1, p5, c1]
  · rw [r6.2.1, v5, c2]
  · rw [r6.2.2, k5, r1.2.2]
    by_cases hs : stepsNow s
    · rw [if_pos hs, if_pos (hst.2 (c3.2 hs))]
    · rw [if_neg hs, if_neg (fun hh => hs (c3.1 (hst.1 hh)))]

/-! ## `paused` and `speed` along a run of the main loop -/

theorem setInput_knobs (s t : State) (key v : Int) (h : setInput s key v = some t) :
    knobs t = knobs s := by
  unfold setInput at h
  simp only [Option.bind_eq_some] at h
  obtain ⟨ci, _, h⟩ := h
  rw [Option.some.injEq] at h
  rw [← h]
  rfl

theorem updateMouseRect_knobs (s t : State) (x y : Int) (h : updateMouseRect s x y = some t) :
    knobs t = knobs s := by
  unfold updateMouseRect at h
  split at h
  · rw [Option.some.injEq] at h
    rw [h]
  · simp only [Option.bind_eq_some] at h
    obtain ⟨_, _, _, _, h⟩ := h
    rw [Option.some.injEq] at h
    rw [← h]
    rfl

/-- Function `updateInputs` writes neither `paused` nor `speed`. -/
theorem updateInputs_knobs (e : Event) (s t : State) (h : updateInputs e s = some t) :
    knobs t = knobs s := by
  cases e with
  | mouseButton b p =>
    simp only [updateInputs, Option.bind_eq_some] at h
    obtain ⟨s1, h1, h2⟩ := h
    have e1 : knobs s1 = knobs s := by
      split at h1
      · exact setInput_knobs _ _ _ _ h1
      · rw [Option.some.injEq] at h1
        rw [h1]
    have e2 : knobs t = knobs s1 := by
      split at h2
      · exact setInput_knobs _ _ _ _ h2
      · rw [Option.some.injEq] at h2
        rw [h2]
    exact e2.trans e1
  | mouseMotion x y =>
    simp only [updateInputs] at h
    have e := updateMouseRect_knobs _ _ _ _ h
    exact e
  | key sym p =>
    cases sym <;> simp only [updateInputs] at h
    · exact setInput_knobs _ _ _ _ h
    · exact setInput_knobs _ _ _ _ h
    · exact setInput_knobs _ _ _ _ h
    · exact setInput_knobs _ _ _ _ h
    · exact setInput_knobs _ _ _ _ h
    · exact setInput_knobs _ _ _ _ h
    · rw [Option.some.injEq] at h
      rw [h]
  | quit =>
    simp only [updateInputs, Option.some.injEq] at h
    rw [← h]
    rfl
  | other =>
    simp only [updateInputs, Option.some.injEq] at h
    rw [h]

theorem pollEvents_knobs : ∀ (evs : List Event) (s t : State), pollEvents evs s = some t →
    knobs t = knobs s := by
  intro evs
  induction evs with
  | nil =>
    intro s t h
    simp only [pollEvents, Option.some.injEq] at h
    rw [h]
  | cons e es ih =>
    intro s t h
    simp only [pollEvents] at h
    split at h
    · rw [Option.some.injEq] at h
      rw [← h]
      rfl
    · simp only [Option.bind_eq_some] at h
      obtain ⟨s1, h1, h2⟩ := h
      exact (ih _ _ h2).trans (updateInputs_knobs _ _ _ h1)

theorem frameHead_knobs (ct : Int) (evs : List Event) (v : MainVars) (s : State)
    (r : MainVars × State) (h : frameHead ct evs v s = some r) : knobs r.2 = knobs s := by
  unfold frameHead at h
  simp only [Option.bind_eq_some] at h
  obtain ⟨_, _, _, _, s1, h1, h2⟩ := h
  rw [Option.some.injEq] at h2
  rw [← h2]
  exact pollEvents_knobs _ _ _ h1

theorem lagLoop_knobs : ∀ (fuel : Nat) (lag : Int) (s : State) (r : Int × State),
    lagLoop fuel lag s = some r → knobs r.2 = knobs s := by
  intro fuel
  induction fuel with
  | zero =>
    intro lag s r h
    exact Option.noConfusion h
  | succ f ih =>
    intro lag s r h
    simp only [lagLoop] at h
    split at h
    · simp only [Option.bind_eq_some] at h
      obtain ⟨s1, h1, lag1, _, h2⟩ := h
      have e1 : knobs s1 = knobs s := by
        split at h1
        · have hctl := tick_controls _ _ h1
          unfold knobs
          rw [controls_paused _ _ hctl, controls_speed _ _ hctl]
        · rw [Option.some.injEq] at h1
          rw [h1]
      rw [ih _ _ _ h2, e1]
    · rw [Option.some.injEq] at h
      rw [← h]

/-- The second half of a frame leaves in `paused` and `speed` what
`processInputs` leaves there. -/
theorem frameTail_knobs (fuel : Nat) (ct : Int) (v : MainVars) (s : State)
    (r : MainVars × State) (hi : InputsOk s) (h : frameTail fuel ct v s = some r) :
    (∃ t, processInputs s = some t) ∧ r.2.paused = pausedAtCheck s ∧ r.2.speed = speedVal s := by
  unfold frameTail at h
  simp only [Option.bind_eq_some] at h
  obtain ⟨s1, h1, s2, h2, r1, h3, s3, h4, h5⟩ := h
  have e1 := processInputs_rest _ _ hi h1
  have hi1 : InputsOk s1 := inputsOk_of_inputsOf _ _ (processInputs_inputs _ _ h1) hi
  rw [copyInputs_eq s1 hi1, Option.some.injEq] at h2
  have e2 : knobs s2 = knobs s1 := by
    rw [← h2]
    rfl
  have e3 := lagLoop_knobs _ _ _ _ h3
  have e4 := draw_same _ _ h4
  rw [Option.some.injEq] at h5
  have e : knobs r.2 = knobs s1 := by
    rw [← h5]
    simp only
    rw [e4, e3, e2]
  have a := congrArg Prod.fst e
  have b := congrArg Prod.snd e
  simp only [knobs] at a b
  exact ⟨⟨s1, h1⟩, a.trans e1.1, b.trans e1.2.1⟩

/-- Along a run of the main loop: the first frame starts with the `paused`
and `speed` of the start state, `processInputs` returns in every frame, and
every later frame starts with what `processInputs` left in the frame before. -/
theorem framesFrom_knobs (fuel : Nat) :
    ∀ (fs : List (Int × List Event)) (v : MainVars) (s : State) (tr : List State),
      InputsOk s → framesFrom fuel fs v s = some tr →
        (∀ b, tr[0]? = some b → knobs b = knobs s) ∧
        (∀ (i : Nat) a, tr[i]? = some a → ∃ t, processInputs a = some t) ∧
        (∀ (i : Nat) a b, tr[i]? = some a → tr[i + 1]? = some b →
          b.paused = pausedAtCheck a ∧ b.speed = speedVal a) := by
  intro fs
  induction fs with
  | nil =>
    intro v s tr hi h
    simp only [framesFrom, Option.some.injEq] at h
    subst h
    simp
  | cons f fs ih =>
    intro v s tr hi h
    simp only [framesFrom] at h
    split at h
    · rw [Option.some.injEq] at h
      subst h
      simp
    simp only [Option.bind_eq_some] at h
    obtain ⟨r, hr, r1, hr1, tr', htr', h⟩ := h
    rw [Option.some.injEq] at h
    subst h
    have e1 := frameHead_prev _ _ _ _ _ hr
    have k1 := frameHead_knobs _ _ _ _ _ hr
    have hir : InputsOk r.2 := ⟨e1.2.trans hi.1, by rw [e1.1]; exact hi.2⟩
    have e2 := frameTail_inputs _ _ _ _ _ hir hr1
    have k2 := frameTail_knobs _ _ _ _ _ hir hr1
    have hir1 : InputsOk r1.2 := ⟨by rw [e2.1]; exact hir.1, by rw [e2.2]; exact hir.1⟩
    obtain ⟨ih1, ih2, ih3⟩ := ih _ _ _ hir1 htr'
    refine ⟨?_, ?_, ?_⟩
    · intro b hb
      simp only [List.getElem?_cons_zero, Option.some.injEq] at hb
      rw [← hb]
      exact k1
    · intro i a ha
      cases i with
      | zero =>
        simp only [List.getElem?_cons_zero, Option.some.injEq] at ha
        rw [← ha]
        exact k2.1
      | succ i =>
        rw [List.getElem?_cons_succ] at ha
        exact ih2 i a ha
    · intro i a b ha hb
      rw [List.getElem?_cons_succ] at hb
      cases i with
      | zero =>
        simp only [List.getElem?_cons_zero, Option.some.injEq] at ha
        have kb := ih1 b hb
        have a1 := congrArg Prod.fst kb
        have b1 := congrArg Prod.snd kb
        simp only [knobs] at a1 b1
        rw [← ha, a1, b1]
        exact k2.2
      | succ i =>
        rw [List.getElem?_cons_succ] at ha
        exact ih3 i a b ha hb

theorem pausedAtCheck_no_enter (s : State) (hE : ¬ (cur s ENTER ≠ 0 ∧ prv s ENTER = 0)) :
    pausedAtCheck s = pauseVal s := by
  unfold pausedAtCheck
  rw [if_neg hE]

theorem pauseVal_edge (s : State) (h : cur s SPACE ≠ 0 ∧ prv s SPACE = 0) :
    pauseVal s = lnot s.paused := by
  unfold pauseVal lnot
  rw [if_pos h]

theorem pauseVal_idle (s : State) (h : ¬ (cur s SPACE ≠ 0 ∧ prv s SPACE = 0)) :
    pauseVal s = s.paused := by
  unfold pauseVal
  rw [if_neg h]

/-- The two speed statements on a tick interval in `[10, 1000]`. -/
theorem speedVal_cases (s : State) (h1 : 10 ≤ s.speed) (h2 : s.speed ≤ 1000) :
    (cur s UP_ARROW ≠ 0 → cur s DOWN_ARROW = 0 → speedVal s = max 10 (s.speed - 10)) ∧
    (cur s DOWN_ARROW ≠ 0 → cur s UP_ARROW = 0 → speedVal s = min 1000 (s.speed + 10)) ∧
    (cur s UP_ARROW = 0 → cur s DOWN_ARROW = 0 → speedVal s = s.speed) ∧
    10 ≤ speedVal s ∧ speedVal s ≤ 1000 := by
  have r1 : roundF32 (s.speed - 10) = s.speed - 10 := roundF32_exact (by omega) (by omega)
  have hu : speedUpVal s = if cur s UP_ARROW ≠ 0 then max 10 (s.speed - 10) else s.speed := by
    unfold speedUpVal
    rw [r1]
    split
    · split <;> omega
    · rfl
  have hu1 : 10 ≤ speedUpVal s ∧ speedUpVal s ≤ 1000 := by
    rw [hu]
    split <;> omega
  have r2 : roundF32 (speedUpVal s + 10) = speedUpVal s + 10 :=
    roundF32_exact (by omega) (by omega)
  have hd : speedVal s
      = if cur s DOWN_ARROW ≠ 0 then min 1000 (speedUpVal s + 10) else speedUpVal s := by
    have e : speedVal s = if cur s DOWN_ARROW ≠ 0 then
        (if roundF32 (speedUpVal s + 10) > 1000 then 1000 else roundF32 (speedUpVal s + 10))
        else speedUpVal s := rfl
    rw [e, r2]
    split
    · split <;> omega
    · rfl
  refine ⟨?_, ?_, ?_, ?_, ?_⟩
  · intro a b
    rw [hd, if_neg (not_not.mpr b), hu, if_pos a]
  · intro a b
    rw [hd, if_pos a, hu, if_neg (not_not.mpr b)]
  · intro a b
    rw [hd, if_neg (not_not.mpr b), hu, if_neg (not_not.mpr a)]
  · rw [hd]
    split <;> omega
  · rw [hd]
    split <;> omega

/-- Along a run that starts with a tick interval in `[10, 1000]` every frame
starts with one. -/
theorem framesFrom_speed (fuel : Nat) (fs : List (Int × List Event)) (v : MainVars) (s : State)
    (tr : List State) (hi : InputsOk s) (h1 : 10 ≤ s.speed) (h2 : s.speed ≤ 1000)
    (hrun : framesFrom fuel fs v s = some tr) :
    ∀ (i : Nat) a, tr[i]? = some a → 10 ≤ a.speed ∧ a.speed ≤ 1000 := by
  obtain ⟨k0, _, kstep⟩ := framesFrom_knobs fuel fs v s tr hi hrun
  intro i
  induction i with
  | zero =>
    intro a ha
    have e := congrArg Prod.snd (k0 a ha)
    simp only [knobs] at e
    rw [e]
    exact ⟨h1, h2⟩
  | succ i ih =>
    intro a ha
    have hlt : i + 1 < tr.length := by
      by_contra hh
      rw [List.getElem?_eq_none (by omega)] at ha
      exact Option.noConfusion ha
    have hp : tr[i]? = some (tr.get ⟨i, by omega⟩) := List.getElem?_eq_getElem (by omega)
    have hr := ih _ hp
    rw [(kstep i _ a hp ha).2]
    have c := speedVal_cases _ hr.1 hr.2
    exact ⟨c.2.2.2.1, c.2.2.2.2⟩

/-! ## Claim C11 -/

/-- C11: in a state without a rising edge of ENTER, `processInputs` returns
and leaves `paused` as its C negation when SPACE has a rising edge, and as it
was otherwise, in particular when SPACE is held in both frames.  Along any
run of the main loop (`tr` lists the states in which `processInputs` is
called): when SPACE is up in frame `n` and down in the frames
`n+1, ..., n+1+m`, none of which has a rising edge of ENTER, then in each of
these frames `processInputs` leaves `paused` as the negation of the value
frame `n+1` started with: one flip, whatever `m` is. -/
theorem C11_pause_is_edge_triggered (fuel : Nat) (fs : List (Int × List Event)) (v : MainVars)
    (s : State) (tr : List State) (hi : InputsOk s) (hrun : framesFrom fuel fs v s = some tr) :
    (∀ a, InputsOk a → Configured a → CursorInGrid a → ¬ (cur a ENTER ≠ 0 ∧ prv a ENTER = 0) →
      ∃ t, processInputs a = some t ∧
        (cur a SPACE ≠ 0 ∧ prv a SPACE = 0 → t.paused = lnot a.paused) ∧
        (¬ (cur a SPACE ≠ 0 ∧ prv a SPACE = 0) → t.paused = a.paused) ∧
        (cur a SPACE ≠ 0 → prv a SPACE ≠ 0 → t.paused = a.paused)) ∧
    (∀ n m : Nat, n + 1 + m < tr.length →
      (∀ a, tr[n]? = some a → cur a SPACE = 0) →
      (∀ j, j ≤ m → ∀ a, tr[n + 1 + j]? = some a →
        cur a SPACE ≠ 0 ∧ ¬ (cur a ENTER ≠ 0 ∧ prv a ENTER = 0)) →
      ∀ a, tr[n + 1]? = some a → ∀ j, j ≤ m → ∀ c, tr[n + 1 + j]? = some c →
        (1 ≤ j → c.paused = lnot a.paused) ∧
        ∃ t, processInputs c = some t ∧ t.paused = lnot a.paused) := by
  refine ⟨?_, ?_⟩
  · intro a ha hc hm hE
    obtain ⟨t, ht, _, _, hp, _⟩ := processInputs_total a ha hc hm
    rw [pausedAtCheck_no_enter a hE] at hp
    refine ⟨t, ht, fun h => ?_, fun h => ?_, fun _ h2 => ?_⟩
    · rw [hp, pauseVal_edge a h]
    · rw [hp, pauseVal_idle a h]
    · rw [hp, pauseVal_idle a (fun hh => h2 hh.2)]
  · intro n m hlen hup hdown a ha
    obtain ⟨_, hok, hchain⟩ := framesFrom_trace fuel fs v s tr hi hrun
    obtain ⟨_, hret, hstep⟩ := framesFrom_knobs fuel fs v s tr hi hrun
    have hat : ∀ j, j ≤ m → ∀ c, tr[n + 1 + j]? = some c →
        (1 ≤ j → c.paused = lnot a.paused) ∧ pausedAtCheck c = lnot a.paused := by
      intro j
      induction j with
      | zero =>
        intro _ c hcj
        have e : c = a := by
          rw [Nat.add_zero, ha, Option.some.injEq] at hcj
          exact hcj.symm
        subst e
        have hp : tr[n]? = some (tr.get ⟨n, by omega⟩) := List.getElem?_eq_getElem (by omega)
        have hprv : prv c SPACE = 0 := by
          rw [prv_eq_cur _ _ SPACE (hchain n _ c hp ha)]
          exact hup _ hp
        have hd := hdown 0 (Nat.zero_le _) c ha
        refine ⟨fun h => absurd h (by decide), ?_⟩
        rw [pausedAtCheck_no_enter c hd.2, pauseVal_edge c ⟨hd.1, hprv⟩]
      | succ j ih =>
        intro hj c hcj
        have hp : tr[n + 1 + j]? = some (tr.get ⟨n + 1 + j, by omega⟩) :=
          List.getElem?_eq_getElem (by omega)
        have hpd := hdown j (by omega) _ hp
        have hprv : prv c SPACE ≠ 0 := by
          rw [prv_eq_cur _ _ SPACE (hchain (n + 1 + j) _ c hp hcj)]
          exact hpd.1
        have hd := hdown (j + 1) hj c hcj
        have hcp : c.paused = lnot a.paused := by
          rw [(hstep (n + 1 + j) _ c hp hcj).1]
          exact (ih (by omega) _ hp).2
        refine ⟨fun _ => hcp, ?_⟩
        rw [pausedAtCheck_no_enter c hd.2, pauseVal_idle c (fun hh => hprv hh.2), hcp]
    intro j hj c hcj
    obtain ⟨h1, h2⟩ := hat j hj c hcj
    obtain ⟨t, ht⟩ := hret _ c hcj
    exact ⟨h1, t, ht, by rw [(processInputs_rest c t (hok _ c hcj) ht).1, h2]⟩

theorem C11_pause_is_edge_triggered_witness :
    (∃ t, processInputs spaceDown = some t ∧ t.paused = 0) ∧
    spaceHeld.paused = 0 ∧ (∃ t, processInputs spaceHeld = some t ∧ t.paused = 0) := by
  have h := (C11_pause_is_edge_triggered 1 quietFrames ⟨0, 0⟩ initState quietTrace ⟨rfl, rfl⟩
    quietRun).2 0 2 (by decide)
    (by
      intro a ha
      have e : a = initState := by
        simp only [quietTrace, List.getElem?_cons_zero, Option.some.injEq] at ha
        exact ha.symm
      rw [e]
      decide)
    (by
      intro j hj a ha
      have hj3 : j = 0 ∨ j = 1 ∨ j = 2 := by omega
      have e : a = spaceDown ∨ a = spaceHeld := by
        rcases hj3 with rfl | rfl | rfl
        · left
          simp only [quietTrace, List.getElem?_cons_succ, List.getElem?_cons_zero,
            Option.some.injEq] at ha
          exact ha.symm
        · right
          simp only [quietTrace, List.getElem?_cons_succ, List.getElem?_cons_zero,
            Option.some.injEq] at ha
          exact ha.symm
        · right
          simp only [quietTrace, List.getElem?_cons_succ, List.getElem?_cons_zero,
            Option.some.injEq] at ha
          exact ha.symm
      rcases e with rfl | rfl <;> decide)
    spaceDown rfl
  exact ⟨(h 0 (by decide) spaceDown rfl).2, (h 2 (le_refl 2) spaceHeld rfl).1 (by decide),
    (h 2 (le_refl 2) spaceHeld rfl).2⟩

/-! ## Claim C12 -/

/-- C12: on a configured state with the cursor in the grid `processInputs`
returns, and it has called `tick` once when S has a rising edge and `paused`
is non-zero after this frame's pause toggle and clear-board statement
(`stepsNow`), and not at all otherwise: in particular not in an unpaused
state without a rising edge of SPACE or ENTER, and not while S is held in
both frames.  When it steps, the result is `tick` applied to the state left
by the paint and clear statements (`afterClear`), whose board is the zero
board after a rising edge of ENTER and the painted board otherwise; the
result is a function of the state alone (the local variable `lag` of `main`
is no part of it).  Along any run of the main loop, a frame that follows a
frame with S held calls `tick` from `processInputs` zero times. -/
theorem C12_single_step_ticks_once (s : State) (hi : InputsOk s) (hc : Configured s)
    (hm : CursorInGrid s) :
    (∃ t, processInputs s = some t ∧
      (stepsNow s → t.tickCalls = s.tickCalls + 1 ∧ tick (afterClear s) = some t ∧
        t.gameBoard = tickBoard (afterClear s).gameBoard) ∧
      (¬ stepsNow s → t.tickCalls = s.tickCalls ∧ t = afterClear s) ∧
      (s.paused = 0 → ¬ (cur s SPACE ≠ 0 ∧ prv s SPACE = 0) →
        ¬ (cur s ENTER ≠ 0 ∧ prv s ENTER = 0) → t.tickCalls = s.tickCalls) ∧
      (cur s S ≠ 0 → prv s S ≠ 0 → t.tickCalls = s.tickCalls)) ∧
    (afterClear s).gameBoard
      = (if cur s ENTER ≠ 0 ∧ prv s ENTER = 0 then zeroBoard else paintBoard s) ∧
    (∀ (fuel : Nat) (fs : List (Int × List Event)) (v : MainVars) (s0 : State)
      (tr : List State), InputsOk s0 → framesFrom fuel fs v s0 = some tr →
      ∀ (i : Nat) a b, tr[i]? = some a → tr[i + 1]? = some b → cur a S ≠ 0 →
        ∃ t, processInputs b = some t ∧ t.tickCalls = b.tickCalls) := by
  refine ⟨?_, ?_, ?_⟩
  · obtain ⟨t, ht, _, _, _, _, hstep, hidle⟩ := processInputs_total s hi hc hm
    refine ⟨t, ht, fun h => ⟨(hstep h).2.1, (hstep h).1, (hstep h).2.2⟩,
      fun h => ⟨(hidle h).2, (hidle h).1⟩, fun hp hS hE => (hidle ?_).2,
      fun _ h2 => (hidle (fun hh => h2 hh.1.2)).2⟩
    intro hh
    have e : pausedAtCheck s = 0 := by
      rw [pausedAtCheck_no_enter s hE, pauseVal_idle s hS, hp]
    exact hh.2 e
  · unfold afterClear
    split <;> rfl
  · intro fuel fs v s0 tr hi0 hrun i a b ha hb hheld
    obtain ⟨_, hok, hchain⟩ := framesFrom_trace fuel fs v s0 tr hi0 hrun
    obtain ⟨_, hret, _⟩ := framesFrom_knobs fuel fs v s0 tr hi0 hrun
    obtain ⟨t, ht⟩ := hret _ b hb
    have hprv : prv b S ≠ 0 := by
      rw [prv_eq_cur _ _ S (hchain i a b ha hb)]
      exact hheld
    have hr := (processInputs_rest b t (hok _ b hb) ht).2.2
    rw [if_neg (fun hh => hprv hh.1.2)] at hr
    exact ⟨t, ht, hr⟩

theorem C12_single_step_ticks_once_witness :
    ∃ t, processInputs stepDown = some t ∧ t.tickCalls = 1 ∧
      t.gameBoard = tickBoard zeroBoard := by
  have hc : Configured stepDown := ⟨rfl, rfl, zeroBoard_length, zeroBoard_length⟩
  obtain ⟨t, ht, hstep, _⟩ := (C12_single_step_ticks_once stepDown ⟨rfl, rfl⟩ hc
    ⟨by decide, by decide, by decide, by decide⟩).1
  have hs : stepsNow stepDown := by decide
  exact ⟨t, ht, (hstep hs).1, (hstep hs).2.2⟩

/-! ## Claim C13 -/

/-- C13: on a configured state with the cursor in the grid and `speed` in
`[10, 1000]`, `processInputs` returns and leaves `speed` as
`max(10, speed - 10)` when UP_ARROW is held and DOWN_ARROW is not, as
`min(1000, speed + 10)` when DOWN_ARROW is held and UP_ARROW is not, and
unchanged when neither is held, whatever `prevInputs` holds; for every
combination of inputs the new `speed` is in `[10, 1000]`.  Along any run of
the main loop from the initial state (`speed = 500`) every frame starts with
`speed` in `[10, 1000]` and `processInputs` leaves it there. -/
theorem C13_speed_steps_and_clamps (s : State) (hi : InputsOk s) (hc : Configured s)
    (hm : CursorInGrid s) (h1 : 10 ≤ s.speed) (h2 : s.speed ≤ 1000) :
    (∃ t, processInputs s = some t ∧
      (cur s UP_ARROW ≠ 0 → cur s DOWN_ARROW = 0 → t.speed = max 10 (s.speed - 10)) ∧
      (cur s DOWN_ARROW ≠ 0 → cur s UP_ARROW = 0 → t.speed = min 1000 (s.speed + 10)) ∧
      (cur s UP_ARROW = 0 → cur s DOWN_ARROW = 0 → t.speed = s.speed) ∧
      10 ≤ t.speed ∧ t.speed ≤ 1000) ∧
    (∀ (fuel : Nat) (fs : List (Int × List Event)) (v : MainVars) (tr : List State),
      framesFrom fuel fs v initState = some tr →
      ∀ (i : Nat) a, tr[i]? = some a → 10 ≤ a.speed ∧ a.speed ≤ 1000 ∧
        ∃ t, processInputs a = some t ∧ 10 ≤ t.speed ∧ t.speed ≤ 1000) := by
  refine ⟨?_, ?_⟩
  · obtain ⟨t, ht, _, hv, _⟩ := processInputs_total s hi hc hm
    obtain ⟨c1, c2, c3, c4, c5⟩ := speedVal_cases s h1 h2
    rw [← hv] at c1 c2 c3 c4 c5
    exact ⟨t, ht, c1, c2, c3, c4, c5⟩
  · intro fuel fs v tr hrun i a ha
    have hi0 : InputsOk initState := ⟨rfl, rfl⟩
    have hr := framesFrom_speed fuel fs v initState tr hi0 (by decide) (by decide) hrun i a ha
    obtain ⟨_, hok, _⟩ := framesFrom_trace fuel fs v initState tr hi0 hrun
    obtain ⟨_, hret, _⟩ := framesFrom_knobs fuel fs v initState tr hi0 hrun
    obtain ⟨t, ht⟩ := hret _ a ha
    have hv := (processInputs_rest a t (hok _ a ha) ht).2.1
    have c := speedVal_cases a hr.1 hr.2
    rw [← hv] at c
    exact ⟨hr.1, hr.2, t, ht, c.2.2.2.1, c.2.2.2.2⟩

theorem C13_speed_steps_and_clamps_witness :
    ∃ t, processInputs upHeldState = some t ∧ t.speed = 10 := by
  have hc : Configured upHeldState := ⟨rfl, rfl, zeroBoard_length, zeroBoard_length⟩
  obtain ⟨t, ht, hup, _⟩ := (C13_speed_steps_and_clamps upHeldState ⟨rfl, rfl⟩ hc
    ⟨by decide, by decide, by decide, by decide⟩ (by decide) (by decide)).1
  exact ⟨t, ht, hup (by decide) (by decide)⟩

/-! ## Start-up -/

/-- On the 80x80 grid with cell sizes in `[0, 2^20]` every store of
`initRects` is inside the rectangle array. -/
theorem initRects_ok (s : State) (hR : s.ROWS = 80) (hC : s.COLS = 80)
    (hw0 : 0 ≤ s.CELL_W) (hw1 : s.CELL_W ≤ 1048576) (hh0 : 0 ≤ s.CELL_H)
    (hh1 : s.CELL_H ≤ 1048576) : initRects s = some s := by
  unfold initRects forLt
  have hn : (s.COLS - 0).toNat = 80 := by rw [hC]; decide
  rw [hn]
  obtain ⟨t, ht1, rfl⟩ := forLoopFrom_inv
    (fun (i : Int) (s1 : State) => forLoopFrom (fun j s2 =>
      (ckInt (s2.ROWS * j)).bind fun rj =>
      (ckInt (i + rj)).bind fun idx =>
      if 0 ≤ idx ∧ idx < s2.ROWS * s2.COLS then
        (ckInt (i * s2.CELL_W)).bind fun _ =>
        (ckInt (j * s2.CELL_H)).bind fun _ => some s2
      else none) (s1.ROWS - 0).toNat 0 s1)
    (fun _ t => t = s) 80 0 s rfl
    (by
      rintro i t h0 h1 rfl
      have hn2 : (t.ROWS - 0).toNat = 80 := by rw [hR]; decide
      beta_reduce
      rw [hn2]
      obtain ⟨u, hu1, rfl⟩ := forLoopFrom_inv
        (fun (j : Int) (s2 : State) =>
          (ckInt (s2.ROWS * j)).bind fun rj =>
          (ckInt (i + rj)).bind fun idx =>
          if 0 ≤ idx ∧ idx < s2.ROWS * s2.COLS then
            (ckInt (i * s2.CELL_W)).bind fun _ =>
            (ckInt (j * s2.CELL_H)).bind fun _ => some s2
          else none)
        (fun _ u => u = t) 80 0 t rfl
        (by
          rintro j u hj0 hj1 rfl
          refine ⟨u, ?_, rfl⟩
          beta_reduce
          have b1 : 0 ≤ i * u.CELL_W := Int.mul_nonneg (by omega) hw0
          have b2 : i * u.CELL_W ≤ 80 * 1048576 :=
            Int.mul_le_mul (by omega) hw1 hw0 (by omega)
          have b3 : 0 ≤ j * u.CELL_H := Int.mul_nonneg (by omega) hh0
          have b4 : j * u.CELL_H ≤ 80 * 1048576 :=
            Int.mul_le_mul (by omega) hh1 hh0 (by omega)
          rw [hR, hC, ckInt_of_bounds (by omega) (by omega), Option.some_bind,
            ckInt_of_bounds (by omega) (by omega), Option.some_bind,
            if_pos ⟨by omega, by omega⟩,
            ckInt_of_bounds (by omega) (by omega), Option.some_bind,
            ckInt_of_bounds (by omega) (by omega), Option.some_bind])
      exact ⟨u, hu1, rfl⟩)
  exact ht1

/-- Function `init` on the globals as initialised, `SDL_Init` succeeding,
returns the initial state. -/
theorem init_boot : init false bootState = some initState := by
  have c1 : cDiv bootState.WINDOW_W bootState.COLS = some 10 := by decide
  have c2 : cDiv bootState.WINDOW_H bootState.ROWS = some 10 := by decide
  have c3 : ckInt (bootState.ROWS * bootState.COLS) = some 6400 := by decide
  have hb : allocateBoard bootState.COLS bootState.ROWS = some zeroBoard := by
    rw [zeroBoard_eq]
    rfl
  have hi : initInputs { bootState with CELL_W := 10, CELL_H := 10, gameBoard := zeroBoard, tempBoard := zeroBoard } = some initState := rfl
  have hr : initRects initState = some initState :=
    initRects_ok initState rfl rfl (by decide) (by decide) (by decide) (by decide)
  unfold init
  rw [c1, Option.some_bind, c2, Option.some_bind, c3, Option.some_bind, if_neg (by decide), hb,
    Option.some_bind, Option.some_bind, hi, Option.some_bind]
  exact hr

/-- Function `init` with an 850x850 window. -/
theorem init_wide : init false wideWindowBoot = some wideInitState := by
  have c1 : cDiv wideWindowBoot.WINDOW_W wideWindowBoot.COLS = some 10 := by decide
  have c2 : cDiv wideWindowBoot.WINDOW_H wideWindowBoot.ROWS = some 10 := by decide
  have c3 : ckInt (wideWindowBoot.ROWS * wideWindowBoot.COLS) = some 6400 := by decide
  have hb : allocateBoard wideWindowBoot.COLS wideWindowBoot.ROWS = some zeroBoard := by
    rw [zeroBoard_eq]
    rfl
  have hi : initInputs { wideWindowBoot with CELL_W := 10, CELL_H := 10, gameBoard := zeroBoard, tempBoard := zeroBoard } = some wideInitState := rfl
  have hr : initRects wideInitState = some wideInitState :=
    initRects_ok wideInitState rfl rfl (by decide) (by decide) (by decide) (by decide)
  unfold init
  rw [c1, Option.some_bind, c2, Option.some_bind, c3, Option.some_bind, if_neg (by decide), hb,
    Option.some_bind, Option.some_bind, hi, Option.some_bind]
  exact hr

/-- With `ROWS = 3` and `COLS = 2` the stores of `initRects` leave the
rectangle array, as the stores of `tick` leave the board. -/
theorem initRects_tall : initRects tallState = none := by
  decide

/-! ## Claims C14 to C18 -/

/-- C14: on the 3-wide, 2-high board `[10, 11, 12, 13, 14, 15]` the call
`getArrValue(arr, 0, 0, 3, 2)` adds the width to the row before it reduces
it, `(0 + 3) % 2 = 1`, and returns `arr[0 + 2*1] = 12`, where the cell at
column `0 mod 3`, row `0 mod 2`, that is `arr[0 + 2*0]`, holds 10. -/
theorem C14_row_wrap_adds_width :
    getArrValue [10, 11, 12, 13, 14, 15] 0 0 3 2 = some 12 ∧
    wrapCell [10, 11, 12, 13, 14, 15] 0 0 3 2 = some 10 := by
  decide

/-- C15: for `key = NUM_INPUTS = 7` the guard `key > NUM_INPUTS` of
`getInput`, `getFirstInput` and `getLastInput` does not fire and
`currInputs[7]` is read, outside the seven entries of the array (no value in
the model); from `key = NUM_INPUTS + 1` on, and for negative keys, the guard
returns 0. -/
theorem C15_key_NUM_INPUTS_is_read :
    getInput initState NUM_INPUTS = none ∧
    getFirstInput initState NUM_INPUTS = none ∧
    getLastInput initState NUM_INPUTS = none ∧
    getInput initState (NUM_INPUTS + 1) = some 0 ∧
    getInput initState (-1) = some 0 := by
  decide

/-- C16: with an 850x850 window and the 80x80 grid (`1 <= COLS <= WINDOW_W`,
`1 <= ROWS <= WINDOW_H`) `init` computes `CELL_W = CELL_H = 10`, and for the
pointer pixel `(849, 849)` inside the window `updateMouseRect` stores
`MouseRect = (84, 84)`, outside `0 <= x < COLS`, `0 <= y < ROWS`. -/
theorem C16_cursor_column_outside_grid :
    1 ≤ wideWindowBoot.COLS ∧ wideWindowBoot.COLS ≤ wideWindowBoot.WINDOW_W ∧
    1 ≤ wideWindowBoot.ROWS ∧ wideWindowBoot.ROWS ≤ wideWindowBoot.WINDOW_H ∧
    (0 : Int) ≤ 849 ∧ 849 < wideWindowBoot.WINDOW_W ∧ 849 < wideWindowBoot.WINDOW_H ∧
    ((init false wideWindowBoot).bind fun s => updateMouseRect s 849 849).map
      (fun s => (s.CELL_W, s.CELL_H, s.MouseRect, s.COLS, s.ROWS))
        = some (10, 10, ⟨84, 84⟩, 80, 80) := by
  refine ⟨by decide, by decide, by decide, by decide, by decide, by decide, by decide, ?_⟩
  rw [init_wide]
  rfl

theorem cDiv_eq (a b : Int) (hb : b ≠ 0) (h : ¬ (a = INT_MIN ∧ b = -1)) :
    cDiv a b = some (Int.tdiv a b) := by
  unfold cDiv
  rw [if_neg (fun hh => hh.elim hb h)]

/-- C17: `updateMouseRect(x, y)` returns the state unchanged (so `MouseRect`
keeps both fields, and nothing is divided) when `CELL_W == 0` or
`CELL_H == 0`; otherwise, the two C divisions being defined (not
`INT_MIN / -1`), it changes `MouseRect` alone, to
`(x / CELL_W, y / CELL_H)` with truncating division.  Whenever it returns,
the boards, the input arrays, `paused` and `speed` are as before. -/
theorem C17_updateMouseRect_guard_and_division (s : State) (x y : Int) :
    ((s.CELL_W = 0 ∨ s.CELL_H = 0) → updateMouseRect s x y = some s) ∧
    (¬ (s.CELL_W = 0 ∨ s.CELL_H = 0) →
      ¬ (x = INT_MIN ∧ s.CELL_W = -1) → ¬ (y = INT_MIN ∧ s.CELL_H = -1) →
      updateMouseRect s x y
        = some { s with MouseRect := ⟨Int.tdiv x s.CELL_W, Int.tdiv y s.CELL_H⟩ }) ∧
    (∀ t, updateMouseRect s x y = some t →
      t.gameBoard = s.gameBoard ∧ t.tempBoard = s.tempBoard ∧
      t.currInputs = s.currInputs ∧ t.prevInputs = s.prevInputs ∧
      t.paused = s.paused ∧ t.speed = s.speed) := by
  refine ⟨fun h0 => ?_, fun h0 hx hy => ?_, fun t ht => ?_⟩
  · unfold updateMouseRect
    rw [if_pos h0]
  · unfold updateMouseRect
    rw [if_neg h0, cDiv_eq x s.CELL_W (fun h => h0 (Or.inl h)) hx, Option.some_bind,
      cDiv_eq y s.CELL_H (fun h => h0 (Or.inr h)) hy, Option.some_bind]
  · unfold updateMouseRect at ht
    split at ht
    · rw [Option.some.injEq] at ht
      rw [← ht]
      exact ⟨rfl, rfl, rfl, rfl, rfl, rfl⟩
    · simp only [Option.bind_eq_some] at ht
      obtain ⟨_, _, _, _, ht⟩ := ht
      rw [Option.some.injEq] at ht
      rw [← ht]
      exact ⟨rfl, rfl, rfl, rfl, rfl, rfl⟩

theorem C17_updateMouseRect_guard_and_division_witness :
    updateMouseRect zeroCellState 799 5 = some zeroCellState ∧
    updateMouseRect initState 799 5 = some { initState with MouseRect := ⟨79, 0⟩ } :=
  ⟨(C17_updateMouseRect_guard_and_division zeroCellState 799 5).1 (by decide),
   (C17_updateMouseRect_guard_and_division initState 799 5).2.1 (by decide) (by decide)
     (by decide)⟩

/-- C18: with `ROWS = 3`, `COLS = 2` and the 6-cell boards `allocateBoard(COLS,
ROWS)` returns, the in-range cell `(col, row) = (1, 2)` has index
`1 + 2*ROWS = 7`, outside the board: the store to it has no value, and
neither has `tick`.  With `ROWS = 2`, `COLS = 3` the in-range cells `(2, 0)`
and `(0, 1)` share the index 2: a store to the second overwrites the first. -/
theorem C18_row_stride_is_ROWS :
    allocateBoard tallState.COLS tallState.ROWS = some tallState.gameBoard ∧
    setGameCell tallState 1 2 1 = none ∧
    tick tallState = none ∧
    allocateBoard flatState.COLS flatState.ROWS = some flatState.gameBoard ∧
    ((setGameCell flatState 2 0 5).bind fun s => setGameCell s 0 1 7).map State.gameBoard
      = some [0, 0, 7, 0, 0, 0] := by
  decide

/-! ## Binary cells -/

theorem binary_replicate (n : Nat) : Binary (List.replicate n 0) := by
  intro v hv
  exact Or.inl (List.eq_of_mem_replicate hv)

theorem allocateBoard_binary (w h : Int) (b : List Int) (hb : allocateBoard w h = some b) :
    Binary b := by
  unfold allocateBoard at hb
  simp only [Option.bind_eq_some] at hb
  obtain ⟨n, _, hb⟩ := hb
  split at hb
  · rw [Option.some.injEq] at hb
    rw [← hb]
    exact binary_replicate _
  · exact Option.noConfusion hb

theorem binary_zeroBoard : Binary zeroBoard := fun v hv => Or.inl (mem_zeroBoard v hv)

theorem binary_set (l : List Int) (k : Nat) (v : Int) (hl : Binary l) (hv : v = 0 ∨ v = 1) :
    Binary (l.set k v) := by
  intro a ha
  rcases List.mem_or_eq_of_mem_set ha with h | h
  · exact hl a h
  · rw [h]
    exact hv

theorem binary_getD (l : List Int) (k : Nat) (hl : Binary l) :
    l.getD k 0 = 0 ∨ l.getD k 0 = 1 := by
  by_cases h : k < l.length
  · exact hl _ (getD_mem_of_lt l k h)
  · left
    rw [List.getD_eq_default _ _ (by omega)]

theorem tickRule_is_binary (v : Int) (n : Nat) (hv : v = 0 ∨ v = 1) :
    tickRule v n = 0 ∨ tickRule v n = 1 := by
  unfold tickRule
  split
  · split
    · exact Or.inl rfl
    · exact hv
  · split
    · exact Or.inr rfl
    · exact hv

/-- The board `tick` computes from a binary board is binary. -/
theorem tickBoard_binary (gb : List Int) (hb : Binary gb) : Binary (tickBoard gb) := by
  intro v hv
  obtain ⟨k, hk, rfl⟩ := List.getElem_of_mem hv
  have hk2 : k < 6400 := by rw [tickBoard_length] at hk; exact hk
  rw [← List.getD_eq_getElem _ 0 hk, tickBoard_getD _ _ hk2]
  exact tickRule_is_binary _ _ (binary_getD gb k hb)

theorem paintBoard_binary (s : State) (hb : Binary s.gameBoard) (hin : InputsBinary s) :
    Binary (paintBoard s) := by
  unfold paintBoard
  split
  · exact binary_set _ _ _ hb (binary_getD _ _ hin)
  · exact hb

theorem afterClear_binary (s : State) (hb : Binary s.gameBoard) (hin : InputsBinary s) :
    Binary (afterClear s).gameBoard := by
  unfold afterClear
  split
  · exact binary_zeroBoard
  · exact paintBoard_binary s hb hin

theorem pressedVal_binary (p : Bool) : pressedVal p = 0 ∨ pressedVal p = 1 := by
  cases p
  · exact Or.inl rfl
  · exact Or.inr rfl

/-- A store into `currInputs` of a 0/1 value at one of the seven keys. -/
theorem setInput_binary (s : State) (key v : Int) (hi : InputsOk s) (hin : InputsBinary s)
    (hk : 0 ≤ key) (hk2 : key < 7) (hv : v = 0 ∨ v = 1) :
    ∃ t, setInput s key v = some t ∧ InputsBinary t ∧ InputsOk t ∧
      t.gameBoard = s.gameBoard ∧ t.tempBoard = s.tempBoard ∧ t.ROWS = s.ROWS ∧
      t.COLS = s.COLS := by
  have hw : writeArr s.currInputs key v = some (s.currInputs.set key.toNat v) :=
    writeArr_of_lt _ _ _ hk (by rw [hi.1]; omega)
  refine ⟨{ s with currInputs := s.currInputs.set key.toNat v }, ?_, ?_, ?_, rfl, rfl, rfl, rfl⟩
  · unfold setInput
    rw [hw, Option.some_bind]
  · exact binary_set _ _ _ hin hv
  · exact ⟨(List.length_set _ _ _).trans hi.1, hi.2⟩

/-- Function `updateInputs` with non-negative cell sizes: it returns, stores
only 0/1 held-values and leaves the boards and the grid size alone. -/
theorem updateInputs_binary (e : Event) (s : State) (hi : InputsOk s) (hin : InputsBinary s)
    (hw : 0 ≤ s.CELL_W) (hh : 0 ≤ s.CELL_H) :
    ∃ t, updateInputs e s = some t ∧ InputsBinary t ∧ InputsOk t ∧
      t.gameBoard = s.gameBoard ∧ t.tempBoard = s.tempBoard ∧ t.ROWS = s.ROWS ∧
      t.COLS = s.COLS := by
  cases e with
  | mouseButton b p =>
    have h1 : ∃ s1, (if b = Button.left then setInput s L_CLICK (pressedVal p) else some s)
        = some s1 ∧ InputsBinary s1 ∧ InputsOk s1 ∧ s1.gameBoard = s.gameBoard ∧
          s1.tempBoard = s.tempBoard ∧ s1.ROWS = s.ROWS ∧ s1.COLS = s.COLS := by
      split
      · exact setInput_binary s L_CLICK _ hi hin (by decide) (by decide) (pressedVal_binary p)
      · exact ⟨s, rfl, hin, hi, rfl, rfl, rfl, rfl⟩
    obtain ⟨s1, e1, b1, i1, g1, t1, r1, c1⟩ := h1
    have h2 : ∃ t, (if b = Button.right then setInput s1 R_CLICK (pressedVal p) else some s1)
        = some t ∧ InputsBinary t ∧ InputsOk t ∧ t.gameBoard = s1.gameBoard ∧
          t.tempBoard = s1.tempBoard ∧ t.ROWS = s1.ROWS ∧ t.COLS = s1.COLS := by
      split
      · exact setInput_binary s1 R_CLICK _ i1 b1 (by decide) (by decide) (pressedVal_binary p)
      · exact ⟨s1, rfl, b1, i1, rfl, rfl, rfl, rfl⟩
    obtain ⟨t, e2, b2, i2, g2, t2, r2, c2⟩ := h2
    refine ⟨t, ?_, b2, i2, g2.trans g1, t2.trans t1, r2.trans r1, c2.trans c1⟩
    simp only [updateInputs]
    rw [e1, Option.some_bind, e2]
  | mouseMotion x y =>
    simp only [updateInputs]
    unfold updateMouseRect
    split
    · exact ⟨_, rfl, hin, hi, rfl, rfl, rfl, rfl⟩
    · rename_i hz
      have hz1 : s.CELL_W ≠ 0 := fun h0 => hz (Or.inl h0)
      have hz2 : s.CELL_H ≠ 0 := fun h0 => hz (Or.inr h0)
      have d1 : cDiv x s.CELL_W = some (Int.tdiv x s.CELL_W) :=
        cDiv_eq _ _ hz1 (fun hh1 => by have := hh1.2; omega)
      have d2 : cDiv y s.CELL_H = some (Int.tdiv y s.CELL_H) :=
        cDiv_eq _ _ hz2 (fun hh1 => by have := hh1.2; omega)
      dsimp only
      rw [d1, Option.some_bind, d2, Option.some_bind]
      exact ⟨_, rfl, hin, hi, rfl, rfl, rfl, rfl⟩
  | key sym p =>
    cases sym <;> simp only [updateInputs]
    · exact setInput_binary s UP_ARROW _ hi hin (by decide) (by decide) (pressedVal_binary p)
    · exact setInput_binary s DOWN_ARROW _ hi hin (by decide) (by decide) (pressedVal_binary p)
    · exact setInput_binary s SPACE _ hi hin (by decide) (by decide) (pressedVal_binary p)
    · exact setInput_binary s ENTER _ hi hin (by decide) (by decide) (pressedVal_binary p)
    · exact setInput_binary s ENTER _ hi hin (by decide) (by decide) (pressedVal_binary p)
    · exact setInput_binary s S _ hi hin (by decide) (by decide) (pressedVal_binary p)
    · exact ⟨s, rfl, hin, hi, rfl, rfl, rfl, rfl⟩
  | quit =>
    simp only [updateInputs]
    exact ⟨_, rfl, hin, hi, rfl, rfl, rfl, rfl⟩
  | other =>
    simp only [updateInputs]
    exact ⟨s, rfl, hin, hi, rfl, rfl, rfl, rfl⟩

/-- Function `processInputs` keeps the board binary. -/
theorem processInputs_binary (s : State) (hi : InputsOk s) (hc : Configured s)
    (hm : CursorInGrid s) (hb : Binary s.gameBoard) (hin : InputsBinary s) :
    ∃ t, processInputs s = some t ∧ Binary t.gameBoard ∧ InputsBinary t ∧ Configured t := by
  obtain ⟨t, ht, hct, _, _, hio, hstep, hidle⟩ := processInputs_total s hi hc hm
  have hin2 : InputsBinary t := by
    have a := congrArg Prod.fst hio
    simp only [inputsOf] at a
    unfold InputsBinary
    rw [a]
    exact hin
  refine ⟨t, ht, ?_, hin2, hct⟩
  by_cases hs : stepsNow s
  · rw [(hstep hs).2.2]
    exact tickBoard_binary _ (afterClear_binary s hb hin)
  · rw [(hidle hs).1]
    exact afterClear_binary s hb hin

/-! ## Translation on the torus -/

theorem shiftBoard_length (dx dy : Int) (b : List Int) : (shiftBoard dx dy b).length = 6400 := by
  simp [shiftBoard]

theorem shiftBoard_getD (dx dy : Int) (b : List Int) (k : Nat) (h : k < 6400) :
    (shiftBoard dx dy b).getD k 0
      = cellAt b (((k : Int) % 80 - dx) % 80) (((k : Int) / 80 - dy) % 80) := by
  rw [List.getD_eq_getElem _ _ (by rw [shiftBoard_length]; exact h)]
  simp [shiftBoard]

theorem cellAt_shiftBoard (dx dy : Int) (b : List Int) (x y : Int)
    (hx : 0 ≤ x) (hx2 : x < 80) (hy : 0 ≤ y) (hy2 : y < 80) :
    cellAt (shiftBoard dx dy b) x y = cellAt b ((x - dx) % 80) ((y - dy) % 80) := by
  have e1 : (((x + y * 80).toNat : Nat) : Int) % 80 = x := by omega
  have e2 : (((x + y * 80).toNat : Nat) : Int) / 80 = y := by omega
  have e : cellAt (shiftBoard dx dy b) x y = (shiftBoard dx dy b).getD (x + y * 80).toNat 0 := rfl
  rw [e, shiftBoard_getD _ _ _ _ (by omega), e1, e2]

theorem liveNeighbours_shiftBoard (dx dy : Int) (b : List Int) (x y : Int) :
    liveNeighbours (shiftBoard dx dy b) x y
      = liveNeighbours b ((x - dx) % 80) ((y - dy) % 80) := by
  unfold liveNeighbours
  apply List.countP_congr
  intro d _
  have hc : cellAt (shiftBoard dx dy b) ((x + d.1) % 80) ((y + d.2) % 80)
      = cellAt b (((x + d.1) % 80 - dx) % 80) (((y + d.2) % 80 - dy) % 80) :=
    cellAt_shiftBoard dx dy b _ _ (by omega) (by omega) (by omega) (by omega)
  have e1 : ((x + d.1) % 80 - dx) % 80 = ((x - dx) % 80 + d.1) % 80 := by omega
  have e2 : ((y + d.2) % 80 - dy) % 80 = ((y - dy) % 80 + d.2) % 80 := by omega
  rw [hc, e1, e2]

/-- The generation step commutes with the shift. -/
theorem tickBoard_shiftBoard (dx dy : Int) (b : List Int) :
    tickBoard (shiftBoard dx dy b) = shiftBoard dx dy (tickBoard b) := by
  apply List.ext_getElem
  · rw [tickBoard_length, shiftBoard_length]
  · intro k h1 h2
    have hk : k < 6400 := by rw [tickBoard_length] at h1; exact h1
    rw [← List.getD_eq_getElem _ 0 h1, ← List.getD_eq_getElem _ 0 h2, tickBoard_getD _ _ hk,
      shiftBoard_getD _ _ _ _ hk]
    unfold newCell
    rw [shiftBoard_getD _ _ _ _ hk, liveNeighbours_shiftBoard]
    have hx0 : 0 ≤ ((k : Int) % 80 - dx) % 80 := by omega
    have hx1 : ((k : Int) % 80 - dx) % 80 < 80 := by omega
    have hy0 : 0 ≤ ((k : Int) / 80 - dy) % 80 := by omega
    have hy1 : ((k : Int) / 80 - dy) % 80 < 80 := by omega
    generalize ((k : Int) % 80 - dx) % 80 = x at hx0 hx1
    generalize ((k : Int) / 80 - dy) % 80 = y at hy0 hy1
    have e1 : (((x + y * 80).toNat : Nat) : Int) % 80 = x := by omega
    have e2 : (((x + y * 80).toNat : Nat) : Int) / 80 = y := by omega
    have e : cellAt (tickBoard b) x y = (tickBoard b).getD (x + y * 80).toNat 0 := rfl
    rw [e, tickBoard_getD _ _ (by omega)]
    unfold newCell
    rw [e1, e2]
    rfl

/-! ## Claim C19 -/

/-- C19: "every cell of `gameBoard` is 0 or 1" is an invariant.  Function
`init` on the initial globals returns the initial state, whose board is
binary and whose held-values are all 0, and every board `allocateBoard`
returns is binary.  On a configured state with a binary board, `tick`
returns and leaves `gameBoard` binary, having read the rule table on the
snapshot `tempBoard` that is the old, binary, board; `processInputs` returns
and leaves it binary when the cursor cell is inside the grid and the
held-values are 0 or 1, and keeps the held-values; `updateInputs` returns
(the cell sizes not being negative), stores only held-values 0 or 1 and
leaves the boards alone. -/
theorem C19_cells_stay_binary (s : State) (hc : Configured s) (hb : Binary s.gameBoard) :
    (init false bootState = some initState ∧ Binary initState.gameBoard ∧
      InputsBinary initState) ∧
    (∀ w h b, allocateBoard w h = some b → Binary b) ∧
    (∃ t, tick s = some t ∧ Binary t.gameBoard ∧ Binary t.tempBoard ∧ Configured t) ∧
    (InputsOk s → CursorInGrid s → InputsBinary s →
      ∃ t, processInputs s = some t ∧ Binary t.gameBoard ∧ InputsBinary t ∧ Configured t) ∧
    (∀ e, InputsOk s → InputsBinary s → 0 ≤ s.CELL_W → 0 ≤ s.CELL_H →
      ∃ t, updateInputs e s = some t ∧ InputsBinary t ∧ InputsOk t ∧
        t.gameBoard = s.gameBoard ∧ Configured t) := by
  refine ⟨⟨init_boot, binary_zeroBoard, binary_replicate 7⟩, allocateBoard_binary, ?_,
    fun hi hm hin => processInputs_binary s hi hc hm hb hin, ?_⟩
  · obtain ⟨t, ht, hg, htb, _, hct⟩ := tick_spec s hc
    refine ⟨t, ht, ?_, ?_, hct⟩
    · rw [hg]
      exact tickBoard_binary _ hb
    · rw [htb]
      exact hb
  · intro e hi hin hw hh
    obtain ⟨t, ht, b1, i1, g1, t1, r1, c1⟩ := updateInputs_binary e s hi hin hw hh
    refine ⟨t, ht, b1, i1, g1, ?_⟩
    exact ⟨r1.trans hc.1, c1.trans hc.2.1, by rw [g1]; exact hc.2.2.1, by rw [t1]; exact hc.2.2.2⟩

theorem C19_cells_stay_binary_witness :
    (∃ t, tick blinkerState = some t ∧ Binary t.gameBoard) ∧
    (∃ t, processInputs paintState = some t ∧ Binary t.gameBoard) := by
  have h1 := C19_cells_stay_binary blinkerState blinkerState_configured (boardOf_binary _)
  have hc : Configured paintState := ⟨rfl, rfl, zeroBoard_length, zeroBoard_length⟩
  have h2 := C19_cells_stay_binary paintState hc binary_zeroBoard
  obtain ⟨t1, e1, b1, _⟩ := h1.2.2.1
  obtain ⟨t2, e2, b2, _⟩ := h2.2.2.2.1 ⟨rfl, rfl⟩ ⟨by decide, by decide, by decide, by decide⟩
    (by decide)
  exact ⟨⟨t1, e1, b1⟩, ⟨t2, e2, b2⟩⟩

/-! ## Claim C20 -/

/-- C20: on the configured 80x80 grid, for every board and every shift
`(dx, dy)` of integers, `tick` returns on the board and on the shifted board,
and the board it leaves from the shifted board is the shift of the board it
leaves from the original one; `shiftBoard` moves the content of cell `(c, r)`
to cell `((c + dx) mod 80, (r + dy) mod 80)`. -/
theorem C20_tick_commutes_with_shift (s : State) (dx dy : Int) (hc : Configured s) :
    (∃ t u, tick s = some t ∧
      tick { s with gameBoard := shiftBoard dx dy s.gameBoard } = some u ∧
      u.gameBoard = shiftBoard dx dy t.gameBoard) ∧
    (∀ c r : Int, 0 ≤ c → c < 80 → 0 ≤ r → r < 80 →
      cellAt (shiftBoard dx dy s.gameBoard) ((c + dx) % 80) ((r + dy) % 80)
        = cellAt s.gameBoard c r) ∧
    (Binary s.gameBoard → Binary (shiftBoard dx dy s.gameBoard)) := by
  have hc2 : Configured { s with gameBoard := shiftBoard dx dy s.gameBoard } :=
    ⟨hc.1, hc.2.1, shiftBoard_length _ _ _, hc.2.2.2⟩
  obtain ⟨t, ht, hg, _⟩ := tick_spec s hc
  obtain ⟨u, hu, hgu, _⟩ := tick_spec _ hc2
  refine ⟨⟨t, u, ht, hu, ?_⟩, ?_, ?_⟩
  · rw [hgu, hg]
    exact tickBoard_shiftBoard dx dy s.gameBoard
  · intro c r h1 h2 h3 h4
    rw [cellAt_shiftBoard _ _ _ _ _ (by omega) (by omega) (by omega) (by omega)]
    have e1 : ((c + dx) % 80 - dx) % 80 = c := by omega
    have e2 : ((r + dy) % 80 - dy) % 80 = r := by omega
    rw [e1, e2]
  · intro hb v hv
    obtain ⟨k, hk, rfl⟩ := List.getElem_of_mem hv
    have hk2 : k < 6400 := by rw [shiftBoard_length] at hk; exact hk
    rw [← List.getD_eq_getElem _ 0 hk, shiftBoard_getD _ _ _ _ hk2]
    exact binary_getD _ _ hb

theorem C20_tick_commutes_with_shift_witness :
    ∃ t u, tick gliderState = some t ∧
      tick { gliderState with gameBoard := shiftBoard 79 (-3) gliderState.gameBoard } = some u ∧
      u.gameBoard = shiftBoard 79 (-3) t.gameBoard :=
  (C20_tick_commutes_with_shift gliderState 79 (-3)
    ⟨rfl, rfl, boardOf_length _, zeroBoard_length⟩).1

end Conway
